import Mathlib

/-!
Verification of the PlayCanvasTS transform hierarchy and skeletal-animation
evaluator: a shallow embedding of `GraphNode` (src/unnamed/part_001),
`Skeleton` / `InterpolatedKey` (src/src/anim/skeleton.ts),
`Animation` / `Node` / `Key` (src/src/anim/animation.ts) and the `Mat4`
matrix operations (src/ts_to_cpp/mat4.cpp), together with proofs about the
dirty-flag protocol, the lazy world-transform resolution, the enabled-state
cache, keyframe evaluation and pose blending.

Conventions of the embedding:
* JS numbers are modelled by the exact rationals. The source stores IEEE
  floats; every claim proved here is about exact values, so the rational
  model is faithful to the algorithms, not to rounding.
* JS object state is passed explicitly; an in-place mutator becomes a
  function returning the updated value.
* A thrown JS exception becomes an Option result with value none; the
  source throws before mutating, so no partial state needs to be carried
  unless noted otherwise.
* Underscore-prefixed JS fields drop the underscore.
-/

namespace PlayCanvas

/-- 3-component vector over the rationals. The source file vec3.ts is not
among the staged sources; the fields follow the spec's data model. -/
structure Vec3 where
  x : ℚ
  y : ℚ
  z : ℚ
deriving DecidableEq, Repr

namespace Vec3

/-- The default Vec3 constructor value (new pc.Vec3() is the zero vector). -/
def zero : Vec3 := ⟨0, 0, 0⟩

/-- Modelled from the spec: the external math contract (spec section 6) lists
Vec3.lerp with explicit output target; the PlayCanvas linear interpolation is
r = lhs + alpha * (rhs - lhs), componentwise. vec3.ts is not among the
staged sources. -/
def lerp (lhs rhs : Vec3) (alpha : ℚ) : Vec3 :=
  ⟨lhs.x + alpha * (rhs.x - lhs.x),
   lhs.y + alpha * (rhs.y - lhs.y),
   lhs.z + alpha * (rhs.z - lhs.z)⟩

/-- Modelled from the spec: Vec3.add (componentwise sum), spec section 6. -/
def add (a b : Vec3) : Vec3 := ⟨a.x + b.x, a.y + b.y, a.z + b.z⟩

end Vec3

/-- Quaternion over the rationals, components (x, y, z, w). The source file
quat.ts is not among the staged sources; the fields follow the spec's data
model and the uses in graph-node.ts and skeleton.ts. -/
structure Quat where
  x : ℚ
  y : ℚ
  z : ℚ
  w : ℚ
deriving DecidableEq, Repr

namespace Quat

/-- The default Quat constructor value: the identity rotation (0, 0, 0, 1). -/
def one : Quat := ⟨0, 0, 0, 1⟩

/-- Modelled from the spec: the external math contract lists quaternion
slerp (spherical interpolation); the blend doc comment in skeleton.ts pins
its endpoint behaviour (alpha 0 generates the left operand, alpha 1 the
right). True spherical interpolation needs transcendental functions, which
have no exact rational form, so this model keeps the interpolation shape
and the documented endpoint behaviour: componentwise lhs + alpha*(rhs-lhs).
No theorem below depends on interior values of slerp. -/
def slerp (lhs rhs : Quat) (alpha : ℚ) : Quat :=
  ⟨lhs.x + alpha * (rhs.x - lhs.x),
   lhs.y + alpha * (rhs.y - lhs.y),
   lhs.z + alpha * (rhs.z - lhs.z),
   lhs.w + alpha * (rhs.w - lhs.w)⟩

/-- Modelled from the spec: quaternion multiplication (Hamilton product,
the PlayCanvas Quat.mul2 convention), spec section 6. Used by rotateLocal. -/
def mul (q r : Quat) : Quat :=
  ⟨q.w * r.x + q.x * r.w + q.y * r.z - q.z * r.y,
   q.w * r.y + q.y * r.w + q.z * r.x - q.x * r.z,
   q.w * r.z + q.z * r.w + q.x * r.y - q.y * r.x,
   q.w * r.w - q.x * r.x - q.y * r.y - q.z * r.z⟩

/-- Modelled from the spec: Quat.transformVector rotates a vector by the
quaternion (polynomial in the components, the standard sandwich product).
Used by translateLocal. -/
def transformVector (q : Quat) (v : Vec3) : Vec3 :=
  let ix : ℚ := q.w * v.x + q.y * v.z - q.z * v.y
  let iy : ℚ := q.w * v.y + q.z * v.x - q.x * v.z
  let iz : ℚ := q.w * v.z + q.x * v.y - q.y * v.x
  let iw : ℚ := -q.x * v.x - q.y * v.y - q.z * v.z
  ⟨ix * q.w + iw * -q.x + iy * -q.z - iz * -q.y,
   iy * q.w + iw * -q.y + iz * -q.x - ix * -q.z,
   iz * q.w + iw * -q.z + ix * -q.y - iy * -q.x⟩

end Quat

/-- 4x4 matrix, column-major data layout as in src/ts_to_cpp/mat4.cpp:
field mI is data[I] of the source. -/
structure Mat4 where
  m0 : ℚ
  m1 : ℚ
  m2 : ℚ
  m3 : ℚ
  m4 : ℚ
  m5 : ℚ
  m6 : ℚ
  m7 : ℚ
  m8 : ℚ
  m9 : ℚ
  m10 : ℚ
  m11 : ℚ
  m12 : ℚ
  m13 : ℚ
  m14 : ℚ
  m15 : ℚ
deriving DecidableEq, Repr

namespace Mat4

/-- The Mat4 constructor: the identity matrix (mat4.cpp, Mat4()). -/
def one : Mat4 := ⟨1,0,0,0, 0,1,0,0, 0,0,1,0, 0,0,0,1⟩

/-- Mat4.mul2 of mat4.cpp: r = lhs * rhs, column-major. -/
def mul2 (lhs rhs : Mat4) : Mat4 :=
  ⟨lhs.m0 * rhs.m0 + lhs.m4 * rhs.m1 + lhs.m8 * rhs.m2 + lhs.m12 * rhs.m3,
   lhs.m1 * rhs.m0 + lhs.m5 * rhs.m1 + lhs.m9 * rhs.m2 + lhs.m13 * rhs.m3,
   lhs.m2 * rhs.m0 + lhs.m6 * rhs.m1 + lhs.m10 * rhs.m2 + lhs.m14 * rhs.m3,
   lhs.m3 * rhs.m0 + lhs.m7 * rhs.m1 + lhs.m11 * rhs.m2 + lhs.m15 * rhs.m3,
   lhs.m0 * rhs.m4 + lhs.m4 * rhs.m5 + lhs.m8 * rhs.m6 + lhs.m12 * rhs.m7,
   lhs.m1 * rhs.m4 + lhs.m5 * rhs.m5 + lhs.m9 * rhs.m6 + lhs.m13 * rhs.m7,
   lhs.m2 * rhs.m4 + lhs.m6 * rhs.m5 + lhs.m10 * rhs.m6 + lhs.m14 * rhs.m7,
   lhs.m3 * rhs.m4 + lhs.m7 * rhs.m5 + lhs.m11 * rhs.m6 + lhs.m15 * rhs.m7,
   lhs.m0 * rhs.m8 + lhs.m4 * rhs.m9 + lhs.m8 * rhs.m10 + lhs.m12 * rhs.m11,
   lhs.m1 * rhs.m8 + lhs.m5 * rhs.m9 + lhs.m9 * rhs.m10 + lhs.m13 * rhs.m11,
   lhs.m2 * rhs.m8 + lhs.m6 * rhs.m9 + lhs.m10 * rhs.m10 + lhs.m14 * rhs.m11,
   lhs.m3 * rhs.m8 + lhs.m7 * rhs.m9 + lhs.m11 * rhs.m10 + lhs.m15 * rhs.m11,
   lhs.m0 * rhs.m12 + lhs.m4 * rhs.m13 + lhs.m8 * rhs.m14 + lhs.m12 * rhs.m15,
   lhs.m1 * rhs.m12 + lhs.m5 * rhs.m13 + lhs.m9 * rhs.m14 + lhs.m13 * rhs.m15,
   lhs.m2 * rhs.m12 + lhs.m6 * rhs.m13 + lhs.m10 * rhs.m14 + lhs.m14 * rhs.m15,
   lhs.m3 * rhs.m12 + lhs.m7 * rhs.m13 + lhs.m11 * rhs.m14 + lhs.m15 * rhs.m15⟩

/-- Mat4.setTRS of mat4.cpp: the matrix of a translation, a quaternion
rotation and a scale. -/
def setTRS (t : Vec3) (r : Quat) (s : Vec3) : Mat4 :=
  let x2 : ℚ := r.x + r.x
  let y2 : ℚ := r.y + r.y
  let z2 : ℚ := r.z + r.z
  let xx : ℚ := r.x * x2
  let xy : ℚ := r.x * y2
  let xz : ℚ := r.x * z2
  let yy : ℚ := r.y * y2
  let yz : ℚ := r.y * z2
  let zz : ℚ := r.z * z2
  let wx : ℚ := r.w * x2
  let wy : ℚ := r.w * y2
  let wz : ℚ := r.w * z2
  ⟨(1 - (yy + zz)) * s.x,
   (xy + wz) * s.x,
   (xz - wy) * s.x,
   0,
   (xy - wz) * s.y,
   (1 - (xx + zz)) * s.y,
   (yz + wx) * s.y,
   0,
   (xz + wy) * s.z,
   (yz - wx) * s.z,
   (1 - (xx + yy)) * s.z,
   0,
   t.x, t.y, t.z, 1⟩

/-- Mat4.transformPoint of mat4.cpp. -/
def transformPoint (m : Mat4) (v : Vec3) : Vec3 :=
  ⟨v.x * m.m0 + v.y * m.m4 + v.z * m.m8 + m.m12,
   v.x * m.m1 + v.y * m.m5 + v.z * m.m9 + m.m13,
   v.x * m.m2 + v.y * m.m6 + v.z * m.m10 + m.m14⟩

/-- Mat4.getTranslation of mat4.cpp. -/
def getTranslation (m : Mat4) : Vec3 := ⟨m.m12, m.m13, m.m14⟩

/-- Mat4.invert of mat4.cpp: cofactor inversion; a zero determinant falls
back to the identity (spec section 7). -/
def invert (m : Mat4) : Mat4 :=
  let b00 : ℚ := m.m0 * m.m5 - m.m1 * m.m4
  let b01 : ℚ := m.m0 * m.m6 - m.m2 * m.m4
  let b02 : ℚ := m.m0 * m.m7 - m.m3 * m.m4
  let b03 : ℚ := m.m1 * m.m6 - m.m2 * m.m5
  let b04 : ℚ := m.m1 * m.m7 - m.m3 * m.m5
  let b05 : ℚ := m.m2 * m.m7 - m.m3 * m.m6
  let b06 : ℚ := m.m8 * m.m13 - m.m9 * m.m12
  let b07 : ℚ := m.m8 * m.m14 - m.m10 * m.m12
  let b08 : ℚ := m.m8 * m.m15 - m.m11 * m.m12
  let b09 : ℚ := m.m9 * m.m14 - m.m10 * m.m13
  let b10 : ℚ := m.m9 * m.m15 - m.m11 * m.m13
  let b11 : ℚ := m.m10 * m.m15 - m.m11 * m.m14
  let det : ℚ := b00 * b11 - b01 * b10 + b02 * b09 + b03 * b08 - b04 * b07 + b05 * b06
  if det = 0 then one
  else
    let invDet : ℚ := 1 / det
    ⟨(m.m5 * b11 - m.m6 * b10 + m.m7 * b09) * invDet,
     (-m.m1 * b11 + m.m2 * b10 - m.m3 * b09) * invDet,
     (m.m13 * b05 - m.m14 * b04 + m.m15 * b03) * invDet,
     (-m.m9 * b05 + m.m10 * b04 - m.m11 * b03) * invDet,
     (-m.m4 * b11 + m.m6 * b08 - m.m7 * b07) * invDet,
     (m.m0 * b11 - m.m2 * b08 + m.m3 * b07) * invDet,
     (-m.m12 * b05 + m.m14 * b02 - m.m15 * b01) * invDet,
     (m.m8 * b05 - m.m10 * b02 + m.m11 * b01) * invDet,
     (m.m4 * b10 - m.m5 * b08 + m.m7 * b06) * invDet,
     (-m.m0 * b10 + m.m1 * b08 - m.m3 * b06) * invDet,
     (m.m12 * b04 - m.m13 * b02 + m.m15 * b00) * invDet,
     (-m.m8 * b04 + m.m9 * b02 - m.m11 * b00) * invDet,
     (-m.m4 * b09 + m.m5 * b07 - m.m6 * b06) * invDet,
     (m.m0 * b09 - m.m1 * b07 + m.m2 * b06) * invDet,
     (-m.m12 * b03 + m.m13 * b01 - m.m14 * b00) * invDet,
     (m.m8 * b03 - m.m9 * b01 + m.m10 * b00) * invDet⟩

/-- Modelled from the spec: Mat4.getScale of mat4.cpp takes the Euclidean
length of each basis column (Vec3.length, a square root), which has no
exact rational form. This stand-in returns the squared lengths instead.
It is read only inside the scale-compensation branch of the GraphNode sync
step, which no claim exercises (claim C1 explicitly excludes nodes with
scaleCompensation set, and no public operation sets that flag). -/
def getScaleModel (m : Mat4) : Vec3 :=
  ⟨m.m0 * m.m0 + m.m1 * m.m1 + m.m2 * m.m2,
   m.m4 * m.m4 + m.m5 * m.m5 + m.m6 * m.m6,
   m.m8 * m.m8 + m.m9 * m.m9 + m.m10 * m.m10⟩

end Mat4

/-- Modelled from the spec: Quat.setFromMat4 extracts the rotation of a
matrix (square roots of traces; no exact rational form). The stand-in
returns the identity rotation; it is read only inside the
scale-compensation branch of the GraphNode sync step, which no claim
exercises. -/
def Quat.setFromMat4Model (_m : Mat4) : Quat := Quat.one

/-- Componentwise product of two Vec3 (Vec3.mul2 of the math contract),
used only in the scale-compensation branch of GraphNode. sync. -/
def Vec3.mul2 (a b : Vec3) : Vec3 := ⟨a.x * b.x, a.y * b.y, a.z * b.z⟩

end PlayCanvas

namespace PlayCanvas

/-- The per-node state of a GraphNode (src/unnamed/part_001, constructor at
lines 166-205). Omitted fields feed no claim: tags, labels, graphDepth,
aabbVer, dirtyNormal, normalMatrix, and the cached derived world-state
vectors (position, rotation, eulerAngles, localEulerAngles), which are
scratch outputs recomputed from worldTransform on every read. The parent
pointer and the child list are represented positionally by the tree type
below (a node's parent is the node above it; a root has a null parent). -/
structure GNodeData where
  name : String
  localPosition : Vec3
  localRotation : Quat
  localScale : Vec3
  localTransform : Mat4
  worldTransform : Mat4
  dirtyLocal : Bool
  dirtyWorld : Bool
  enabled : Bool
  enabledInHierarchy : Bool
  scaleCompensation : Bool
deriving DecidableEq, Repr

/-- The GraphNode constructor state (lines 166-205): identity transforms,
clean flags, enabled true but enabledInHierarchy false. -/
def freshData (name : String) : GNodeData :=
  { name := name
    localPosition := Vec3.zero
    localRotation := Quat.one
    localScale := ⟨1, 1, 1⟩
    localTransform := Mat4.one
    worldTransform := Mat4.one
    dirtyLocal := false
    dirtyWorld := false
    enabled := true
    enabledInHierarchy := false
    scaleCompensation := false }

/-- The local TRS matrix of a node's current local state:
setTRS(localPosition, localRotation, localScale). -/
def GNodeData.trs (d : GNodeData) : Mat4 :=
  Mat4.setTRS d.localPosition d.localRotation d.localScale

mutual
/-- A GraphNode together with its subtree of children. -/
inductive GTree where
  | node : GNodeData → GForest → GTree
/-- An ordered list of child subtrees (the children array). -/
inductive GForest where
  | nil : GForest
  | cons : GTree → GForest → GForest
end

/-- A path from a node down to a descendant: child indices. -/
abbrev Path := List Nat

namespace GForest

def get? : GForest → Nat → Option GTree
  | .nil, _ => none
  | .cons t _, 0 => some t
  | .cons _ f, n + 1 => f.get? n

/-- Apply g to the child at index i; out-of-range leaves the list unchanged
(the source operations are invoked on existing children). -/
def modifyIdx : GForest → Nat → (GTree → GTree) → GForest
  | .nil, _, _ => .nil
  | .cons t f, 0, g => .cons (g t) f
  | .cons t f, n + 1, g => .cons t (f.modifyIdx n g)

def removeIdx : GForest → Nat → GForest
  | .nil, _ => .nil
  | .cons _ f, 0 => f
  | .cons t f, n + 1 => .cons t (f.removeIdx n)

/-- Array.splice(i, 0, t): insert before index i, clamping to the end. -/
def insertIdxClamped : GForest → Nat → GTree → GForest
  | f, 0, t => .cons t f
  | .nil, _ + 1, t => .cons t .nil
  | .cons c f, n + 1, t => .cons c (f.insertIdxClamped n t)

/-- Array.push: append at the end. -/
def push : GForest → GTree → GForest
  | .nil, t => .cons t .nil
  | .cons c f, t => .cons c (f.push t)

def length : GForest → Nat
  | .nil => 0
  | .cons _ f => f.length + 1

end GForest

namespace GTree

def data : GTree → GNodeData
  | .node d _ => d

def kids : GTree → GForest
  | .node _ c => c

/-- Update the data of the root node of a subtree. -/
def upd (g : GNodeData → GNodeData) : GTree → GTree
  | .node d c => .node (g d) c

/-- The subtree rooted at the node reached by following the path. -/
def sub? : GTree → Path → Option GTree
  | t, [] => some t
  | .node _ c, i :: is => match c.get? i with
    | some s => s.sub? is
    | none => none

def dataAt (t : GTree) (p : Path) : Option GNodeData := (t.sub? p).map data

/-- Apply a subtree transformation at the end of a path; an invalid path
leaves the tree unchanged. -/
def appAt (g : GTree → GTree) : GTree → Path → GTree
  | t, [] => g t
  | .node d c, i :: is => .node d (c.modifyIdx i (fun s => appAt g s is))

end GTree

mutual
/-- GraphNode. dirtifyWorldImpl (lines 923-931): set dirtyWorld and recurse
into the children that are not already dirtyWorld. The dirtyNormal and
aabbVer updates feed no claim and are omitted. -/
def GTree.dirtifyWorldImpl : GTree → GTree
  | .node d c => .node { d with dirtyWorld := true } (GForest.dirtifyWorldKids c)
def GForest.dirtifyWorldKids : GForest → GForest
  | .nil => .nil
  | .cons t f =>
    .cons (if t.data.dirtyWorld then t else t.dirtifyWorldImpl) (GForest.dirtifyWorldKids f)
end

/-- GraphNode. dirtifyWorld (lines 915-921). The queueSync call touches only
the external application sync queue, which holds no node state; the source
re-tests dirtyWorld after it and the model keeps that structure. -/
def GTree.dirtifyWorld (t : GTree) : GTree :=
  if t.data.dirtyWorld then t
  else if t.data.dirtyWorld then t else t.dirtifyWorldImpl

/-- GraphNode. dirtifyLocal (lines 907-913). -/
def GTree.dirtifyLocal (t : GTree) : GTree :=
  if t.data.dirtyLocal then t
  else if (t.upd (fun d => { d with dirtyLocal := true })).data.dirtyWorld then
    t.upd (fun d => { d with dirtyLocal := true })
  else (t.upd (fun d => { d with dirtyLocal := true })).dirtifyWorld

/-- The tail common to every local mutator (for example setLocalPosition,
lines 823-832): assign, then dirtifyLocal unless already dirtyLocal. -/
def GTree.writeLocal (g : GNodeData → GNodeData) (t : GTree) : GTree :=
  if (t.upd g).data.dirtyLocal then t.upd g else (t.upd g).dirtifyLocal

/-- writeLocal applied at the node reached by a path. -/
def GTree.writeLocalAt (t : GTree) (p : Path) (g : GNodeData → GNodeData) : GTree :=
  t.appAt (GTree.writeLocal g) p

/-- GraphNode.getLocalTransform (lines 677-683): recompose the local matrix
and clear dirtyLocal only (dirtyWorld is untouched). -/
def GTree.getLocalTransformAt (t : GTree) (p : Path) : GTree :=
  t.appAt (GTree.upd (fun d =>
    if d.dirtyLocal then { d with localTransform := d.trs, dirtyLocal := false } else d)) p

/-- The world matrix computed by the scale-compensation branch of
GraphNode. sync (lines 1281-1320). anc is the ancestor chain of the node,
nearest first, so anc.head is the parent. When the walk finds no
non-compensating ancestor with a parent, the source leaves parentWorldScale
undefined, and would fault on undefined arithmetic if the immediate parent
also compensates; the model defaults that vector to zero. No claim
exercises this branch. -/
def syncCompWorld (anc : List GNodeData) (parent : GNodeData) (d : GNodeData) : Mat4 :=
  let pwsOpt : Option Vec3 :=
    match anc.dropWhile (fun a => a.scaleCompensation) with
    | [] => none
    | _ :: above => above.head?.map (fun g => g.worldTransform.getScaleModel)
  let scale : Vec3 :=
    match pwsOpt with
    | some pws => Vec3.mul2 pws d.localScale
    | none => d.localScale
  let rot2 : Quat := Quat.setFromMat4Model parent.worldTransform
  let rot : Quat := Quat.mul rot2 d.localRotation
  let tmatrix : Mat4 :=
    if parent.scaleCompensation then
      Mat4.setTRS parent.worldTransform.getTranslation rot2
        (Vec3.mul2 (pwsOpt.getD Vec3.zero) parent.localScale)
    else parent.worldTransform
  Mat4.setTRS (tmatrix.transformPoint d.localPosition) rot scale

/-- The dirtyLocal half of GraphNode. sync (lines 1271-1275): recompose the
local matrix from the TRS state and clear the flag. -/
def syncLocal (d : GNodeData) : GNodeData :=
  if d.dirtyLocal then { d with localTransform := d.trs, dirtyLocal := false } else d

/-- The dirtyWorld half of GraphNode. sync (lines 1277-1328): recompose the
world matrix from the parent's stored worldTransform (or copy the local
matrix at a root) and clear the flag. -/
def syncWorldDirty : List GNodeData → GNodeData → GNodeData
  | [], d1 => { d1 with worldTransform := d1.localTransform, dirtyWorld := false }
  | parent :: rest, d1 =>
    if d1.scaleCompensation then
      { d1 with worldTransform := syncCompWorld (parent :: rest) parent d1, dirtyWorld := false }
    else
      { d1 with worldTransform := Mat4.mul2 parent.worldTransform d1.localTransform,
                dirtyWorld := false }

def syncWorld (anc : List GNodeData) (d1 : GNodeData) : GNodeData :=
  if d1.dirtyWorld then syncWorldDirty anc d1 else d1

/-- GraphNode. sync (lines 1270-1329): the local half followed by the world
half. anc is the ancestor chain, nearest first. -/
def syncData (anc : List GNodeData) (d : GNodeData) : GNodeData :=
  syncWorld anc (syncLocal d)

/-- Apply the sync step to the node at the given path, collecting the
ancestor data along the way (anc is the chain already above the current
node, nearest first). -/
def GTree.syncAtAux (anc : List GNodeData) : GTree → Path → GTree
  | .node d c, [] => .node (syncData anc d) c
  | .node d c, i :: is => .node d (c.modifyIdx i (fun s => s.syncAtAux (d :: anc) is))

def GTree.syncAt (t : GTree) (p : Path) : GTree := t.syncAtAux [] p

/-- GraphNode.getWorldTransform (lines 742-752), state effect: if the node
is clean return at once; otherwise resolve the parent chain first, then
sync this node against the parent's now-current world matrix. -/
def GTree.resolveAt (t : GTree) (p : Path) : GTree :=
  match t.sub? p with
  | none => t
  | some n =>
    if n.data.dirtyLocal = false ∧ n.data.dirtyWorld = false then t
    else if h : p = [] then t.syncAt p
    else (t.resolveAt p.dropLast).syncAt p
termination_by p.length
decreasing_by
  simp only [List.length_dropLast]
  cases p with
  | nil => exact absurd rfl h
  | cons a as => simp

/-- The matrix value GraphNode.getWorldTransform returns: the worldTransform
field of the node after the resolve. -/
def GTree.getWorldTransformAt (t : GTree) (p : Path) : Option Mat4 :=
  ((t.resolveAt p).dataAt p).map (fun d => d.worldTransform)

mutual
/-- GraphNode.findByName (lines 448-456) returning the path of the first
depth-first node with the name (the source returns the node object). -/
def GTree.findByName : GTree → String → Option Path
  | .node d c, nm => if d.name = nm then some [] else GForest.findByNameKids c nm 0
def GForest.findByNameKids : GForest → String → Nat → Option Path
  | .nil, _, _ => none
  | .cons t f, nm, i =>
    match t.findByName nm with
    | some p => some (i :: p)
    | none => f.findByNameKids nm (i + 1)
end

mutual
/-- The depth-first preorder list of node names, the traversal order of
addInterpolatedKeys in the Skeleton constructor (skeleton.ts lines 55-66). -/
def GTree.namesDF : GTree → List String
  | .node d c => d.name :: GForest.namesDFKids c
def GForest.namesDFKids : GForest → List String
  | .nil => []
  | .cons t f => GTree.namesDF t ++ GForest.namesDFKids f
end

mutual
/-- GraphNode. notifyHierarchyStateChanged (lines 207-215): write the new
effective enabled state into this node, then recurse into the children
whose own enabled flag is set. -/
def GTree.notifyTree (e : Bool) : GTree → GTree
  | .node d c => .node { d with enabledInHierarchy := e } (GForest.notifyKids e c)
def GForest.notifyKids (e : Bool) : GForest → GForest
  | .nil => .nil
  | .cons t f =>
    .cons (if t.data.enabled then t.notifyTree e else t) (GForest.notifyKids e f)
end

/-- The enabled property getter (lines 1602-1608):
this. enabled and this. enabledInHierarchy. -/
def GNodeData.enabledGetter (d : GNodeData) : Bool := d.enabled && d.enabledInHierarchy

/-- The enable half of the enabled setter: enabling dirtifies (the
queueSync call holds no node state), disabling only cancels the pending
queue entry. -/
def dirtifyIfEnable (e : Bool) (t : GTree) : GTree :=
  if e then t.dirtifyLocal else t

/-- The notification guard of the enabled setter: notify when there is no
parent or the parent's enabled getter is true. -/
def notifyIfParentOk (pg : Option Bool) (e : Bool) (t : GTree) : GTree :=
  if pg.getD true then t.notifyTree e else t

/-- The enabled property setter (lines 1610-1626) applied at a path; pg is
the parent's enabled getter value (none at a root). The queueSync and
cancelSync calls touch only the external queue and are omitted. -/
def GTree.setEnabledAux (pg : Option Bool) : GTree → Path → Bool → GTree
  | t, [], e =>
    if t.data.enabled = e then t
    else notifyIfParentOk pg e (dirtifyIfEnable e (t.upd (fun d => { d with enabled := e })))
  | .node d c, i :: is, e =>
    .node d (c.modifyIdx i (fun s => s.setEnabledAux (some d.enabledGetter) is e))

def GTree.setEnabledAt (t : GTree) (p : Path) (e : Bool) : GTree :=
  t.setEnabledAux none p e

/-- GraphNode. onInsertChild (lines 1117-1147) applied to the child subtree
in the context of the parent's data: recompute the child's effective
enabled state and propagate it if changed, then dirtifyLocal the child.
The graph-depth update, the queueSync call and the fire events hold no
modelled state. The parent pointer is positional. -/
def onInsertChild (parent : GNodeData) (c : GTree) : GTree :=
  (if c.data.enabledInHierarchy = (c.data.enabled && parent.enabledGetter) then c
   else c.notifyTree (c.data.enabled && parent.enabledGetter)).dirtifyLocal

/-- Push a new child at the end of the child list of the node at the path
and run the insertion effects (GraphNode.addChild lines 1074-1080 after
its guard). -/
def GTree.attachChildAt (t : GTree) (p : Path) (c : GTree) : GTree :=
  t.appAt (fun sub =>
    match sub with
    | .node d cs => .node d (cs.push (onInsertChild d c))) p

/-- Splice a new child in at an index (GraphNode.insertChild lines
1109-1115 after its guard). -/
def GTree.insertChildAt (t : GTree) (p : Path) (i : Nat) (c : GTree) : GTree :=
  t.appAt (fun sub =>
    match sub with
    | .node d cs => .node d (cs.insertIdxClamped i (onInsertChild d c))) p

/-- Detach the subtree at a non-empty path: the remaining tree and the
detached subtree (GraphNode.removeChild lines 1172-1191: the child's parent
pointer becomes null, positionally the subtree becomes standalone; note the
source removes the child without dirtying it). -/
def GTree.detachAt : GTree → Path → Option (GTree × GTree)
  | _, [] => none
  | .node d c, i :: is =>
    match c.get? i with
    | none => none
    | some s =>
      match is with
      | [] => some (.node d (c.removeIdx i), s)
      | _ :: _ => (s.detachAt is).map (fun pr => (.node d (c.modifyIdx i (fun _ => pr.1)), pr.2))

end PlayCanvas

namespace PlayCanvas

/-- A keyframe sample (src/src/anim/animation.ts, class Key). -/
structure Key where
  time : ℚ
  position : Vec3
  rotation : Quat
  scale : Vec3
deriving DecidableEq, Repr

/-- An animation channel: a named, time-ordered array of keyframes
(animation.ts, class Node; renamed to avoid the tree constructor). -/
structure AnimNode where
  name : String
  keys : List Key
deriving DecidableEq, Repr

/-- A named collection of channels with a duration (animation.ts, class
Animation; the name-to-node dictionary is derived data and is not needed by
any claim). -/
structure Animation where
  name : String
  duration : ℚ
  nodes : List AnimNode
deriving DecidableEq, Repr

/-- The per-channel interpolation result slot (skeleton.ts, class
InterpolatedKey). The target binding is the path of the bound GraphNode
inside the skeleton's graph (the source stores the node object itself). -/
structure InterpKey where
  written : Bool
  name : String
  quat : Quat
  pos : Vec3
  scale : Vec3
  target : Option Path
deriving DecidableEq, Repr

/-- A fresh InterpolatedKey as built by its field initializers. -/
def InterpKey.fresh (nm : String) : InterpKey :=
  { written := false, name := nm, quat := Quat.one, pos := Vec3.zero,
    scale := Vec3.zero, target := none }

/-- The Skeleton state (skeleton.ts lines 39-67). The two JS dictionaries
are modelled as: currKeyIndices, a total function on names (the source
initializes exactly the graph-node names and only ever reads those); and
the interpolated-key dictionary, as lookup of the last list entry carrying
a name (the constructor overwrites the dict entry on duplicate names, so
the dict aliases the last pushed key of that name). hasGraph mirrors
whether this.graph is non-null; the bound tree itself is passed explicitly
to the operations that reach it through this.graph. -/
structure Skeleton where
  animation : Option Animation
  time : ℚ
  looping : Bool
  interpolatedKeys : List InterpKey
  currKeyIndices : String → ℤ
  hasGraph : Bool

/-- The Skeleton constructor (lines 50-67): one InterpolatedKey and one
zero cursor per graph node, in depth-first preorder. -/
def Skeleton.make (graph : GTree) : Skeleton :=
  { animation := none, time := 0, looping := true,
    interpolatedKeys := graph.namesDF.map InterpKey.fresh,
    currKeyIndices := fun _ => 0,
    hasGraph := false }

/-- The index the interpolated-key dictionary resolves a name to: the last
entry with that name (JS dict writes overwrite). -/
def lastIdxOf : List InterpKey → String → Option Nat
  | [], _ => none
  | k :: rest, nm =>
    match lastIdxOf rest nm with
    | some i => some (i + 1)
    | none => if k.name = nm then some 0 else none

def modifyIdxL {α : Type} : List α → Nat → (α → α) → List α
  | [], _, _ => []
  | a :: as, 0, g => g a :: as
  | a :: as, n + 1, g => a :: modifyIdxL as n g

/-- A sequence of JS dictionary writes name = value, in list order, later
writes shadowing earlier ones. -/
def setCursors (f : String → ℤ) : List (String × ℤ) → String → ℤ
  | [] => f
  | pr :: rest => setCursors (fun n => if n = pr.1 then pr.2 else f n) rest

/-- The advance-and-boundary phase of Skeleton.addTime (lines 93-110):
advance the play-head, then wrap or clamp; on overflow every channel cursor
is written to 0, on underflow to keys.length - 2, in both looping modes. -/
def Skeleton.addTimeAdvance (s : Skeleton) (a : Animation) (delta : ℚ) : Skeleton :=
  let s1 := { s with time := s.time + delta }
  if s1.time > a.duration then
    { s1 with time := if s1.looping then 0 else a.duration,
              currKeyIndices := setCursors s1.currKeyIndices
                (a.nodes.map (fun n => (n.name, 0))) }
  else if s1.time < 0 then
    { s1 with time := if s1.looping then a.duration else 0,
              currKeyIndices := setCursors s1.currKeyIndices
                (a.nodes.map (fun n => (n.name, (n.keys.length : ℤ) - 2))) }
  else s1

/-- The bracketing-pair search of addTime (lines 136-152): from idx, step by
offset while idx < keys.length - 1 and idx >= 0, returning the first index
whose pair straddles the play-head. Each iteration moves idx by one inside
the window of keys.length - 1 cells, so at most keys.length - 1 iterations
run from any start; fuel = keys.length therefore never cuts the loop short
and only serves termination. -/
def keySearch (keys : List Key) (time : ℚ) (offset : ℤ) : ℤ → Nat → Option ℤ
  | _, 0 => none
  | idx, fuel + 1 =>
    if idx < (keys.length : ℤ) - 1 ∧ 0 ≤ idx then
      match keys.get? idx.toNat, keys.get? (idx.toNat + 1) with
      | some k1, some k2 =>
        if k1.time ≤ time ∧ k2.time ≥ time then some idx
        else keySearch keys time offset (idx + offset) fuel
      | _, _ => none
    else none

/-- One channel of the per-node loop of addTime (lines 119-160). A name
with no interpolated key is skipped with a diagnostic (line 126). On a
found pair the pose is interpolated at alpha and the cursor stored; with a
single key, or with no pair found at play-head 0 while looping, the first
key is copied. Division by a zero key-time gap would be NaN in the source
and is rational division by zero here; no claim exercises it. -/
def Skeleton.addTimeChannel (s : Skeleton) (offset : ℤ) (n : AnimNode) : Skeleton :=
  match lastIdxOf s.interpolatedKeys n.name with
  | none => s
  | some ki =>
    let keys := n.keys
    let searched : Option ℤ :=
      if keys.length ≠ 1 then
        keySearch keys s.time offset (s.currKeyIndices n.name) keys.length
      else none
    -- the pose write and the cursor store of the found branch (the inner
    -- list reads cannot miss when keySearch returns an index, since the
    -- search guards the bounds; a miss would be a fault in the source)
    let found : (InterpKey → InterpKey) × Option ℤ :=
      match searched with
      | some idx =>
        match keys.get? idx.toNat, keys.get? (idx.toNat + 1) with
        | some k1, some k2 =>
          let alpha := (s.time - k1.time) / (k2.time - k1.time)
          (fun k =>
            { k with pos := Vec3.lerp k1.position k2.position alpha,
                     quat := Quat.slerp k1.rotation k2.rotation alpha,
                     scale := Vec3.lerp k1.scale k2.scale alpha,
                     written := true }, some idx)
        | _, _ => (id, none)
      | none => (id, none)
    -- the single-key and loop-boundary fallback: copy the first key
    let fb : InterpKey → InterpKey :=
      if keys.length = 1 ∨ (searched.isNone ∧ s.time = 0 ∧ s.looping) then
        match keys.head? with
        | some k0 => fun k =>
            { k with pos := k0.position, quat := k0.rotation, scale := k0.scale,
                     written := true }
        | none => id
      else id
    { s with
      interpolatedKeys := modifyIdxL s.interpolatedKeys ki (fun k => fb (found.1 k)),
      currKeyIndices :=
        match found.2 with
        | some idx => fun nm => if nm = n.name then idx else s.currKeyIndices nm
        | none => s.currKeyIndices }

/-- The per-channel phase of addTime: fold over the animation's nodes. -/
def Skeleton.addTimeChannels (s : Skeleton) (a : Animation) (delta : ℚ) : Skeleton :=
  let offset : ℤ := if delta ≥ 0 then 1 else -1
  a.nodes.foldl (fun st n => st.addTimeChannel offset n) s

/-- Skeleton.addTime (lines 79-161): no-op without an animation; fast-path
exit at the end when not looping; otherwise advance-and-boundary followed
by the per-channel evaluation. -/
def Skeleton.addTime (s : Skeleton) (delta : ℚ) : Skeleton :=
  match s.animation with
  | none => s
  | some a =>
    if s.time = a.duration ∧ s.looping = false then s
    else ((s.addTimeAdvance a delta).addTimeChannels a delta)

/-- The per-channel case split of Skeleton.blend (lines 180-195). -/
def blendStep (alpha : ℚ) (dst k1 k2 : InterpKey) : InterpKey :=
  if k1.written ∧ k2.written then
    { dst with quat := Quat.slerp k1.quat k2.quat alpha,
               pos := Vec3.lerp k1.pos k2.pos alpha,
               scale := Vec3.lerp k1.scale k2.scale alpha,
               written := true }
  else if k1.written then
    { dst with quat := k1.quat, pos := k1.pos, scale := k1.scale, written := true }
  else if k2.written then
    { dst with quat := k2.quat, pos := k2.pos, scale := k2.scale, written := true }
  else dst

/-- The index-aligned walk of blend. The source indexes skel1 and skel2 by
the destination's channel count and would fault on a shorter source; the
skeletons being blended have identical layouts by construction, and the
theorems below carry that hypothesis. -/
def blendKeys (alpha : ℚ) : List InterpKey → List InterpKey → List InterpKey → List InterpKey
  | d :: ds, a :: as, b :: bs => blendStep alpha d a b :: blendKeys alpha ds as bs
  | ds, _, _ => ds

/-- Skeleton.blend (lines 173-197). -/
def Skeleton.blend (s skel1 skel2 : Skeleton) (alpha : ℚ) : Skeleton :=
  { s with interpolatedKeys :=
      blendKeys alpha s.interpolatedKeys skel1.interpolatedKeys skel2.interpolatedKeys }

/-- Skeleton.setGraph (lines 311-326): bind every channel to the first
depth-first node of the root carrying the channel's name, or to nothing;
a null root unbinds every channel. -/
def Skeleton.setGraph (s : Skeleton) (g : Option GTree) : Skeleton :=
  match g with
  | some root =>
    { s with hasGraph := true,
             interpolatedKeys := s.interpolatedKeys.map
               (fun k => { k with target := root.findByName k.name }) }
  | none =>
    { s with hasGraph := false,
             interpolatedKeys := s.interpolatedKeys.map
               (fun k => { k with target := none }) }

/-- The channel loop of Skeleton.updateGraph (lines 340-354). For each
written channel the pose is written into the bound node's local TRS,
dirtifyLocal runs unless the node is already dirtyLocal, and written
clears. The source reads the binding through getTarget() with a non-null
assertion, so a written channel bound to no node faults with a null
dereference: the run returns false in that position, with the channels
already processed committed (the JS exception propagates mid-loop). -/
def updateGraphRun : List InterpKey → GTree → (List InterpKey × GTree × Bool)
  | [], g => ([], g, true)
  | k :: ks, g =>
    if k.written then
      match k.target with
      | none => (k :: ks, g, false)
      | some path =>
        let g1 := g.writeLocalAt path (fun d =>
          { d with localPosition := k.pos, localRotation := k.quat, localScale := k.scale })
        let pr := updateGraphRun ks g1
        ({ k with written := false } :: pr.1, pr.2.1, pr.2.2)
    else
      let pr := updateGraphRun ks g
      (k :: pr.1, pr.2.1, pr.2.2)

/-- Skeleton.updateGraph (lines 336-355): a no-op without a bound graph;
otherwise commit every written channel; none models the null-dereference
fault on a written unbound channel. -/
def Skeleton.updateGraph (s : Skeleton) (g : GTree) : Option (Skeleton × GTree) :=
  if s.hasGraph = false then some (s, g)
  else
    let r := updateGraphRun s.interpolatedKeys g
    if r.2.2 then some ({ s with interpolatedKeys := r.1 }, r.2.1) else none

/-- The currentTime setter (lines 228-239): set the play-head, reset every
channel's cursor to 0 (keyed by each InterpolatedKey's name), re-evaluate
with addTime(0) and push to the bound graph. The source reaches the graph
through this.graph; the embedding passes it explicitly. -/
def Skeleton.setCurrentTime (s : Skeleton) (g : GTree) (v : ℚ) : Option (Skeleton × GTree) :=
  let s1 := { s with time := v,
                     currKeyIndices := setCursors s.currKeyIndices
                       (s.interpolatedKeys.map (fun k => (InterpKey.name k, (0 : ℤ)))) }
  (s1.addTime 0).updateGraph g

/-- The animation setter (lines 208-211): assign, then currentTime = 0. -/
def Skeleton.setAnimation (s : Skeleton) (g : GTree) (a : Animation) : Option (Skeleton × GTree) :=
  ({ s with animation := some a }).setCurrentTime g 0

/-- Skeleton.setLooping (lines 368-370). -/
def Skeleton.setLooping (s : Skeleton) (l : Bool) : Skeleton := { s with looping := l }

end PlayCanvas

namespace PlayCanvas

/-! Tree-level semantics of the public transform operations. Operations
whose assigned value passes through an external trigonometric or
square-root primitive (Quat.setFromEulerAngles, Quat.setFromMat4 inside
getRotation) have no exact rational form; those operations are
parametrized by the resulting local-rotation value, which ranges over all
quaternions — a superset of the assignments the source can produce, so
every property proved over all parameter values covers the source. The
resolve side effects (which getWorldTransform calls the source makes
before assigning) follow the source exactly. -/

/-- GraphNode.setLocalPosition (lines 823-832) at a path. -/
def GTree.setLocalPositionAt (t : GTree) (p : Path) (v : Vec3) : GTree :=
  t.writeLocalAt p (fun d => { d with localPosition := v })

/-- GraphNode.setLocalRotation (lines 853-862) at a path. -/
def GTree.setLocalRotationAt (t : GTree) (p : Path) (q : Quat) : GTree :=
  t.writeLocalAt p (fun d => { d with localRotation := q })

/-- GraphNode.setLocalEulerAngles (lines 794-803): the euler-to-quaternion
conversion is external trigonometry; q is the converted rotation. -/
def GTree.setLocalEulerAnglesAt (t : GTree) (p : Path) (q : Quat) : GTree :=
  t.writeLocalAt p (fun d => { d with localRotation := q })

/-- GraphNode.setLocalScale (lines 882-891) at a path. -/
def GTree.setLocalScaleAt (t : GTree) (p : Path) (v : Vec3) : GTree :=
  t.writeLocalAt p (fun d => { d with localScale := v })

/-- GraphNode.setPosition (lines 965-983): at a root the world position is
the local position; otherwise the parent chain is resolved through
getWorldTransform and the point is carried through the inverse parent
world matrix. -/
def GTree.setPositionAt (t : GTree) (p : Path) (v : Vec3) : GTree :=
  match p with
  | [] => t.writeLocalAt [] (fun d => { d with localPosition := v })
  | _ :: _ =>
    let t1 := t.resolveAt p.dropLast
    let pw := ((t1.dataAt p.dropLast).map GNodeData.worldTransform).getD Mat4.one
    t1.writeLocalAt p (fun d => { d with localPosition := pw.invert.transformPoint v })

/-- GraphNode.setRotation (lines 1004-1026): with a parent, the source
resolves the parent chain through parent.getRotation(); the assigned local
rotation is the parameter (see the section comment). -/
def GTree.setRotationAt (t : GTree) (p : Path) (q : Quat) : GTree :=
  match p with
  | [] => t.writeLocalAt [] (fun d => { d with localRotation := q })
  | _ :: _ => (t.resolveAt p.dropLast).writeLocalAt p (fun d => { d with localRotation := q })

/-- GraphNode.setEulerAngles (lines 1047-1063): same resolve shape as
setRotation; q is the final assigned local rotation. -/
def GTree.setEulerAnglesAt (t : GTree) (p : Path) (q : Quat) : GTree :=
  match p with
  | [] => t.writeLocalAt [] (fun d => { d with localRotation := q })
  | _ :: _ => (t.resolveAt p.dropLast).writeLocalAt p (fun d => { d with localRotation := q })

/-- GraphNode.translate (lines 1428-1438): the argument plus getPosition()
(which resolves this node), then setPosition. -/
def GTree.translateAt (t : GTree) (p : Path) (v : Vec3) : GTree :=
  let t1 := t.resolveAt p
  let w := (((t1.dataAt p).map GNodeData.worldTransform).getD Mat4.one).getTranslation
  t1.setPositionAt p (v.add w)

/-- GraphNode.translateLocal (lines 1458-1471): move the local position by
the argument rotated through the local rotation; no resolve. -/
def GTree.translateLocalAt (t : GTree) (p : Path) (v : Vec3) : GTree :=
  t.writeLocalAt p (fun d =>
    { d with localPosition := d.localPosition.add (d.localRotation.transformVector v) })

/-- GraphNode.rotate (lines 1491-1513): with a parent the source resolves
this node's chain through getRotation(); q is the final local rotation. -/
def GTree.rotateAt (t : GTree) (p : Path) (q : Quat) : GTree :=
  match p with
  | [] => t.writeLocalAt [] (fun d => { d with localRotation := q })
  | _ :: _ => (t.resolveAt p).writeLocalAt p (fun d => { d with localRotation := q })

/-- GraphNode.rotateLocal (lines 1534-1547): right-multiply the local
rotation by the (externally converted) argument rotation. -/
def GTree.rotateLocalAt (t : GTree) (p : Path) (q : Quat) : GTree :=
  t.writeLocalAt p (fun d => { d with localRotation := d.localRotation.mul q })

/-- GraphNode.lookAt (lines 1380-1408): getPosition() resolves this node,
then setRotation with the look-at rotation (external: setLookAt normalizes
axes); q is the final local rotation. -/
def GTree.lookAtAt (t : GTree) (p : Path) (q : Quat) : GTree :=
  (t.resolveAt p).setRotationAt p q

/-- The transform-operation alphabet of claim C1 on a fixed hierarchy: the
public local and world mutators, the resolving readers (getWorldTransform
and the readers that call it: getPosition, getRotation, getEulerAngles and
the axis accessors all resolve and then read the cached matrix), the
local-matrix reader, and a sync-queue drain step for one node. The drain
resolution of a queued node is not part of the staged sources (the queue
lives in the hosting Application); per the spec, draining resolves a
node's world transform, and getWorldTransform self-heals up the root, so a
drain step is modelled as a getWorldTransform call on an arbitrary node —
arbitrary interleavings of drainSync steps cover every drain order. -/
inductive TOp where
  | setLocalPosition (p : Path) (v : Vec3)
  | setLocalRotation (p : Path) (q : Quat)
  | setLocalEulerAngles (p : Path) (q : Quat)
  | setLocalScale (p : Path) (v : Vec3)
  | setPosition (p : Path) (v : Vec3)
  | setRotation (p : Path) (q : Quat)
  | setEulerAngles (p : Path) (q : Quat)
  | translate (p : Path) (v : Vec3)
  | translateLocal (p : Path) (v : Vec3)
  | rotate (p : Path) (q : Quat)
  | rotateLocal (p : Path) (q : Quat)
  | lookAt (p : Path) (q : Quat)
  | getWorldTransform (p : Path)
  | getLocalTransform (p : Path)
  | drainSync (p : Path)

def TOp.apply : TOp → GTree → GTree
  | .setLocalPosition p v, t => t.setLocalPositionAt p v
  | .setLocalRotation p q, t => t.setLocalRotationAt p q
  | .setLocalEulerAngles p q, t => t.setLocalEulerAnglesAt p q
  | .setLocalScale p v, t => t.setLocalScaleAt p v
  | .setPosition p v, t => t.setPositionAt p v
  | .setRotation p q, t => t.setRotationAt p q
  | .setEulerAngles p q, t => t.setEulerAnglesAt p q
  | .translate p v, t => t.translateAt p v
  | .translateLocal p v, t => t.translateLocalAt p v
  | .rotate p q, t => t.rotateAt p q
  | .rotateLocal p q, t => t.rotateLocalAt p q
  | .lookAt p q, t => t.lookAtAt p q
  | .getWorldTransform p, t => t.resolveAt p
  | .getLocalTransform p, t => t.getLocalTransformAt p
  | .drainSync p, t => t.resolveAt p

def applyTOps (t : GTree) (ops : List TOp) : GTree :=
  ops.foldl (fun acc o => o.apply acc) t

/-! The forest of root nodes: every GraphNode ever constructed is a root
until attached. An address is a root index and a path. -/

abbrev Forest := List GTree

abbrev Addr := Nat × Path

def forestDataAt (f : Forest) (a : Addr) : Option GNodeData :=
  (f.get? a.1).bind (fun t => t.dataAt a.2)

/-- GraphNode.addChild (lines 1074-1080): a node that already has a parent
is rejected with a thrown error before any mutation (none). Positionally a
node has a parent exactly when its path is non-empty. Attaching a tree
into itself (the child is the root of the tree holding the parent) would
build a parent cycle on which the source diverges
(updateGraphDepth recurses forever); the positional model cannot represent
a cyclic forest and also answers none there. -/
def Forest.addChild (f : Forest) (p c : Addr) : Option Forest :=
  if c.2 ≠ [] then none
  else if p.1 = c.1 then none
  else
    match f.get? p.1, f.get? c.1 with
    | some pt, some ct =>
      if (pt.sub? p.2).isSome then
        some ((f.set p.1 (pt.attachChildAt p.2 ct)).eraseIdx c.1)
      else none
    | _, _ => none

/-- GraphNode.insertChild (lines 1109-1115): as addChild, at an index. -/
def Forest.insertChild (f : Forest) (p c : Addr) (i : Nat) : Option Forest :=
  if c.2 ≠ [] then none
  else if p.1 = c.1 then none
  else
    match f.get? p.1, f.get? c.1 with
    | some pt, some ct =>
      if (pt.sub? p.2).isSome then
        some ((f.set p.1 (pt.insertChildAt p.2 i ct)).eraseIdx c.1)
      else none
    | _, _ => none

/-- GraphNode.removeChild (lines 1172-1191): if the argument is one of this
node's children, splice it out and null its parent (positionally: the
subtree becomes a new root); otherwise the scan finds nothing and the call
is a no-op. The removed child keeps its flags and matrices (the source
does not dirty it). -/
def Forest.removeChild (f : Forest) (p c : Addr) : Forest :=
  if c.1 = p.1 ∧ c.2 ≠ [] ∧ c.2.dropLast = p.2 then
    match f.get? p.1 with
    | some pt =>
      match pt.detachAt c.2 with
      | some pr => (f.set p.1 pr.1) ++ [pr.2]
      | none => f
    | none => f
  else f

/-- GraphNode.reparent (lines 761-773): removeChild from the current
parent when there is one, then insertChild at the index if it is
non-negative, else addChild. After the removal the detached subtree is the
last root of the forest. The source works on object references; address
aliasing between the two steps (a target address running through the
detached position) is not re-derived — the operation is the literal
composition of the two primitives, and the operation parameters range over
all addresses, which covers every state the source reaches. -/
def Forest.reparentDetached (f : Forest) (c : Addr) : Forest × Addr :=
  match c.2 with
  | [] => (f, c)
  | _ :: _ => (Forest.removeChild f (c.1, c.2.dropLast) c,
      ((Forest.removeChild f (c.1, c.2.dropLast) c).length - 1, []))

def Forest.reparent (f : Forest) (c p : Addr) (i : ℤ) : Option Forest :=
  if 0 ≤ i then
    Forest.insertChild (Forest.reparentDetached f c).1 p (Forest.reparentDetached f c).2 i.toNat
  else Forest.addChild (Forest.reparentDetached f c).1 p (Forest.reparentDetached f c).2

/-- GraphNode.addChildAndSaveTransform (lines 1082-1097): read the world
pose of the child (getPosition resolves its chain), detach it from its
current parent, write the preserved pose into its now-parentless local
state (the world position carried through the inverse of the new parent's
stored — not resolved — world matrix; the rotation passes through inverse
quaternion arithmetic with no exact rational form and is the parameter),
then push and run the insertion effects. There is no already-parented
guard on this operation. -/
def Forest.acastDetached (f : Forest) (c : Addr) (ct0 : GTree) : Forest × Addr :=
  Forest.reparentDetached (f.set c.1 (ct0.resolveAt c.2)) c

def Forest.acastNewPos (f : Forest) (p c : Addr) (ct0 : GTree) : Vec3 :=
  ((((forestDataAt (Forest.acastDetached f c ct0).1 p).map
      GNodeData.worldTransform).getD Mat4.one).invert).transformPoint
    (((((ct0.resolveAt c.2).dataAt c.2).map GNodeData.worldTransform).getD Mat4.one).getTranslation)

def Forest.acastChild (f : Forest) (p c : Addr) (q : Quat) (ct0 ct2 : GTree) : GTree :=
  (ct2.writeLocalAt [] (fun d => { d with localPosition := Forest.acastNewPos f p c ct0 })).writeLocalAt []
    (fun d => { d with localRotation := q })

def Forest.addChildAndSaveTransform (f : Forest) (p c : Addr) (q : Quat) : Option Forest :=
  match f.get? c.1 with
  | none => none
  | some ct0 =>
    match (Forest.acastDetached f c ct0).1.get? (Forest.acastDetached f c ct0).2.1 with
    | none => none
    | some ct2 =>
      if p.1 = (Forest.acastDetached f c ct0).2.1 then none
      else
        match (Forest.acastDetached f c ct0).1.get? p.1 with
        | none => none
        | some pt =>
          if (pt.sub? p.2).isSome then
            some ((((Forest.acastDetached f c ct0).1.set (Forest.acastDetached f c ct0).2.1
                (Forest.acastChild f p c q ct0 ct2)).set p.1
              (((Forest.acastDetached f c ct0).1.set (Forest.acastDetached f c ct0).2.1
                  (Forest.acastChild f p c q ct0 ct2)).get? p.1 |>.getD pt
                |>.attachChildAt p.2 (Forest.acastChild f p c q ct0 ct2))).eraseIdx
              (Forest.acastDetached f c ct0).2.1)
          else none

/-- The operation alphabet of the invariant claims C4, C9 and C10: every
public GraphNode mutator and resolving reader at forest addresses, the
hierarchy mutators, the enabled setter, and Skeleton.updateGraph (whose
effect on the hierarchy is its channel loop run against one root; the
channel list parameter ranges over all channel states, a superset of the
skeleton states the source can hold). An operation on an invalid address
leaves the forest unchanged (the source has no node to call the method
on). -/
inductive GOp where
  | setLocalPosition (a : Addr) (v : Vec3)
  | setLocalRotation (a : Addr) (q : Quat)
  | setLocalEulerAngles (a : Addr) (q : Quat)
  | setLocalScale (a : Addr) (v : Vec3)
  | setPosition (a : Addr) (v : Vec3)
  | setRotation (a : Addr) (q : Quat)
  | setEulerAngles (a : Addr) (q : Quat)
  | translate (a : Addr) (v : Vec3)
  | translateLocal (a : Addr) (v : Vec3)
  | rotate (a : Addr) (q : Quat)
  | rotateLocal (a : Addr) (q : Quat)
  | lookAt (a : Addr) (q : Quat)
  | getWorldTransform (a : Addr)
  | getLocalTransform (a : Addr)
  | addChild (p c : Addr)
  | insertChild (p c : Addr) (i : Nat)
  | removeChild (p c : Addr)
  | reparent (c p : Addr) (i : ℤ)
  | addChildAndSaveTransform (p c : Addr) (q : Quat)
  | setEnabled (a : Addr) (e : Bool)
  | skelUpdateGraph (root : Nat) (chans : List InterpKey)

/-- Lift a tree transformation to one root of the forest. -/
def liftT (i : Nat) (g : GTree → GTree) (f : Forest) : Forest := modifyIdxL f i g

def GOp.apply : GOp → Forest → Forest
  | .setLocalPosition a v, f => liftT a.1 (fun t => t.setLocalPositionAt a.2 v) f
  | .setLocalRotation a q, f => liftT a.1 (fun t => t.setLocalRotationAt a.2 q) f
  | .setLocalEulerAngles a q, f => liftT a.1 (fun t => t.setLocalEulerAnglesAt a.2 q) f
  | .setLocalScale a v, f => liftT a.1 (fun t => t.setLocalScaleAt a.2 v) f
  | .setPosition a v, f => liftT a.1 (fun t => t.setPositionAt a.2 v) f
  | .setRotation a q, f => liftT a.1 (fun t => t.setRotationAt a.2 q) f
  | .setEulerAngles a q, f => liftT a.1 (fun t => t.setEulerAnglesAt a.2 q) f
  | .translate a v, f => liftT a.1 (fun t => t.translateAt a.2 v) f
  | .translateLocal a v, f => liftT a.1 (fun t => t.translateLocalAt a.2 v) f
  | .rotate a q, f => liftT a.1 (fun t => t.rotateAt a.2 q) f
  | .rotateLocal a q, f => liftT a.1 (fun t => t.rotateLocalAt a.2 q) f
  | .lookAt a q, f => liftT a.1 (fun t => t.lookAtAt a.2 q) f
  | .getWorldTransform a, f => liftT a.1 (fun t => t.resolveAt a.2) f
  | .getLocalTransform a, f => liftT a.1 (fun t => t.getLocalTransformAt a.2) f
  | .addChild p c, f => (Forest.addChild f p c).getD f
  | .insertChild p c i, f => (Forest.insertChild f p c i).getD f
  | .removeChild p c, f => Forest.removeChild f p c
  | .reparent c p i, f => (Forest.reparent f c p i).getD f
  | .addChildAndSaveTransform p c q, f => (Forest.addChildAndSaveTransform f p c q).getD f
  | .setEnabled a e, f => liftT a.1 (fun t => t.setEnabledAt a.2 e) f
  | .skelUpdateGraph r chans, f => liftT r (fun t => (updateGraphRun chans t).2.1) f

def applyGOps (f : Forest) (ops : List GOp) : Forest :=
  ops.foldl (fun acc o => o.apply acc) f

/-- The forest of freshly constructed standalone nodes the operation
sequences start from. -/
def initForest (names : List String) : Forest :=
  names.map (fun nm => GTree.node (freshData nm) GForest.nil)

mutual
/-- The dirty-flag invariant of one subtree, stated locally: dirtyLocal
implies dirtyWorld at every node (claim C4), and a dirtyWorld node has
every child dirtyWorld (the local form of descendant closure, claim
C10). -/
def InvFlags : GTree → Prop
  | .node d c => (d.dirtyLocal = true → d.dirtyWorld = true) ∧ InvFlagsKids d.dirtyWorld c
def InvFlagsKids : Bool → GForest → Prop
  | _, .nil => True
  | dw, .cons t f => (dw = true → t.data.dirtyWorld = true) ∧ InvFlags t ∧ InvFlagsKids dw f
end

mutual
/-- The enabled-cache invariant of one subtree, stated locally: every
child's cached enabledInHierarchy equals its own enabled flag AND its
parent's enabled AND the parent's cached flag (claim C9, amended form:
nothing is guaranteed of a root's own cache). -/
def InvEnabled : GTree → Prop
  | .node d c => InvEnabledKids d c
def InvEnabledKids : GNodeData → GForest → Prop
  | _, .nil => True
  | d, .cons t f =>
    t.data.enabledInHierarchy = (t.data.enabled && d.enabledGetter)
    ∧ InvEnabled t ∧ InvEnabledKids d f
end

/-- The world transform a node should have: the parent chain product times
the node's local TRS matrix (parent world times local, left-associated as
the sync step computes it). -/
def expWorld : Option Mat4 → GNodeData → Mat4
  | none, d => d.trs
  | some pw, d => Mat4.mul2 pw d.trs

mutual
/-- The resolution invariant of claim C1 over a scale-compensation-free
tree, carrying the parent chain product pw: the dirty-flag implication, a
clean local matrix agrees with the current TRS, a clean world matrix
agrees with the chain product, children of a dirtyWorld node are
dirtyWorld, recursively. -/
def Inv1 : Option Mat4 → GTree → Prop
  | pw, .node d c =>
    d.scaleCompensation = false
    ∧ (d.dirtyLocal = true → d.dirtyWorld = true)
    ∧ (d.dirtyLocal = false → d.localTransform = d.trs)
    ∧ (d.dirtyWorld = false → d.worldTransform = expWorld pw d)
    ∧ Inv1Kids (some (expWorld pw d)) d.dirtyWorld c
def Inv1Kids : Option Mat4 → Bool → GForest → Prop
  | _, _, .nil => True
  | pw, dw, .cons t f =>
    (dw = true → t.data.dirtyWorld = true) ∧ Inv1 pw t ∧ Inv1Kids pw dw f
end

/-- The product of the local TRS matrices along the path from the root to
a node, left-associated; none when the path leaves the tree. -/
def pathProdAux : Option Mat4 → GTree → Path → Option Mat4
  | acc, t, [] => some (expWorld acc t.data)
  | acc, .node d c, i :: is =>
    match c.get? i with
    | none => none
    | some s => pathProdAux (some (expWorld acc d)) s is

def GTree.pathProductAt (t : GTree) (p : Path) : Option Mat4 := pathProdAux none t p

/-- Neither the addressed node nor any ancestor of it has
scaleCompensation set. -/
def GTree.pathScaleFree : GTree → Path → Bool
  | t, [] => !t.data.scaleCompensation
  | .node d c, i :: is =>
    !d.scaleCompensation &&
      (match c.get? i with
       | some s => s.pathScaleFree is
       | none => true)

/-- The constructor state with both dirty flags raised: the state of every
node that has just been attached below another (the insertion effects mark
the inserted subtree dirtyLocal and dirtyWorld). -/
def freshDirty (nm : String) : GNodeData :=
  { freshData nm with dirtyLocal := true, dirtyWorld := true }

mutual
def buildInitKids : GForest → GForest
  | .nil => .nil
  | .cons t f => .cons (buildInitSub t) (buildInitKids f)
def buildInitSub : GTree → GTree
  | .node d c => .node (freshDirty d.name) (buildInitKids c)
end

/-- The state of a hierarchy of a given shape assembled top-down from
freshly constructed nodes by addChild: the root keeps its clean
constructor state, every attached node carries both dirty flags (each
addChild dirtifies the inserted node). Only the names of the argument are
consumed. -/
def buildInit : GTree → GTree
  | .node d c => .node (freshData d.name) (buildInitKids c)

/-! Concrete inputs for the counterexamples and witnesses. -/

/-- A keyframe at a time with an x-position, identity rotation, unit
scale. -/
def kq (t px : ℚ) : Key :=
  { time := t, position := ⟨px, 0, 0⟩, rotation := Quat.one, scale := ⟨1, 1, 1⟩ }

/-- A single GraphNode named b. -/
def gB : GTree := GTree.node (freshData "b") GForest.nil

/-- A 3-key channel for node b with keys at times 0, 1, 2 and duration 3
(an animation whose duration runs past its last key). -/
def animC2 : Animation :=
  { name := "clip2", duration := 3, nodes := [{ name := "b", keys := [kq 0 0, kq 1 1, kq 2 2] }] }

/-- The skeleton over gB with animC2 bound (the animation setter rewinds to
time 0), looping off, advanced to play-head 3/2: its cursor for b sits at
key pair 1. -/
def skC2pre : Skeleton :=
  (((((Skeleton.make gB).setAnimation gB animC2).map Prod.fst).getD
    (Skeleton.make gB)).setLooping false).addTime (3 / 2)

/-- The 2-key loop-wrap animation of the spec's section 8: keys (0,0) and
(1,10), duration 1. -/
def animC3 : Animation :=
  { name := "clip3", duration := 1, nodes := [{ name := "b", keys := [kq 0 0, kq 1 10] }] }

/-- The skeleton over gB with animC3 bound, looping (the constructor
default), play-head 0. -/
def skC3 : Skeleton :=
  (((Skeleton.make gB).setAnimation gB animC3).map Prod.fst).getD (Skeleton.make gB)

/-- A written interpolated key with a distinctive pose. -/
def ikW : InterpKey :=
  { written := true, name := "x", quat := ⟨1, 2, 3, 4⟩, pos := ⟨1, 1, 1⟩,
    scale := ⟨2, 2, 2⟩, target := none }

/-- An unwritten interpolated key. -/
def ikU : InterpKey := InterpKey.fresh "x"

/-- A destination skeleton whose single channel is already written. -/
def skDstW : Skeleton :=
  { animation := none, time := 0, looping := true, interpolatedKeys := [ikW],
    currKeyIndices := fun _ => 0, hasGraph := false }

/-- A source skeleton whose single channel is unwritten. -/
def skSrcU : Skeleton :=
  { animation := none, time := 0, looping := true, interpolatedKeys := [ikU],
    currKeyIndices := fun _ => 0, hasGraph := false }

/-- A source skeleton whose single channel is written (a second pose). -/
def ikW2 : InterpKey :=
  { written := true, name := "x", quat := ⟨5, 6, 7, 8⟩, pos := ⟨3, 3, 3⟩,
    scale := ⟨4, 4, 4⟩, target := none }

def skSrcW2 : Skeleton :=
  { animation := none, time := 0, looping := true, interpolatedKeys := [ikW2],
    currKeyIndices := fun _ => 0, hasGraph := false }

/-- A skeleton with one written channel named a (no graph node of that name
exists in gB). -/
def skChanA : Skeleton :=
  { animation := none, time := 0, looping := true,
    interpolatedKeys := [{ InterpKey.fresh "a" with written := true }],
    currKeyIndices := fun _ => 0, hasGraph := false }

/-- A two-node forest: a root r with one child c, and a standalone root s;
the child c has a parent. -/
def forestRCS : Forest :=
  [GTree.node (freshData "r") (GForest.cons (GTree.node (freshData "c") GForest.nil) GForest.nil),
   GTree.node (freshData "s") GForest.nil]

mutual
/-- Every node of the subtree has dirtyWorld set. -/
def AllDW : GTree → Prop
  | .node d c => d.dirtyWorld = true ∧ AllDWKids c
def AllDWKids : GForest → Prop
  | .nil => True
  | .cons t f => AllDW t ∧ AllDWKids f
end

/-- Projection keeping only the enabled state of each node (for stating
that an operation leaves every node's enabled fields untouched). -/
def enOnly (d : GNodeData) : GNodeData :=
  { freshData "" with enabled := d.enabled, enabledInHierarchy := d.enabledInHierarchy }

mutual
/-- Keep only the enabled fields at every node. -/
def enProj : GTree → GTree
  | .node d c => .node (enOnly d) (enProjKids c)
def enProjKids : GForest → GForest
  | .nil => .nil
  | .cons t f => .cons (enProj t) (enProjKids f)
end

/-- Projection keeping only the dirty flags of each node (for stating that
an operation leaves every node's dirty flags untouched). -/
def flagsOnly (d : GNodeData) : GNodeData :=
  { freshData "" with dirtyLocal := d.dirtyLocal, dirtyWorld := d.dirtyWorld }

mutual
/-- Keep only the dirty flags at every node. -/
def flagsProj : GTree → GTree
  | .node d c => .node (flagsOnly d) (flagsProjKids c)
def flagsProjKids : GForest → GForest
  | .nil => .nil
  | .cons t f => .cons (flagsProj t) (flagsProjKids f)
end

/-- Every node strictly above the end of the path (the path's proper
prefixes) has a clear dirtyWorld flag: the precondition under which syncing
the node at the end of the path against its parent's stored world matrix is
sound. The node at the end of the path itself is not constrained. -/
def PathCleanExceptLast : GTree → Path → Prop
  | _, [] => True
  | t, [_] => t.data.dirtyWorld = false
  | .node d c, i :: j :: is =>
    d.dirtyWorld = false ∧ ∀ s, c.get? i = some s → PathCleanExceptLast s (j :: is)

/-- The relation the sync walk maintains between the accumulated expected
parent product and the collected ancestor chain: at the root both are
empty, below a parent the chain's head must hold the accumulator as its
stored world matrix. -/
def AncWorld : Option Mat4 → List GNodeData → Prop
  | none, [] => True
  | some pw, a :: _ => a.worldTransform = pw
  | _, _ => False

/-! Support lemmas about the skeleton evaluator. -/

/-- A cursor-dictionary write sequence read back at a name that none of
the writes touches. -/
theorem setCursors_not_mem (f : String → ℤ) (upds : List (String × ℤ)) (nm : String)
    (h : nm ∉ upds.map Prod.fst) : setCursors f upds nm = f nm := by
  induction upds generalizing f with
  | nil => rfl
  | cons pr rest ih =>
    simp only [List.map_cons, List.mem_cons, not_or] at h
    rw [setCursors, ih _ h.2]
    simp [h.1]

/-- A cursor-dictionary write sequence with pairwise distinct names read
back at a written name. -/
theorem setCursors_mem (f : String → ℤ) (upds : List (String × ℤ)) (nm : String) (v : ℤ)
    (h : (nm, v) ∈ upds) (hnd : (upds.map Prod.fst).Nodup) : setCursors f upds nm = v := by
  induction upds generalizing f with
  | nil => cases h
  | cons pr rest ih =>
    simp only [List.map_cons, List.nodup_cons] at hnd
    rcases List.mem_cons.1 h with h1 | h1
    · subst h1
      rw [setCursors, setCursors_not_mem _ _ _ hnd.1]
      simp
    · rw [setCursors]
      exact ih _ h1 hnd.2

/-- addTimeChannel touches only the interpolated keys and the cursors. -/
theorem addTimeChannel_frame (s : Skeleton) (offset : ℤ) (n : AnimNode) :
    (s.addTimeChannel offset n).time = s.time
    ∧ (s.addTimeChannel offset n).animation = s.animation
    ∧ (s.addTimeChannel offset n).looping = s.looping
    ∧ (s.addTimeChannel offset n).hasGraph = s.hasGraph := by
  unfold Skeleton.addTimeChannel
  cases lastIdxOf s.interpolatedKeys n.name with
  | none => exact ⟨rfl, rfl, rfl, rfl⟩
  | some ki => exact ⟨rfl, rfl, rfl, rfl⟩

/-- The per-channel phase never moves the play-head. -/
theorem addTimeChannels_time (s : Skeleton) (a : Animation) (delta : ℚ) :
    (s.addTimeChannels a delta).time = s.time := by
  unfold Skeleton.addTimeChannels
  generalize (if delta ≥ 0 then (1 : ℤ) else -1) = offset
  induction a.nodes generalizing s with
  | nil => rfl
  | cons n rest ih =>
    simp only [List.foldl_cons]
    rw [ih]
    exact (addTimeChannel_frame s offset n).1

/-- Endpoint of the linear interpolation at 0. -/
theorem Vec3.lerp_zero (a b : Vec3) : Vec3.lerp a b 0 = a := by
  cases a; cases b
  simp [Vec3.lerp]

/-- Endpoint of the linear interpolation at 1. -/
theorem Vec3.lerp_one (a b : Vec3) : Vec3.lerp a b 1 = b := by
  cases a; cases b
  simp only [Vec3.lerp, one_mul, Vec3.mk.injEq]
  exact ⟨by ring, by ring, by ring⟩

/-- Endpoint of the modelled quaternion interpolation at 0. -/
theorem Quat.slerp_zero (a b : Quat) : Quat.slerp a b 0 = a := by
  cases a; cases b
  simp [Quat.slerp]

/-- Endpoint of the modelled quaternion interpolation at 1. -/
theorem Quat.slerp_one (a b : Quat) : Quat.slerp a b 1 = b := by
  cases a; cases b
  simp only [Quat.slerp, one_mul, Quat.mk.injEq]
  exact ⟨by ring, by ring, by ring, by ring⟩

/-- The index-aligned walk of blend evaluated at one index. -/
theorem blendKeys_get? (alpha : ℚ) (ds as bs : List InterpKey) (i : Nat)
    (d a b : InterpKey) (hd : ds.get? i = some d) (ha : as.get? i = some a)
    (hb : bs.get? i = some b) :
    (blendKeys alpha ds as bs).get? i = some (blendStep alpha d a b) := by
  induction ds generalizing as bs i with
  | nil => simp at hd
  | cons d0 ds ih =>
    cases as with
    | nil => simp at ha
    | cons a0 as =>
      cases bs with
      | nil => simp at hb
      | cons b0 bs =>
        cases i with
        | zero =>
          simp only [List.get?_cons_zero, Option.some.injEq] at hd ha hb
          subst hd; subst ha; subst hb
          rfl
        | succ j =>
          simp only [List.get?_cons_succ] at hd ha hb
          simpa [blendKeys] using ih as bs j hd ha hb

/-- A written channel bound to no target makes the updateGraph channel run
report the fault. -/
theorem updateGraphRun_false (ks : List InterpKey) (g : GTree) (k : InterpKey)
    (hk : k ∈ ks) (hw : k.written = true) (ht : k.target = none) :
    (updateGraphRun ks g).2.2 = false := by
  induction ks generalizing g with
  | nil => cases hk
  | cons k0 ks ih =>
    rcases List.mem_cons.1 hk with h1 | h1
    · subst h1
      simp only [updateGraphRun, hw, if_true, ht]
    · by_cases hw0 : k0.written
      · cases htg : k0.target with
        | none => simp [updateGraphRun, hw0, htg]
        | some path => simpa [updateGraphRun, hw0, htg] using ih _ h1
      · simpa [updateGraphRun, hw0] using ih _ h1

mutual
/-- A findByName hit names the node it points at. -/
theorem findByName_name : ∀ (t : GTree) (nm : String) (p : Path),
    t.findByName nm = some p → (t.dataAt p).map GNodeData.name = some nm
  | .node d c, nm, p => by
    intro h
    rw [GTree.findByName] at h
    by_cases hn : d.name = nm
    · rw [if_pos hn] at h
      cases h
      simpa [GTree.dataAt, GTree.sub?, GTree.data] using hn
    · rw [if_neg hn] at h
      obtain ⟨i, is, s, hp, hg, hname, hle⟩ := findByNameKids_name c nm 0 p h
      subst hp
      rw [Nat.sub_zero] at hg
      simpa [GTree.dataAt, GTree.sub?, hg] using hname
/-- A findByNameKids hit at running index j is a hit inside the child at
the reported index minus j. -/
theorem findByNameKids_name : ∀ (f : GForest) (nm : String) (j : Nat) (p : Path),
    f.findByNameKids nm j = some p →
    ∃ i is s, p = i :: is ∧ f.get? (i - j) = some s
      ∧ (s.dataAt is).map GNodeData.name = some nm ∧ j ≤ i
  | .nil, nm, j, p => by intro h; cases h
  | .cons t f, nm, j, p => by
    intro h
    rw [GForest.findByNameKids] at h
    cases hfb : t.findByName nm with
    | some q =>
      rw [hfb] at h
      cases h
      exact ⟨j, q, t, rfl, by simp [GForest.get?], findByName_name t nm q hfb, le_refl j⟩
    | none =>
      rw [hfb] at h
      obtain ⟨i, is, s, hp, hg, hname, hj⟩ := findByNameKids_name f nm (j + 1) p h
      refine ⟨i, is, s, hp, ?_, hname, by omega⟩
      have : i - j = (i - (j + 1)) + 1 := by omega
      rw [this]
      simpa [GForest.get?] using hg
end

/-! Claim C2. -/

/-- Claim C2, counterexample: skC2pre holds animC2 (duration 3, one channel
b with 3 keys), is not looping, sits at play-head 3/2 short of the end with
its cursor for b at 1, and adding 2 overruns the duration; the claim says
the clamping branch leaves the cursors untouched, but addTime resets the
cursor to 0 (observable here because the duration runs past the last key,
so the search stores no new cursor). -/
theorem C2_counterexample :
    skC2pre.animation = some animC2 ∧ skC2pre.looping = false
    ∧ skC2pre.time + 2 > animC2.duration ∧ skC2pre.time ≠ animC2.duration
    ∧ skC2pre.currKeyIndices "b" = 1
    ∧ (skC2pre.addTime 2).currKeyIndices "b" = 0 := by with_unfolding_all decide

/-- Claim C2 (amended): with a bound animation, addTime at the end while
not looping returns at once with the state unchanged; otherwise it is the
advance-and-boundary phase followed by the channel phase, and after
advancing by delta: on overflow the play-head becomes 0 when looping and
the duration when not, and the boundary phase resets every channel cursor
to 0 in both modes (this is the amendment: the claim said the cursors stay
untouched when not looping); on underflow the play-head becomes the
duration when looping and 0 when not, and the boundary phase writes
keys.length - 2 into every channel cursor. -/
theorem C2_amended (s : Skeleton) (a : Animation) (delta : ℚ)
    (ha : s.animation = some a) (hdur : 0 ≤ a.duration)
    (hnd : (a.nodes.map AnimNode.name).Nodup) :
    (s.time = a.duration ∧ s.looping = false → s.addTime delta = s)
    ∧ (¬(s.time = a.duration ∧ s.looping = false) →
        s.addTime delta = (s.addTimeAdvance a delta).addTimeChannels a delta
        ∧ (s.time + delta > a.duration →
            (s.addTime delta).time = (if s.looping then 0 else a.duration)
            ∧ ∀ n ∈ a.nodes, (s.addTimeAdvance a delta).currKeyIndices n.name = 0)
        ∧ (s.time + delta < 0 →
            (s.addTime delta).time = (if s.looping then a.duration else 0)
            ∧ ∀ n ∈ a.nodes,
                (s.addTimeAdvance a delta).currKeyIndices n.name = (n.keys.length : ℤ) - 2)) := by
  have hfst : ∀ (v : AnimNode → ℤ),
      (a.nodes.map (fun n => (n.name, v n))).map Prod.fst = a.nodes.map AnimNode.name := by
    intro v
    rw [List.map_map]
    rfl
  constructor
  · rintro ⟨h1, h2⟩
    simp [Skeleton.addTime, ha, h1, h2]
  · intro hne
    have heq : s.addTime delta = (s.addTimeAdvance a delta).addTimeChannels a delta := by
      simp [Skeleton.addTime, ha, hne]
    refine ⟨heq, ?_, ?_⟩
    · intro hover
      have hadv : s.addTimeAdvance a delta =
          { s with time := (if s.looping then 0 else a.duration),
                   currKeyIndices := setCursors s.currKeyIndices
                     (a.nodes.map (fun n => (n.name, (0 : ℤ)))) } := by
        unfold Skeleton.addTimeAdvance
        simp only
        rw [if_pos (by simpa using hover)]
      constructor
      · rw [heq, addTimeChannels_time, hadv]
      · intro n hn
        rw [hadv]
        exact setCursors_mem _ _ _ _ (List.mem_map.2 ⟨n, hn, rfl⟩) (by rw [hfst]; exact hnd)
    · intro hunder
      have hnover : ¬(s.time + delta > a.duration) :=
        not_lt.2 (le_of_lt (lt_of_lt_of_le hunder hdur))
      have hadv : s.addTimeAdvance a delta =
          { s with time := (if s.looping then a.duration else 0),
                   currKeyIndices := setCursors s.currKeyIndices
                     (a.nodes.map (fun n => (n.name, (n.keys.length : ℤ) - 2))) } := by
        unfold Skeleton.addTimeAdvance
        simp only
        rw [if_neg (by simpa using hnover), if_pos (by simpa using hunder)]
      constructor
      · rw [heq, addTimeChannels_time, hadv]
      · intro n hn
        rw [hadv]
        exact setCursors_mem _ _ _ _ (List.mem_map.2 ⟨n, hn, rfl⟩) (by rw [hfst]; exact hnd)

/-- Witness for C2 (amended) at skC2pre, animC2, delta 2. -/
theorem C2_amended_witness :
    (skC2pre.animation = some animC2 ∧ (0 : ℚ) ≤ animC2.duration
      ∧ (animC2.nodes.map AnimNode.name).Nodup
      ∧ ¬(skC2pre.time = animC2.duration ∧ skC2pre.looping = false)
      ∧ skC2pre.time + 2 > animC2.duration)
    ∧ ((skC2pre.addTime 2).time = (if skC2pre.looping then 0 else animC2.duration)
      ∧ ∀ n ∈ animC2.nodes, (skC2pre.addTimeAdvance animC2 2).currKeyIndices n.name = 0) := by
  refine ⟨⟨by with_unfolding_all decide, by with_unfolding_all decide,
    by with_unfolding_all decide, by with_unfolding_all decide,
    by with_unfolding_all decide⟩, ?_⟩
  exact ((C2_amended skC2pre animC2 2 (by with_unfolding_all decide)
    (by with_unfolding_all decide) (by with_unfolding_all decide)).2
    (by with_unfolding_all decide)).2.1 (by with_unfolding_all decide)

/-! Claim C3. -/

/-- Claim C3, counterexample: from play-head 0, looping, on the 2-key
animation with keys (0,0) and (1,10) of duration 1, addTime(1.5) lands at
play-head 0 with the channel holding key 0's value — not at 0.5 with value
5 as claimed: the wrap branch sets the time to exactly 0, discarding the
remainder. -/
theorem C3_counterexample :
    skC3.time = 0 ∧ skC3.looping = true ∧ skC3.animation = some animC3
    ∧ (skC3.addTime (3 / 2)).time = 0
    ∧ (skC3.addTime (3 / 2)).time ≠ 1 / 2
    ∧ ((skC3.addTime (3 / 2)).interpolatedKeys.map InterpKey.pos) = [⟨0, 0, 0⟩]
    ∧ ((skC3.addTime (3 / 2)).interpolatedKeys.map InterpKey.pos) ≠ [⟨5, 0, 0⟩] := by
  with_unfolding_all decide

/-- Claim C3 (amended): on that input addTime(1.5) wraps the play-head to
exactly 0 (the remainder is discarded), the boundary phase resets the
cursor to 0 and the final cursor is 0, and the channel holds key 0's pose
with written set. -/
theorem C3_amended :
    (skC3.addTime (3 / 2)).time = 0
    ∧ (skC3.addTimeAdvance animC3 (3 / 2)).currKeyIndices "b" = 0
    ∧ (skC3.addTime (3 / 2)).currKeyIndices "b" = 0
    ∧ ((skC3.addTime (3 / 2)).interpolatedKeys.map
        (fun k => (InterpKey.pos k, InterpKey.quat k, InterpKey.scale k, InterpKey.written k)))
      = [(⟨0, 0, 0⟩, Quat.one, ⟨1, 1, 1⟩, true)] := by with_unfolding_all decide

/-! Claim C5. -/

/-- Claim C5: addChild and insertChild on a child that already has a parent
(positionally: a non-root address) throw before touching any state — the
error result carries no mutated forest; the parent's child list, the
child's parent and all transforms are as before the call. -/
theorem C5_addChild_guard (f : Forest) (p c : Addr) (i : Nat) (h : c.2 ≠ []) :
    Forest.addChild f p c = none ∧ Forest.insertChild f p c i = none := by
  constructor
  · simp [Forest.addChild, h]
  · simp [Forest.insertChild, h]

/-- Witness for C5 on the forest with root r holding child c: attaching the
already-parented c under the standalone root s fails. -/
theorem C5_addChild_guard_witness :
    ((0 : Nat), [(0 : Nat)]).2 ≠ ([] : Path)
    ∧ Forest.addChild forestRCS (1, []) (0, [0]) = none
    ∧ Forest.insertChild forestRCS (1, []) (0, [0]) 0 = none := by
  refine ⟨by decide, ?_, ?_⟩
  · exact (C5_addChild_guard forestRCS (1, []) (0, [0]) 0 (by decide)).1
  · exact (C5_addChild_guard forestRCS (1, []) (0, [0]) 0 (by decide)).2

/-! Claim C6. -/

/-- Claim C6, counterexample: blending two unwritten sources into a
destination whose channel is already written leaves the destination's
written flag true — the claim's "the destination's written is left false"
fails when it was true before the call. -/
theorem C6_counterexample :
    ikU.written = false ∧ ikW.written = true
    ∧ ((skDstW.blend skSrcU skSrcU (1 / 2)).interpolatedKeys.map InterpKey.written)
      = [true] := by decide

/-- Claim C6 (amended): per channel index, blend writes slerp/lerp at alpha
when both sources are written, copies the single written source through
otherwise, and leaves the destination channel entirely unchanged (written
flag included — the amendment: the flag keeps its previous value rather
than being made false) when neither source is written. -/
theorem C6_amended (dst s1 s2 : Skeleton) (alpha : ℚ) (i : Nat) (d k1 k2 : InterpKey)
    (hd : dst.interpolatedKeys.get? i = some d)
    (h1 : s1.interpolatedKeys.get? i = some k1)
    (h2 : s2.interpolatedKeys.get? i = some k2) :
    (k1.written = true → k2.written = true →
      (dst.blend s1 s2 alpha).interpolatedKeys.get? i =
        some { d with quat := Quat.slerp k1.quat k2.quat alpha,
                      pos := Vec3.lerp k1.pos k2.pos alpha,
                      scale := Vec3.lerp k1.scale k2.scale alpha, written := true })
    ∧ (k1.written = true → k2.written = false →
      (dst.blend s1 s2 alpha).interpolatedKeys.get? i =
        some { d with quat := k1.quat, pos := k1.pos, scale := k1.scale, written := true })
    ∧ (k1.written = false → k2.written = true →
      (dst.blend s1 s2 alpha).interpolatedKeys.get? i =
        some { d with quat := k2.quat, pos := k2.pos, scale := k2.scale, written := true })
    ∧ (k1.written = false → k2.written = false →
      (dst.blend s1 s2 alpha).interpolatedKeys.get? i = some d) := by
  have hb := blendKeys_get? alpha dst.interpolatedKeys s1.interpolatedKeys s2.interpolatedKeys
    i d k1 k2 hd h1 h2
  refine ⟨?_, ?_, ?_, ?_⟩ <;> intro hw1 hw2 <;>
    · show (blendKeys alpha dst.interpolatedKeys s1.interpolatedKeys
        s2.interpolatedKeys).get? i = _
      rw [hb]
      simp [blendStep, hw1, hw2]

/-- Witness for C6 (amended) at the one-channel skeletons. -/
theorem C6_amended_witness :
    (skDstW.interpolatedKeys.get? 0 = some ikW
      ∧ skSrcW2.interpolatedKeys.get? 0 = some ikW2
      ∧ skSrcU.interpolatedKeys.get? 0 = some ikU
      ∧ ikW2.written = true ∧ ikU.written = false)
    ∧ (skDstW.blend skSrcW2 skSrcU (1 / 2)).interpolatedKeys.get? 0 =
        some { ikW with quat := ikW2.quat, pos := ikW2.pos, scale := ikW2.scale,
                        written := true } := by
  refine ⟨⟨by decide, by decide, by decide, by decide, by decide⟩, ?_⟩
  exact (C6_amended skDstW skSrcW2 skSrcU (1 / 2) 0 ikW ikW2 ikU
    (by decide) (by decide) (by decide)).2.1 (by decide) (by decide)

/-! Claim C7. -/

/-- Claim C7: blend at alpha 0 reproduces the first source's pose exactly
on every channel the first source has written, and blend at alpha 1
reproduces the second source's pose exactly on every channel the second
source has written. -/
theorem C7_blend_endpoints (dst s1 s2 : Skeleton) (i : Nat) (d k1 k2 : InterpKey)
    (hd : dst.interpolatedKeys.get? i = some d)
    (h1 : s1.interpolatedKeys.get? i = some k1)
    (h2 : s2.interpolatedKeys.get? i = some k2) :
    (k1.written = true →
      ∃ kd, (dst.blend s1 s2 0).interpolatedKeys.get? i = some kd
        ∧ kd.pos = k1.pos ∧ kd.quat = k1.quat ∧ kd.scale = k1.scale ∧ kd.written = true)
    ∧ (k2.written = true →
      ∃ kd, (dst.blend s1 s2 1).interpolatedKeys.get? i = some kd
        ∧ kd.pos = k2.pos ∧ kd.quat = k2.quat ∧ kd.scale = k2.scale ∧ kd.written = true) := by
  constructor
  · intro hw1
    have hb := blendKeys_get? 0 dst.interpolatedKeys s1.interpolatedKeys s2.interpolatedKeys
      i d k1 k2 hd h1 h2
    refine ⟨blendStep 0 d k1 k2, hb, ?_⟩
    by_cases hw2 : k2.written
    · simp [blendStep, hw1, hw2, Vec3.lerp_zero, Quat.slerp_zero]
    · simp [blendStep, hw1, hw2]
  · intro hw2
    have hb := blendKeys_get? 1 dst.interpolatedKeys s1.interpolatedKeys s2.interpolatedKeys
      i d k1 k2 hd h1 h2
    refine ⟨blendStep 1 d k1 k2, hb, ?_⟩
    by_cases hw1 : k1.written
    · simp [blendStep, hw1, hw2, Vec3.lerp_one, Quat.slerp_one]
    · simp [blendStep, hw1, hw2]

/-- Witness for C7 at the one-channel skeletons (both sources written). -/
theorem C7_blend_endpoints_witness :
    (skDstW.interpolatedKeys.get? 0 = some ikW
      ∧ skSrcW2.interpolatedKeys.get? 0 = some ikW2
      ∧ ikW2.written = true)
    ∧ (∃ kd, (skDstW.blend skSrcW2 skSrcW2 1).interpolatedKeys.get? 0 = some kd
        ∧ kd.pos = ikW2.pos ∧ kd.quat = ikW2.quat ∧ kd.scale = ikW2.scale
        ∧ kd.written = true) := by
  refine ⟨⟨by decide, by decide, by decide⟩, ?_⟩
  exact (C7_blend_endpoints skDstW skSrcW2 skSrcW2 0 ikW ikW2 ikW2
    (by decide) (by decide) (by decide)).2 (by decide)

/-! Claim C8. -/

/-- Claim C8, counterexample: the skeleton's single channel a is written;
setGraph on the one-node graph b binds it to no target (no depth-first
match), and the subsequent updateGraph does not complete without failing —
it faults on the null target (none), against the claim's
"completes without failing". -/
theorem C8_counterexample :
    ((skChanA.setGraph (some gB)).interpolatedKeys.map InterpKey.target) = [none]
    ∧ ((skChanA.setGraph (some gB)).interpolatedKeys.map InterpKey.written) = [true]
    ∧ (skChanA.setGraph (some gB)).updateGraph gB = none := by
  refine ⟨rfl, rfl, rfl⟩

/-- Claim C8 (amended): setGraph(root) binds every channel to
root.findByName of the channel name — the first depth-first node carrying
that name (a hit names the node it points at), and channels with no match
to no target; but a subsequent updateGraph with a written unbound channel
does not skip it — it faults on the null target dereference (the
amendment: the source asserts the binding non-null instead of computing no
effect). -/
theorem C8_amended (s : Skeleton) (root : GTree) :
    (∀ i k, s.interpolatedKeys.get? i = some k →
      ((s.setGraph (some root)).interpolatedKeys.get? i).map InterpKey.target
        = some (root.findByName k.name))
    ∧ (∀ nm p, root.findByName nm = some p →
        (root.dataAt p).map GNodeData.name = some nm)
    ∧ (∀ g k, k ∈ (s.setGraph (some root)).interpolatedKeys → k.written = true →
        k.target = none → (s.setGraph (some root)).updateGraph g = none) := by
  refine ⟨?_, ?_, ?_⟩
  · intro i k hk
    show ((s.interpolatedKeys.map
      (fun k => { k with target := root.findByName k.name })).get? i).map InterpKey.target = _
    rw [List.get?_map, hk]
    rfl
  · exact fun nm p h => findByName_name root nm p h
  · intro g k hk hw ht
    show Skeleton.updateGraph _ g = none
    unfold Skeleton.updateGraph
    rw [if_neg (by simp [Skeleton.setGraph])]
    simp only
    rw [if_neg]
    rw [Bool.not_eq_true]
    exact updateGraphRun_false _ g k hk hw ht

/-- Witness for C8 (amended): the channel a of skChanA, bound against the
one-node graph b. -/
theorem C8_amended_witness :
    (skChanA.interpolatedKeys.get? 0 = some { InterpKey.fresh "a" with written := true })
    ∧ (((skChanA.setGraph (some gB)).interpolatedKeys.get? 0).map InterpKey.target
        = some (gB.findByName "a")) := by
  refine ⟨by decide, ?_⟩
  exact (C8_amended skChanA gB).1 0 { InterpKey.fresh "a" with written := true } (by decide)

/-! Forest index helpers. -/

theorem GForest.get?_modifyIdx_self : ∀ (f : GForest) (i : Nat) (g : GTree → GTree),
    (f.modifyIdx i g).get? i = (f.get? i).map g
  | .nil, _, _ => rfl
  | .cons _ _, 0, _ => rfl
  | .cons _ f, i + 1, g => GForest.get?_modifyIdx_self f i g

theorem GForest.get?_modifyIdx_ne : ∀ (f : GForest) (i j : Nat) (g : GTree → GTree),
    j ≠ i → (f.modifyIdx i g).get? j = f.get? j
  | .nil, _, _, _, _ => rfl
  | .cons _ _, 0, 0, _, h => absurd rfl h
  | .cons _ _, 0, _ + 1, _, _ => rfl
  | .cons _ _, _ + 1, 0, _, _ => rfl
  | .cons _ f, i + 1, j + 1, g, h => GForest.get?_modifyIdx_ne f i j g (by omega)

theorem enProj_data (t : GTree) : (enProj t).data = enOnly t.data := by
  cases t
  rfl

theorem flagsProj_data (t : GTree) : (flagsProj t).data = flagsOnly t.data := by
  cases t
  rfl

mutual
theorem invEnabled_enProj : ∀ t : GTree, InvEnabled (enProj t) ↔ InvEnabled t
  | .node d c => invEnabledKids_enProj c d
theorem invEnabledKids_enProj : ∀ (c : GForest) (d : GNodeData),
    InvEnabledKids (enOnly d) (enProjKids c) ↔ InvEnabledKids d c
  | .nil, _ => Iff.rfl
  | .cons t f, d => by
    show _ ∧ InvEnabled (enProj t) ∧ InvEnabledKids (enOnly d) (enProjKids f)
      ↔ _ ∧ InvEnabled t ∧ InvEnabledKids d f
    rw [enProj_data t]
    exact and_congr Iff.rfl (and_congr (invEnabled_enProj t) (invEnabledKids_enProj f d))
end

mutual
theorem invFlags_flagsProj : ∀ t : GTree, InvFlags (flagsProj t) ↔ InvFlags t
  | .node d c => by
    show (_ ∧ InvFlagsKids (flagsOnly d).dirtyWorld (flagsProjKids c)) ↔ (_ ∧ InvFlagsKids d.dirtyWorld c)
    exact and_congr Iff.rfl (invFlagsKids_flagsProj c d.dirtyWorld)
theorem invFlagsKids_flagsProj : ∀ (c : GForest) (dw : Bool),
    InvFlagsKids dw (flagsProjKids c) ↔ InvFlagsKids dw c
  | .nil, _ => Iff.rfl
  | .cons t f, dw => by
    show (_ ∧ InvFlags (flagsProj t) ∧ InvFlagsKids dw (flagsProjKids f))
      ↔ (_ ∧ InvFlags t ∧ InvFlagsKids dw f)
    rw [flagsProj_data t]
    exact and_congr Iff.rfl (and_congr (invFlags_flagsProj t) (invFlagsKids_flagsProj f dw))
end

/-! Field-preservation facts of the sync step. -/

/-- syncLocal touches only localTransform and dirtyLocal. -/
theorem syncLocal_fields (d : GNodeData) :
    (syncLocal d).name = d.name
    ∧ (syncLocal d).localPosition = d.localPosition
    ∧ (syncLocal d).localRotation = d.localRotation
    ∧ (syncLocal d).localScale = d.localScale
    ∧ (syncLocal d).dirtyWorld = d.dirtyWorld
    ∧ (syncLocal d).enabled = d.enabled
    ∧ (syncLocal d).enabledInHierarchy = d.enabledInHierarchy
    ∧ (syncLocal d).scaleCompensation = d.scaleCompensation
    ∧ (syncLocal d).dirtyLocal = false := by
  unfold syncLocal
  cases hl : d.dirtyLocal <;> simp [hl]

/-- syncWorld touches only worldTransform and dirtyWorld. -/
theorem syncWorld_fields (anc : List GNodeData) (d : GNodeData) :
    (syncWorld anc d).name = d.name
    ∧ (syncWorld anc d).localPosition = d.localPosition
    ∧ (syncWorld anc d).localRotation = d.localRotation
    ∧ (syncWorld anc d).localScale = d.localScale
    ∧ (syncWorld anc d).localTransform = d.localTransform
    ∧ (syncWorld anc d).dirtyLocal = d.dirtyLocal
    ∧ (syncWorld anc d).enabled = d.enabled
    ∧ (syncWorld anc d).enabledInHierarchy = d.enabledInHierarchy
    ∧ (syncWorld anc d).scaleCompensation = d.scaleCompensation
    ∧ (syncWorld anc d).dirtyWorld = false := by
  unfold syncWorld
  cases hw : d.dirtyWorld with
  | false => simp [hw]
  | true =>
    cases anc with
    | nil => simp [hw, syncWorldDirty]
    | cons parent rest => by_cases hsc : d.scaleCompensation <;> simp [hw, hsc, syncWorldDirty]

/-- The sync step always leaves both flags clear and every other non-matrix
field untouched. -/
theorem syncData_fields (anc : List GNodeData) (d : GNodeData) :
    (syncData anc d).name = d.name
    ∧ (syncData anc d).localPosition = d.localPosition
    ∧ (syncData anc d).localRotation = d.localRotation
    ∧ (syncData anc d).localScale = d.localScale
    ∧ (syncData anc d).enabled = d.enabled
    ∧ (syncData anc d).enabledInHierarchy = d.enabledInHierarchy
    ∧ (syncData anc d).scaleCompensation = d.scaleCompensation
    ∧ (syncData anc d).dirtyLocal = false
    ∧ (syncData anc d).dirtyWorld = false := by
  have h1 := syncLocal_fields d
  have h2 := syncWorld_fields anc (syncLocal d)
  unfold syncData
  refine ⟨?_, ?_, ?_, ?_, ?_, ?_, ?_, ?_, ?_⟩ <;> simp_all

/-! enProj is unchanged by every transform operation. -/

theorem enOnly_of_fields {d2 d : GNodeData}
    (he : d2.enabled = d.enabled) (hi : d2.enabledInHierarchy = d.enabledInHierarchy) :
    enOnly d2 = enOnly d := by
  simp [enOnly, he, hi]

theorem enProjKids_get? : ∀ (f : GForest) (i : Nat),
    (enProjKids f).get? i = (f.get? i).map enProj
  | .nil, _ => rfl
  | .cons _ _, 0 => rfl
  | .cons _ f, i + 1 => enProjKids_get? f i

theorem enProj_dataAt : ∀ (t : GTree) (q : Path),
    (enProj t).dataAt q = (t.dataAt q).map enOnly
  | .node _ _, [] => rfl
  | .node d c, i :: is => by
    simp only [enProj, GTree.dataAt, GTree.sub?, enProjKids_get? c i]
    cases hc : c.get? i with
    | none => rfl
    | some s =>
      simp only [Option.map_some]
      exact enProj_dataAt s is

theorem enProj_upd {g : GNodeData → GNodeData}
    (h : ∀ d, (g d).enabled = d.enabled ∧ (g d).enabledInHierarchy = d.enabledInHierarchy) :
    ∀ t : GTree, enProj (t.upd g) = enProj t
  | .node d c => by
    show GTree.node (enOnly (g d)) (enProjKids c) = GTree.node (enOnly d) (enProjKids c)
    rw [enOnly_of_fields (h d).1 (h d).2]

mutual
theorem enProj_dwi : ∀ t : GTree, enProj t.dirtifyWorldImpl = enProj t
  | .node d c => by
    show GTree.node (enOnly { d with dirtyWorld := true })
        (enProjKids (GForest.dirtifyWorldKids c)) = GTree.node (enOnly d) (enProjKids c)
    rw [enProjKids_dwiKids c]
    exact rfl
theorem enProjKids_dwiKids : ∀ f : GForest,
    enProjKids (GForest.dirtifyWorldKids f) = enProjKids f
  | .nil => rfl
  | .cons t f => by
    show GForest.cons (enProj (if t.data.dirtyWorld then t else t.dirtifyWorldImpl))
        (enProjKids (GForest.dirtifyWorldKids f)) = GForest.cons (enProj t) (enProjKids f)
    rw [enProjKids_dwiKids f]
    by_cases h : t.data.dirtyWorld
    · rw [if_pos h]
    · rw [if_neg h, enProj_dwi t]
end

theorem enProj_dirtifyWorld (t : GTree) : enProj t.dirtifyWorld = enProj t := by
  unfold GTree.dirtifyWorld
  by_cases h : t.data.dirtyWorld
  · rw [if_pos h]
  · rw [if_neg h, if_neg h, enProj_dwi t]

theorem enProj_dirtifyLocal (t : GTree) : enProj t.dirtifyLocal = enProj t := by
  unfold GTree.dirtifyLocal
  by_cases h : t.data.dirtyLocal
  · rw [if_pos h]
  · rw [if_neg h]
    by_cases h2 : (t.upd (fun d => { d with dirtyLocal := true })).data.dirtyWorld
    · rw [if_pos h2]
      exact enProj_upd (g := fun d => { d with dirtyLocal := true }) (fun _ => ⟨rfl, rfl⟩) t
    · rw [if_neg h2, enProj_dirtifyWorld]
      exact enProj_upd (g := fun d => { d with dirtyLocal := true }) (fun _ => ⟨rfl, rfl⟩) t

theorem enProj_writeLocal {g : GNodeData → GNodeData}
    (h : ∀ d, (g d).enabled = d.enabled ∧ (g d).enabledInHierarchy = d.enabledInHierarchy)
    (t : GTree) : enProj (t.writeLocal g) = enProj t := by
  unfold GTree.writeLocal
  by_cases h2 : (t.upd g).data.dirtyLocal
  · rw [if_pos h2]
    exact enProj_upd h t
  · rw [if_neg h2, enProj_dirtifyLocal]
    exact enProj_upd h t

theorem enProjKids_modifyIdx {g : GTree → GTree} :
    ∀ (f : GForest) (i : Nat), (∀ s, f.get? i = some s → enProj (g s) = enProj s) →
    enProjKids (f.modifyIdx i g) = enProjKids f
  | .nil, _, _ => rfl
  | .cons t f, 0, h => by
    show GForest.cons (enProj (g t)) (enProjKids f) = GForest.cons (enProj t) (enProjKids f)
    rw [h t rfl]
  | .cons t f, i + 1, h => by
    show GForest.cons (enProj t) (enProjKids (f.modifyIdx i g))
      = GForest.cons (enProj t) (enProjKids f)
    rw [enProjKids_modifyIdx f i h]

theorem enProj_appAt {g : GTree → GTree} (hg : ∀ s, enProj (g s) = enProj s) :
    ∀ (t : GTree) (p : Path), enProj (t.appAt g p) = enProj t
  | .node d c, [] => hg (GTree.node d c)
  | .node d c, i :: is => by
    show GTree.node (enOnly d) (enProjKids (c.modifyIdx i (fun s => s.appAt g is)))
      = GTree.node (enOnly d) (enProjKids c)
    rw [enProjKids_modifyIdx c i (fun s _ => enProj_appAt hg s is)]

theorem enProj_syncAtAux : ∀ (anc : List GNodeData) (t : GTree) (p : Path),
    enProj (t.syncAtAux anc p) = enProj t
  | anc, .node d c, [] => by
    show GTree.node (enOnly (syncData anc d)) (enProjKids c) = GTree.node (enOnly d) (enProjKids c)
    have h := syncData_fields anc d
    rw [enOnly_of_fields h.2.2.2.2.1 h.2.2.2.2.2.1]
  | anc, .node d c, i :: is => by
    show GTree.node (enOnly d) (enProjKids (c.modifyIdx i (fun s => s.syncAtAux (d :: anc) is)))
      = GTree.node (enOnly d) (enProjKids c)
    rw [enProjKids_modifyIdx c i (fun s _ => enProj_syncAtAux (d :: anc) s is)]

theorem enProj_resolveAt (t : GTree) (p : Path) : enProj (t.resolveAt p) = enProj t := by
  unfold GTree.resolveAt
  split
  · rfl
  · split
    · rfl
    · split
      · exact enProj_syncAtAux [] t p
      · rw [show ((t.resolveAt p.dropLast).syncAt p) = ((t.resolveAt p.dropLast).syncAtAux [] p) from rfl,
            enProj_syncAtAux [] (t.resolveAt p.dropLast) p]
        exact enProj_resolveAt t p.dropLast
termination_by p.length
decreasing_by
  cases p with
  | nil => simp_all
  | cons a as => simp only [List.length_dropLast, List.length_cons]; omega

/-! Access and monotonicity lemmas for the flag and enabled invariants. -/

theorem invFlagsKids_mono : ∀ (c : GForest) (dw : Bool), InvFlagsKids dw c → InvFlagsKids false c
  | .nil, _, _ => trivial
  | .cons t f, dw, h =>
    ⟨fun hh => absurd hh (by decide), h.2.1, invFlagsKids_mono f dw h.2.2⟩

theorem invFlags_kids (t : GTree) (h : InvFlags t) : InvFlagsKids false t.kids := by
  cases t with | node d c => exact invFlagsKids_mono c d.dirtyWorld h.2

theorem invFlagsKids_get? : ∀ (c : GForest) (i : Nat) (dw : Bool) (s : GTree),
    InvFlagsKids dw c → c.get? i = some s →
    (dw = true → s.data.dirtyWorld = true) ∧ InvFlags s
  | .nil, _, _, _, _, hg => Option.noConfusion hg
  | .cons t f, 0, dw, s, h, hg => (Option.some.inj hg) ▸ ⟨h.1, h.2.1⟩
  | .cons t f, i + 1, dw, s, h, hg => invFlagsKids_get? f i dw s h.2.2 hg

theorem invFlags_sub? : ∀ (t : GTree) (q : Path) (s : GTree),
    InvFlags t → t.sub? q = some s → InvFlags s
  | .node d c, [], s, h, hg => by
    have hg2 : some (GTree.node d c) = some s := hg
    exact (Option.some.inj hg2) ▸ h
  | .node d c, i :: is, s, h, hg => by
    simp only [GTree.sub?] at hg
    cases hgi : c.get? i with
    | none => rw [hgi] at hg; exact Option.noConfusion hg
    | some u =>
      rw [hgi] at hg
      exact invFlags_sub? u is s (invFlagsKids_get? c i d.dirtyWorld u h.2 hgi).2 hg

theorem dw_desc : ∀ (t : GTree) (q : Path) (e : GNodeData),
    InvFlags t → t.data.dirtyWorld = true → t.dataAt q = some e → e.dirtyWorld = true
  | .node d c, [], e, _, hw, hg => by
    have hg2 : some d = some e := hg
    exact (Option.some.inj hg2) ▸ hw
  | .node d c, i :: is, e, h, hw, hg => by
    simp only [GTree.dataAt, GTree.sub?] at hg
    cases hgi : c.get? i with
    | none => rw [hgi] at hg; exact Option.noConfusion hg
    | some u =>
      rw [hgi] at hg
      have hk := invFlagsKids_get? c i d.dirtyWorld u h.2 hgi
      exact dw_desc u is e hk.2 (hk.1 hw) hg

theorem invEnabledKids_get? : ∀ (c : GForest) (i : Nat) (d : GNodeData) (s : GTree),
    InvEnabledKids d c → c.get? i = some s →
    s.data.enabledInHierarchy = (s.data.enabled && d.enabledGetter) ∧ InvEnabled s
  | .nil, _, _, _, _, hg => Option.noConfusion hg
  | .cons t f, 0, d, s, h, hg => (Option.some.inj hg) ▸ ⟨h.1, h.2.1⟩
  | .cons t f, i + 1, d, s, h, hg => invEnabledKids_get? f i d s h.2.2 hg

theorem invEnabled_sub? : ∀ (t : GTree) (q : Path) (s : GTree),
    InvEnabled t → t.sub? q = some s → InvEnabled s
  | .node d c, [], s, h, hg => by
    have hg2 : some (GTree.node d c) = some s := hg
    exact (Option.some.inj hg2) ▸ h
  | .node d c, i :: is, s, h, hg => by
    simp only [GTree.sub?] at hg
    cases hgi : c.get? i with
    | none => rw [hgi] at hg; exact Option.noConfusion hg
    | some u =>
      rw [hgi] at hg
      exact invEnabled_sub? u is s (invEnabledKids_get? c i d u h hgi).2 hg

theorem sub?_append : ∀ (t : GTree) (a b : Path),
    t.sub? (a ++ b) = (t.sub? a).bind (fun s => s.sub? b)
  | .node _ _, [], _ => rfl
  | .node d c, i :: is, b => by
    simp only [List.cons_append, GTree.sub?]
    cases hgi : c.get? i with
    | none => rfl
    | some u => exact sub?_append u is b

/-! The dirtify operations preserve the flag invariant and mark dirtyWorld. -/

mutual
theorem dwi_invFlags : ∀ t : GTree, InvFlagsKids false t.kids →
    InvFlags t.dirtifyWorldImpl ∧ (t.dirtifyWorldImpl).data.dirtyWorld = true
  | .node d c, hk => by
    show InvFlags (GTree.node { d with dirtyWorld := true } (GForest.dirtifyWorldKids c)) ∧ _
    exact ⟨⟨fun _ => rfl, dwiKids_invFlags c hk⟩, rfl⟩
theorem dwiKids_invFlags : ∀ f : GForest, InvFlagsKids false f →
    InvFlagsKids true (GForest.dirtifyWorldKids f)
  | .nil, _ => trivial
  | .cons t f, hk => by
    show (true = true → (if t.data.dirtyWorld then t else t.dirtifyWorldImpl).data.dirtyWorld = true)
      ∧ InvFlags (if t.data.dirtyWorld then t else t.dirtifyWorldImpl)
      ∧ InvFlagsKids true (GForest.dirtifyWorldKids f)
    by_cases hw : t.data.dirtyWorld
    · rw [if_pos hw]
      exact ⟨fun _ => hw, hk.2.1, dwiKids_invFlags f hk.2.2⟩
    · rw [if_neg hw]
      have hd := dwi_invFlags t (invFlags_kids t hk.2.1)
      exact ⟨fun _ => hd.2, hd.1, dwiKids_invFlags f hk.2.2⟩
end

theorem dirtifyLocal_invFlags (t : GTree) (h : InvFlags t) :
    InvFlags t.dirtifyLocal ∧ (t.dirtifyLocal).data.dirtyWorld = true := by
  unfold GTree.dirtifyLocal
  by_cases hl : t.data.dirtyLocal
  · rw [if_pos hl]
    refine ⟨h, ?_⟩
    cases t with | node d c => exact h.1 hl
  · rw [if_neg hl]
    by_cases hw : (t.upd (fun d => { d with dirtyLocal := true })).data.dirtyWorld
    · rw [if_pos hw]
      cases t with | node d c =>
      exact ⟨⟨fun _ => hw, h.2⟩, hw⟩
    · rw [if_neg hw]
      unfold GTree.dirtifyWorld
      rw [if_neg hw, if_neg hw]
      refine dwi_invFlags _ ?_
      cases t with | node d c => exact invFlagsKids_mono c d.dirtyWorld h.2

theorem invFlags_upd {g : GNodeData → GNodeData}
    (hg : ∀ d, (g d).dirtyLocal = d.dirtyLocal ∧ (g d).dirtyWorld = d.dirtyWorld) (t : GTree) :
    InvFlags (t.upd g) ↔ InvFlags t := by
  cases t with | node d c =>
  show (((g d).dirtyLocal = true → (g d).dirtyWorld = true) ∧ InvFlagsKids (g d).dirtyWorld c)
    ↔ ((d.dirtyLocal = true → d.dirtyWorld = true) ∧ InvFlagsKids d.dirtyWorld c)
  rw [(hg d).1, (hg d).2]

theorem writeLocal_invFlags {g : GNodeData → GNodeData}
    (hg : ∀ d, (g d).dirtyLocal = d.dirtyLocal ∧ (g d).dirtyWorld = d.dirtyWorld)
    (t : GTree) (h : InvFlags t) :
    InvFlags (t.writeLocal g) ∧ (t.writeLocal g).data.dirtyWorld = true := by
  unfold GTree.writeLocal
  have hupd : InvFlags (t.upd g) := (invFlags_upd hg t).2 h
  by_cases hl : (t.upd g).data.dirtyLocal
  · rw [if_pos hl]
    refine ⟨hupd, ?_⟩
    cases t with | node d c =>
    exact hupd.1 hl
  · rw [if_neg hl]
    exact dirtifyLocal_invFlags (t.upd g) hupd

theorem invFlagsKids_modifyIdx {g : GTree → GTree} :
    ∀ (c : GForest) (i : Nat) (dw : Bool), InvFlagsKids dw c →
    (∀ s, c.get? i = some s → InvFlags (g s) ∧ (dw = true → (g s).data.dirtyWorld = true)) →
    InvFlagsKids dw (c.modifyIdx i g)
  | .nil, _, _, _, _ => trivial
  | .cons t f, 0, dw, h, hg => by
    show (dw = true → (g t).data.dirtyWorld = true) ∧ InvFlags (g t) ∧ InvFlagsKids dw f
    exact ⟨(hg t rfl).2, (hg t rfl).1, h.2.2⟩
  | .cons t f, i + 1, dw, h, hg => by
    show (dw = true → t.data.dirtyWorld = true) ∧ InvFlags t ∧ InvFlagsKids dw (f.modifyIdx i g)
    exact ⟨h.1, h.2.1, invFlagsKids_modifyIdx f i dw h.2.2 hg⟩

theorem appAt_invFlags {g : GTree → GTree}
    (h1 : ∀ s, InvFlags s → InvFlags (g s))
    (h2 : ∀ s, InvFlags s → s.data.dirtyWorld = true → (g s).data.dirtyWorld = true) :
    ∀ (t : GTree) (p : Path), InvFlags t →
      InvFlags (t.appAt g p) ∧ (t.data.dirtyWorld = true → (t.appAt g p).data.dirtyWorld = true)
  | .node d c, [], h => ⟨h1 _ h, h2 _ h⟩
  | .node d c, i :: is, h => by
    show InvFlags (GTree.node d (c.modifyIdx i (fun s => s.appAt g is)))
      ∧ (d.dirtyWorld = true → d.dirtyWorld = true)
    refine ⟨⟨h.1, ?_⟩, fun hw => hw⟩
    refine invFlagsKids_modifyIdx c i d.dirtyWorld h.2 (fun s hs => ?_)
    have hfs := invFlagsKids_get? c i d.dirtyWorld s h.2 hs
    have hrec := appAt_invFlags h1 h2 s is hfs.2
    exact ⟨hrec.1, fun hdw => hrec.2 (hfs.1 hdw)⟩

theorem writeLocalAt_invFlags {g : GNodeData → GNodeData}
    (hg : ∀ d, (g d).dirtyLocal = d.dirtyLocal ∧ (g d).dirtyWorld = d.dirtyWorld)
    (t : GTree) (p : Path) (h : InvFlags t) :
    InvFlags (t.writeLocalAt p g) ∧ (t.data.dirtyWorld = true → (t.writeLocalAt p g).data.dirtyWorld = true) := by
  unfold GTree.writeLocalAt
  exact appAt_invFlags (fun s hs => (writeLocal_invFlags hg s hs).1)
    (fun s hs _ => (writeLocal_invFlags hg s hs).2) t p h

theorem getLocalTransformAt_invFlags (t : GTree) (p : Path) (h : InvFlags t) :
    InvFlags (t.getLocalTransformAt p)
      ∧ (t.data.dirtyWorld = true → (t.getLocalTransformAt p).data.dirtyWorld = true) := by
  unfold GTree.getLocalTransformAt
  refine appAt_invFlags (fun s hs => ?_) (fun s hs hw => ?_) t p h
  · cases s with | node d c =>
    show InvFlags (GTree.node (if d.dirtyLocal then { d with localTransform := d.trs, dirtyLocal := false } else d) c)
    by_cases hdl : d.dirtyLocal
    · rw [if_pos hdl]
      exact ⟨fun hh => by simp at hh, hs.2⟩
    · rw [if_neg hdl]
      exact hs
  · cases s with | node d c =>
    show (GTree.node (if d.dirtyLocal then { d with localTransform := d.trs, dirtyLocal := false } else d) c).data.dirtyWorld = true
    by_cases hdl : d.dirtyLocal
    · rw [if_pos hdl]; exact hw
    · rw [if_neg hdl]; exact hw

/-! Structure and flag effects of the sync walk and the resolve loop. -/

theorem sub?_cons (d : GNodeData) (c : GForest) (i : Nat) (q : Path) :
    (GTree.node d c).sub? (i :: q) = (c.get? i).bind (fun s => s.sub? q) := by
  simp only [GTree.sub?]
  cases hgi : c.get? i with
  | none => rfl
  | some u => rfl

theorem dataAt_cons (d : GNodeData) (c : GForest) (i : Nat) (q : Path) :
    (GTree.node d c).dataAt (i :: q) = (c.get? i).bind (fun s => s.dataAt q) := by
  rw [GTree.dataAt, sub?_cons]
  cases hgi : c.get? i with
  | none => rfl
  | some u => rfl

theorem pathCleanExceptLast_nil (t : GTree) : PathCleanExceptLast t [] := by
  cases t
  trivial

theorem pathCleanExceptLast_of_clean : ∀ (t : GTree) (p : Path),
    InvFlags t → ∀ e : GNodeData, t.dataAt p.dropLast = some e → e.dirtyWorld = false →
    PathCleanExceptLast t p
  | t, [], _, _, _, _ => pathCleanExceptLast_nil t
  | .node d c, [i], _, e, he, hw => by
    have hg2 : some d = some e := he
    cases (Option.some.inj hg2)
    exact hw
  | .node d c, i :: j :: is, h, e, he, hw => by
    have he2 : (GTree.node d c).dataAt (i :: (j :: is).dropLast) = some e := he
    constructor
    · by_contra hdneg
      have hd : d.dirtyWorld = true := by revert hdneg; cases d.dirtyWorld <;> simp
      have h2 := dw_desc (GTree.node d c) (i :: (j :: is).dropLast) e h hd he2
      rw [h2] at hw
      exact Bool.noConfusion hw
    · intro s hs
      rw [dataAt_cons, hs] at he2
      exact pathCleanExceptLast_of_clean s (j :: is)
        (invFlagsKids_get? c i d.dirtyWorld s h.2 hs).2 e he2 hw

theorem syncAtAux_dataAt_clean : ∀ (anc : List GNodeData) (t : GTree) (p : Path) (e : GNodeData),
    (t.syncAtAux anc p).dataAt p = some e → e.dirtyLocal = false ∧ e.dirtyWorld = false
  | anc, .node d c, [], e, he => by
    have hg2 : some (syncData anc d) = some e := he
    cases (Option.some.inj hg2)
    have hf := syncData_fields anc d
    exact ⟨hf.2.2.2.2.2.2.2.1, hf.2.2.2.2.2.2.2.2⟩
  | anc, .node d c, i :: is, e, he => by
    rw [show (GTree.node d c).syncAtAux anc (i :: is)
        = GTree.node d (c.modifyIdx i (fun s => s.syncAtAux (d :: anc) is)) from rfl,
      dataAt_cons, GForest.get?_modifyIdx_self] at he
    cases hgi : c.get? i with
    | none => rw [hgi] at he; exact Option.noConfusion he
    | some u =>
      rw [hgi] at he
      exact syncAtAux_dataAt_clean (d :: anc) u is e he

theorem sub?_syncAtAux : ∀ (anc : List GNodeData) (t : GTree) (p q : Path),
    ((t.syncAtAux anc p).sub? q).isSome = (t.sub? q).isSome
  | anc, .node d c, [], q => by
    cases q with
    | nil => rfl
    | cons j js => rfl
  | anc, .node d c, i :: is, q => by
    cases q with
    | nil => rfl
    | cons j js =>
      rw [show (GTree.node d c).syncAtAux anc (i :: is)
          = GTree.node d (c.modifyIdx i (fun s => s.syncAtAux (d :: anc) is)) from rfl,
        sub?_cons, sub?_cons]
      by_cases hij : j = i
      · subst hij
        rw [GForest.get?_modifyIdx_self]
        cases hgi : c.get? j with
        | none => rfl
        | some u => exact sub?_syncAtAux (d :: anc) u is js
      · rw [GForest.get?_modifyIdx_ne c i j _ hij]

theorem syncAtAux_invFlags : ∀ (anc : List GNodeData) (t : GTree) (p : Path),
    InvFlags t → PathCleanExceptLast t p → InvFlags (t.syncAtAux anc p)
  | anc, .node d c, [], h, _ => by
    show InvFlags (GTree.node (syncData anc d) c)
    have hf := syncData_fields anc d
    refine ⟨fun hh => ?_, ?_⟩
    · rw [hf.2.2.2.2.2.2.2.1] at hh
      exact Bool.noConfusion hh
    · rw [hf.2.2.2.2.2.2.2.2]
      exact invFlagsKids_mono c d.dirtyWorld h.2
  | anc, .node d c, [i], h, hpc => by
    show InvFlags (GTree.node d (c.modifyIdx i (fun s => s.syncAtAux (d :: anc) [])))
    have hpc2 : d.dirtyWorld = false := hpc
    refine ⟨h.1, ?_⟩
    refine invFlagsKids_modifyIdx c i d.dirtyWorld h.2 (fun s hs => ?_)
    have hfs := invFlagsKids_get? c i d.dirtyWorld s h.2 hs
    exact ⟨syncAtAux_invFlags (d :: anc) s [] hfs.2 (pathCleanExceptLast_nil s),
      fun hdw => absurd (hpc2 ▸ hdw) (by decide)⟩
  | anc, .node d c, i :: j :: is, h, hpc => by
    show InvFlags (GTree.node d (c.modifyIdx i (fun s => s.syncAtAux (d :: anc) (j :: is))))
    have hpc2 : d.dirtyWorld = false
        ∧ ∀ s, c.get? i = some s → PathCleanExceptLast s (j :: is) := hpc
    refine ⟨h.1, ?_⟩
    refine invFlagsKids_modifyIdx c i d.dirtyWorld h.2 (fun s hs => ?_)
    have hfs := invFlagsKids_get? c i d.dirtyWorld s h.2 hs
    exact ⟨syncAtAux_invFlags (d :: anc) s (j :: is) hfs.2 (hpc2.2 s hs),
      fun hdw => absurd (hpc2.1 ▸ hdw) (by decide)⟩

theorem sub?_resolveAt (t : GTree) (p q : Path) :
    ((t.resolveAt p).sub? q).isSome = (t.sub? q).isSome := by
  unfold GTree.resolveAt
  split
  · rfl
  · split
    · rfl
    · split
      · exact sub?_syncAtAux [] t _ q
      · rw [show ((t.resolveAt p.dropLast).syncAt p) = ((t.resolveAt p.dropLast).syncAtAux [] p) from rfl,
          sub?_syncAtAux [] (t.resolveAt p.dropLast) p q]
        exact sub?_resolveAt t p.dropLast q
termination_by p.length
decreasing_by
  cases p with
  | nil => simp_all
  | cons a as => simp only [List.length_dropLast, List.length_cons]; omega

theorem resolveAt_invFlags (t : GTree) (p : Path) (h : InvFlags t) :
    InvFlags (t.resolveAt p)
      ∧ ∀ e, (t.resolveAt p).dataAt p = some e →
        e.dirtyLocal = false ∧ e.dirtyWorld = false := by
  unfold GTree.resolveAt
  split
  · rename_i heq
    refine ⟨h, fun e he => ?_⟩
    rw [GTree.dataAt, heq] at he
    exact Option.noConfusion he
  · split
    · rename_i n heq hc
      refine ⟨h, fun e he => ?_⟩
      rw [GTree.dataAt, heq] at he
      have he2 : some n.data = some e := he
      cases (Option.some.inj he2)
      exact hc
    · split
      · rename_i n heq hc hp
        subst hp
        exact ⟨syncAtAux_invFlags [] t [] h (pathCleanExceptLast_nil t),
          fun e he => syncAtAux_dataAt_clean [] t [] e he⟩
      · rename_i n heq hc hp
        have ih := resolveAt_invFlags t p.dropLast h
        have hex : ((t.resolveAt p.dropLast).sub? p.dropLast).isSome = true := by
          rw [sub?_resolveAt]
          have hsplit : t.sub? (p.dropLast ++ [p.getLast hp]) = some n := by
            rw [List.dropLast_append_getLast hp]
            exact heq
          rw [sub?_append] at hsplit
          cases hdl : t.sub? p.dropLast with
          | none => rw [hdl] at hsplit; exact Option.noConfusion hsplit
          | some u => rfl
        obtain ⟨u2, hu2⟩ := Option.isSome_iff_exists.1 hex
        have hdata : (t.resolveAt p.dropLast).dataAt p.dropLast = some u2.data := by
          rw [GTree.dataAt, hu2]
          rfl
        have hclean := ih.2 u2.data hdata
        have hpc : PathCleanExceptLast (t.resolveAt p.dropLast) p :=
          pathCleanExceptLast_of_clean _ p ih.1 u2.data hdata hclean.2
        exact ⟨syncAtAux_invFlags [] _ p ih.1 hpc,
          fun e he => syncAtAux_dataAt_clean [] _ p e he⟩
termination_by p.length
decreasing_by
  cases p with
  | nil => simp_all
  | cons a as => simp only [List.length_dropLast, List.length_cons]; omega

/-! The enabled-notification walk and the enabled setter. -/

theorem notifyTree_data (e : Bool) (t : GTree) :
    (t.notifyTree e).data = { t.data with enabledInHierarchy := e } := by
  cases t
  rfl

mutual
theorem flagsProj_notifyTree : ∀ (e : Bool) (t : GTree), flagsProj (t.notifyTree e) = flagsProj t
  | e, .node d c => by
    show GTree.node (flagsOnly { d with enabledInHierarchy := e })
        (flagsProjKids (GForest.notifyKids e c)) = GTree.node (flagsOnly d) (flagsProjKids c)
    rw [flagsProjKids_notifyKids e c]
    exact rfl
theorem flagsProjKids_notifyKids : ∀ (e : Bool) (f : GForest),
    flagsProjKids (GForest.notifyKids e f) = flagsProjKids f
  | _, .nil => rfl
  | e, .cons t f => by
    show GForest.cons (flagsProj (if t.data.enabled then t.notifyTree e else t))
        (flagsProjKids (GForest.notifyKids e f)) = GForest.cons (flagsProj t) (flagsProjKids f)
    rw [flagsProjKids_notifyKids e f]
    by_cases he : t.data.enabled
    · rw [if_pos he, flagsProj_notifyTree e t]
    · rw [if_neg he]
end

theorem invFlags_of_flagsProj_eq {a b : GTree} (hab : flagsProj a = flagsProj b) :
    InvFlags a ↔ InvFlags b := by
  rw [← invFlags_flagsProj a, hab, invFlags_flagsProj b]

theorem invEnabled_of_enProj_eq {a b : GTree} (hab : enProj a = enProj b) :
    InvEnabled a ↔ InvEnabled b := by
  rw [← invEnabled_enProj a, hab, invEnabled_enProj b]

theorem en_fields_of_enProj_eq {a b : GTree} (hab : enProj a = enProj b) :
    a.data.enabled = b.data.enabled ∧ a.data.enabledInHierarchy = b.data.enabledInHierarchy := by
  have h1 : enOnly a.data = enOnly b.data := by
    rw [← enProj_data a, ← enProj_data b, hab]
  have h2 := congrArg GNodeData.enabled h1
  have h3 := congrArg GNodeData.enabledInHierarchy h1
  exact ⟨h2, h3⟩

theorem enProjKids_of_enProj_eq {a b : GTree} (hab : enProj a = enProj b) :
    enProjKids a.kids = enProjKids b.kids := by
  cases a with | node da ca =>
  cases b with | node db cb =>
  exact congrArg GTree.kids hab

theorem invEnabledKids_of_enProjKids_eq {ka kb : GForest} (d0 : GNodeData)
    (h : enProjKids ka = enProjKids kb) : InvEnabledKids d0 ka ↔ InvEnabledKids d0 kb := by
  rw [← invEnabledKids_enProj ka d0, h, invEnabledKids_enProj kb d0]

theorem notify_invFlags (t : GTree) (e : Bool) (h : InvFlags t) : InvFlags (t.notifyTree e) :=
  (invFlags_of_flagsProj_eq (flagsProj_notifyTree e t)).2 h

theorem notifyKids_invEnabled : ∀ (c : GForest) (d0 d : GNodeData) (e : Bool),
    InvEnabledKids d0 c → (e = true → d.enabled = true) →
    InvEnabledKids { d with enabledInHierarchy := e } (GForest.notifyKids e c)
  | .nil, _, _, _, _, _ => trivial
  | .cons t f, d0, d, e, h, hde => by
    refine ⟨?_, ?_, notifyKids_invEnabled f d0 d e h.2.2 hde⟩
    · by_cases hte : t.data.enabled
      · rw [if_pos hte, notifyTree_data]
        show e = (t.data.enabled && (d.enabled && e))
        rw [hte]
        cases e with
        | false => simp
        | true => rw [hde rfl]; decide
      · rw [if_neg hte]
        show t.data.enabledInHierarchy = (t.data.enabled && (d.enabled && e))
        have hb : t.data.enabled = false := by revert hte; cases t.data.enabled <;> simp
        have h1 : t.data.enabledInHierarchy = (t.data.enabled && d0.enabledGetter) := h.1
        have h2 : t.data.enabledInHierarchy = false := by rw [hb] at h1; simpa using h1
        rw [h2, hb]
        simp
    · by_cases hte : t.data.enabled
      · rw [if_pos hte]
        cases t with
        | node dt ct =>
          show InvEnabledKids { dt with enabledInHierarchy := e } (GForest.notifyKids e ct)
          exact notifyKids_invEnabled ct dt dt e h.2.1 (fun _ => hte)
      · rw [if_neg hte]
        exact h.2.1

theorem notifyNode_invEnabled (d0 d : GNodeData) (c : GForest) (e : Bool)
    (h : InvEnabledKids d0 c) (hde : e = true → d.enabled = true) :
    InvEnabled ((GTree.node d c).notifyTree e) := by
  show InvEnabledKids { d with enabledInHierarchy := e } (GForest.notifyKids e c)
  exact notifyKids_invEnabled c d0 d e h hde

theorem invEnabledKids_congrGetter : ∀ (c : GForest) (d d2 : GNodeData),
    InvEnabledKids d c → d2.enabledGetter = d.enabledGetter → InvEnabledKids d2 c
  | .nil, _, _, _, _ => trivial
  | .cons t f, d, d2, h, hg => by
    show t.data.enabledInHierarchy = (t.data.enabled && d2.enabledGetter)
      ∧ InvEnabled t ∧ InvEnabledKids d2 f
    rw [hg]
    exact ⟨h.1, h.2.1, invEnabledKids_congrGetter f d d2 h.2.2 hg⟩

theorem enProj_dirtifyIfEnable (e : Bool) (t : GTree) :
    enProj (dirtifyIfEnable e t) = enProj t := by
  unfold dirtifyIfEnable
  by_cases he : e = true
  · rw [if_pos he]
    exact enProj_dirtifyLocal t
  · rw [if_neg he]

theorem dirtifyIfEnable_invFlags (e : Bool) (t : GTree) (h : InvFlags t) :
    InvFlags (dirtifyIfEnable e t)
      ∧ (t.data.dirtyWorld = true → (dirtifyIfEnable e t).data.dirtyWorld = true) := by
  unfold dirtifyIfEnable
  by_cases he : e = true
  · rw [if_pos he]
    have hd := dirtifyLocal_invFlags t h
    exact ⟨hd.1, fun _ => hd.2⟩
  · rw [if_neg he]
    exact ⟨h, fun hw => hw⟩

theorem setEnabledAux_node (d : GNodeData) (c : GForest) (e g : Bool)
    (hInv : InvEnabled (GTree.node d c))
    (hc : d.enabledInHierarchy = (d.enabled && g)) :
    InvEnabled ((GTree.node d c).setEnabledAux (some g) [] e)
      ∧ ((GTree.node d c).setEnabledAux (some g) [] e).data.enabled = e
      ∧ ((GTree.node d c).setEnabledAux (some g) [] e).data.enabledInHierarchy = (e && g) := by
  have hkids : InvEnabledKids d c := hInv
  have hred : (GTree.node d c).setEnabledAux (some g) [] e
      = if d.enabled = e then GTree.node d c
        else notifyIfParentOk (some g) e
          (dirtifyIfEnable e (GTree.node { d with enabled := e } c)) := rfl
  rw [hred]
  by_cases he : d.enabled = e
  · rw [if_pos he]
    refine ⟨hInv, he, ?_⟩
    show d.enabledInHierarchy = (e && g)
    rw [hc, he]
  · rw [if_neg he]
    have hpe : enProj (dirtifyIfEnable e (GTree.node { d with enabled := e } c))
        = enProj (GTree.node { d with enabled := e } c) :=
      enProj_dirtifyIfEnable e _
    have hfe := en_fields_of_enProj_eq hpe
    have hke := enProjKids_of_enProj_eq hpe
    have hkids2 : InvEnabledKids d (dirtifyIfEnable e (GTree.node { d with enabled := e } c)).kids :=
      (invEnabledKids_of_enProjKids_eq d hke).2 hkids
    unfold notifyIfParentOk
    by_cases hg : g = true
    · rw [show ((some g).getD true) = g from rfl, if_pos hg]
      cases hdt : dirtifyIfEnable e (GTree.node { d with enabled := e } c) with
      | node d1 c1 =>
        have hen1 : d1.enabled = e := by
          have := hfe.1
          rw [hdt] at this
          exact this
        refine ⟨?_, ?_, ?_⟩
        · refine notifyNode_invEnabled d d1 c1 e ?_ (fun hh => by rw [hen1]; exact hh)
          have := hkids2
          rw [hdt] at this
          exact this
        · rw [notifyTree_data]
          show d1.enabled = e
          exact hen1
        · rw [notifyTree_data]
          show e = (e && g)
          rw [hg]
          simp
    · rw [show ((some g).getD true) = g from rfl, if_neg hg]
      have hgf : g = false := by revert hg; cases g <;> simp
      have hgetter : d.enabledInHierarchy = false := by
        rw [hc, hgf]
        simp
      refine ⟨?_, ?_, ?_⟩
      · show InvEnabled (dirtifyIfEnable e (GTree.node { d with enabled := e } c))
        refine (invEnabled_of_enProj_eq hpe).2 ?_
        show InvEnabledKids { d with enabled := e } c
        refine invEnabledKids_congrGetter c d { d with enabled := e } hkids ?_
        show (e && d.enabledInHierarchy) = (d.enabled && d.enabledInHierarchy)
        rw [hgetter]
        simp
      · rw [hfe.1]
        exact rfl
      · rw [hfe.2]
        show d.enabledInHierarchy = (e && g)
        rw [hgetter, hgf]
        simp

theorem setEnabledAux_root (d : GNodeData) (c : GForest) (e : Bool)
    (hInv : InvEnabled (GTree.node d c)) :
    InvEnabled ((GTree.node d c).setEnabledAux none [] e) := by
  have hkids : InvEnabledKids d c := hInv
  have hred : (GTree.node d c).setEnabledAux none [] e
      = if d.enabled = e then GTree.node d c
        else notifyIfParentOk none e
          (dirtifyIfEnable e (GTree.node { d with enabled := e } c)) := rfl
  rw [hred]
  by_cases he : d.enabled = e
  · rw [if_pos he]
    exact hInv
  · rw [if_neg he]
    have hpe : enProj (dirtifyIfEnable e (GTree.node { d with enabled := e } c))
        = enProj (GTree.node { d with enabled := e } c) :=
      enProj_dirtifyIfEnable e _
    have hfe := en_fields_of_enProj_eq hpe
    have hke := enProjKids_of_enProj_eq hpe
    have hkids2 : InvEnabledKids d (dirtifyIfEnable e (GTree.node { d with enabled := e } c)).kids :=
      (invEnabledKids_of_enProjKids_eq d hke).2 hkids
    unfold notifyIfParentOk
    show InvEnabled (if (none : Option Bool).getD true then _ else _)
    rw [show ((none : Option Bool).getD true) = true from rfl, if_pos rfl]
    cases hdt : dirtifyIfEnable e (GTree.node { d with enabled := e } c) with
    | node d1 c1 =>
      have hen1 : d1.enabled = e := by
        have := hfe.1
        rw [hdt] at this
        exact this
      refine notifyNode_invEnabled d d1 c1 e ?_ (fun hh => by rw [hen1]; exact hh)
      have := hkids2
      rw [hdt] at this
      exact this

theorem invEnabledKids_modifyIdx {g : GTree → GTree} :
    ∀ (c : GForest) (i : Nat) (d : GNodeData), InvEnabledKids d c →
    (∀ s, c.get? i = some s →
      s.data.enabledInHierarchy = (s.data.enabled && d.enabledGetter) → InvEnabled s →
      InvEnabled (g s) ∧ (g s).data.enabledInHierarchy = ((g s).data.enabled && d.enabledGetter)) →
    InvEnabledKids d (c.modifyIdx i g)
  | .nil, _, _, _, _ => trivial
  | .cons t f, 0, d, h, hg => by
    show (g t).data.enabledInHierarchy = ((g t).data.enabled && d.enabledGetter)
      ∧ InvEnabled (g t) ∧ InvEnabledKids d f
    have h2 := hg t rfl h.1 h.2.1
    exact ⟨h2.2, h2.1, h.2.2⟩
  | .cons t f, i + 1, d, h, hg => by
    show t.data.enabledInHierarchy = (t.data.enabled && d.enabledGetter)
      ∧ InvEnabled t ∧ InvEnabledKids d (f.modifyIdx i g)
    exact ⟨h.1, h.2.1, invEnabledKids_modifyIdx f i d h.2.2 hg⟩

theorem setEnabledAux_deep : ∀ (t : GTree) (i : Nat) (is : Path) (e : Bool) (pg : Option Bool),
    InvEnabled t →
    InvEnabled (t.setEnabledAux pg (i :: is) e) ∧ (t.setEnabledAux pg (i :: is) e).data = t.data
  | .node d c, i, is, e, pg, h => by
    refine ⟨?_, rfl⟩
    show InvEnabledKids d (c.modifyIdx i (fun s => s.setEnabledAux (some d.enabledGetter) is e))
    refine invEnabledKids_modifyIdx c i d h (fun s hs hcons hinv => ?_)
    cases is with
    | nil =>
      cases s with
      | node ds cs =>
        have hn := setEnabledAux_node ds cs e d.enabledGetter hinv hcons
        exact ⟨hn.1, by rw [hn.2.1, hn.2.2]⟩
    | cons j js =>
      have hd := setEnabledAux_deep s j js e (some d.enabledGetter) hinv
      exact ⟨hd.1, by rw [hd.2]; exact hcons⟩

theorem setEnabledAux_invFlags : ∀ (t : GTree) (p : Path) (e : Bool) (pg : Option Bool),
    InvFlags t →
    InvFlags (t.setEnabledAux pg p e)
      ∧ (t.data.dirtyWorld = true → (t.setEnabledAux pg p e).data.dirtyWorld = true)
  | .node d c, [], e, pg, h => by
    have hred : (GTree.node d c).setEnabledAux pg [] e
        = if d.enabled = e then GTree.node d c
          else notifyIfParentOk pg e
            (dirtifyIfEnable e (GTree.node { d with enabled := e } c)) := rfl
    rw [hred]
    by_cases he : d.enabled = e
    · rw [if_pos he]
      exact ⟨h, fun hw => hw⟩
    · rw [if_neg he]
      have h1 : InvFlags (GTree.node { d with enabled := e } c) := ⟨h.1, h.2⟩
      have h2 := dirtifyIfEnable_invFlags e _ h1
      unfold notifyIfParentOk
      by_cases hpg : pg.getD true
      · rw [if_pos hpg]
        refine ⟨notify_invFlags _ e h2.1, fun hw => ?_⟩
        rw [notifyTree_data]
        show (dirtifyIfEnable e (GTree.node { d with enabled := e } c)).data.dirtyWorld = true
        exact h2.2 hw
      · rw [if_neg hpg]
        exact ⟨h2.1, h2.2⟩
  | .node d c, i :: is, e, pg, h => by
    refine ⟨⟨h.1, ?_⟩, fun hw => hw⟩
    refine invFlagsKids_modifyIdx c i d.dirtyWorld h.2 (fun s hs => ?_)
    have hfs := invFlagsKids_get? c i d.dirtyWorld s h.2 hs
    have hrec := setEnabledAux_invFlags s is e (some d.enabledGetter) hfs.2
    exact ⟨hrec.1, fun hdw => hrec.2 (hfs.1 hdw)⟩

/-! Insertion and removal of children. -/

theorem invFlagsKids_push : ∀ (c : GForest) (dw : Bool) (t : GTree),
    InvFlagsKids dw c → (dw = true → t.data.dirtyWorld = true) → InvFlags t →
    InvFlagsKids dw (c.push t)
  | .nil, dw, t, _, hdw, ht => ⟨hdw, ht, trivial⟩
  | .cons u f, dw, t, h, hdw, ht => ⟨h.1, h.2.1, invFlagsKids_push f dw t h.2.2 hdw ht⟩

theorem invFlagsKids_insertIdx : ∀ (c : GForest) (i : Nat) (dw : Bool) (t : GTree),
    InvFlagsKids dw c → (dw = true → t.data.dirtyWorld = true) → InvFlags t →
    InvFlagsKids dw (c.insertIdxClamped i t)
  | .nil, 0, dw, t, h, hdw, ht => ⟨hdw, ht, h⟩
  | .cons u f, 0, dw, t, h, hdw, ht => ⟨hdw, ht, h⟩
  | .nil, _ + 1, dw, t, _, hdw, ht => ⟨hdw, ht, trivial⟩
  | .cons u f, i + 1, dw, t, h, hdw, ht => ⟨h.1, h.2.1, invFlagsKids_insertIdx f i dw t h.2.2 hdw ht⟩

theorem invFlagsKids_removeIdx : ∀ (c : GForest) (i : Nat) (dw : Bool),
    InvFlagsKids dw c → InvFlagsKids dw (c.removeIdx i)
  | .nil, _, _, _ => trivial
  | .cons _ f, 0, dw, h => h.2.2
  | .cons u f, i + 1, dw, h => ⟨h.1, h.2.1, invFlagsKids_removeIdx f i dw h.2.2⟩

theorem invEnabledKids_push : ∀ (c : GForest) (d : GNodeData) (t : GTree),
    InvEnabledKids d c →
    t.data.enabledInHierarchy = (t.data.enabled && d.enabledGetter) → InvEnabled t →
    InvEnabledKids d (c.push t)
  | .nil, d, t, _, hce, ht => ⟨hce, ht, trivial⟩
  | .cons u f, d, t, h, hce, ht => ⟨h.1, h.2.1, invEnabledKids_push f d t h.2.2 hce ht⟩

theorem invEnabledKids_insertIdx : ∀ (c : GForest) (i : Nat) (d : GNodeData) (t : GTree),
    InvEnabledKids d c →
    t.data.enabledInHierarchy = (t.data.enabled && d.enabledGetter) → InvEnabled t →
    InvEnabledKids d (c.insertIdxClamped i t)
  | .nil, 0, d, t, h, hce, ht => ⟨hce, ht, h⟩
  | .cons u f, 0, d, t, h, hce, ht => ⟨hce, ht, h⟩
  | .nil, _ + 1, d, t, _, hce, ht => ⟨hce, ht, trivial⟩
  | .cons u f, i + 1, d, t, h, hce, ht => ⟨h.1, h.2.1, invEnabledKids_insertIdx f i d t h.2.2 hce ht⟩

theorem invEnabledKids_removeIdx : ∀ (c : GForest) (i : Nat) (d : GNodeData),
    InvEnabledKids d c → InvEnabledKids d (c.removeIdx i)
  | .nil, _, _, _ => trivial
  | .cons _ f, 0, d, h => h.2.2
  | .cons u f, i + 1, d, h => ⟨h.1, h.2.1, invEnabledKids_removeIdx f i d h.2.2⟩

theorem onInsertChild_invFlags (d : GNodeData) (c : GTree) (h : InvFlags c) :
    InvFlags (onInsertChild d c) ∧ (onInsertChild d c).data.dirtyWorld = true := by
  unfold onInsertChild
  by_cases he : c.data.enabledInHierarchy = (c.data.enabled && d.enabledGetter)
  · rw [if_pos he]
    exact dirtifyLocal_invFlags c h
  · rw [if_neg he]
    exact dirtifyLocal_invFlags _ (notify_invFlags c _ h)

theorem onInsertChild_invEnabled (d : GNodeData) (c : GTree) (h : InvEnabled c) :
    InvEnabled (onInsertChild d c)
      ∧ (onInsertChild d c).data.enabled = c.data.enabled
      ∧ (onInsertChild d c).data.enabledInHierarchy = (c.data.enabled && d.enabledGetter) := by
  unfold onInsertChild
  by_cases he : c.data.enabledInHierarchy = (c.data.enabled && d.enabledGetter)
  · rw [if_pos he]
    have hp := enProj_dirtifyLocal c
    have hf := en_fields_of_enProj_eq hp
    exact ⟨(invEnabled_of_enProj_eq hp).2 h, hf.1, by rw [hf.2]; exact he⟩
  · rw [if_neg he]
    have hp := enProj_dirtifyLocal (c.notifyTree (c.data.enabled && d.enabledGetter))
    have hf := en_fields_of_enProj_eq hp
    refine ⟨?_, ?_, ?_⟩
    · refine (invEnabled_of_enProj_eq hp).2 ?_
      cases c with
      | node dc cc =>
        refine notifyNode_invEnabled dc dc cc _ h (fun hh => ?_)
        exact ((Bool.and_eq_true _ _) ▸ hh).1
    · rw [hf.1, notifyTree_data]
    · rw [hf.2, notifyTree_data]

theorem appAt_data {g : GTree → GTree} (h2 : ∀ s, (g s).data = s.data) :
    ∀ (t : GTree) (p : Path), (t.appAt g p).data = t.data
  | .node _ _, [] => h2 _
  | .node _ _, _ :: _ => rfl

theorem appAt_invEnabled {g : GTree → GTree}
    (h1 : ∀ s, InvEnabled s → InvEnabled (g s)) (h2 : ∀ s, (g s).data = s.data) :
    ∀ (t : GTree) (p : Path), InvEnabled t → InvEnabled (t.appAt g p)
  | .node d c, [], h => h1 _ h
  | .node d c, i :: is, h => by
    show InvEnabledKids d (c.modifyIdx i (fun s => s.appAt g is))
    refine invEnabledKids_modifyIdx c i d h (fun s hs hcons hinv => ?_)
    refine ⟨appAt_invEnabled h1 h2 s is hinv, ?_⟩
    rw [appAt_data h2]
    exact hcons

theorem attachChildAt_invFlags (t : GTree) (p : Path) (c : GTree)
    (h : InvFlags t) (hc : InvFlags c) : InvFlags (t.attachChildAt p c) := by
  unfold GTree.attachChildAt
  refine (appAt_invFlags (fun s hs => ?_) (fun s hs hw => ?_) t p h).1
  · cases s with
    | node ds cs =>
      show InvFlags (GTree.node ds (cs.push (onInsertChild ds c)))
      have ho := onInsertChild_invFlags ds c hc
      exact ⟨hs.1, invFlagsKids_push cs ds.dirtyWorld _ hs.2 (fun _ => ho.2) ho.1⟩
  · cases s with
    | node ds cs => exact hw

theorem attachChildAt_invEnabled (t : GTree) (p : Path) (c : GTree)
    (h : InvEnabled t) (hc : InvEnabled c) : InvEnabled (t.attachChildAt p c) := by
  unfold GTree.attachChildAt
  refine appAt_invEnabled (fun s hs => ?_) (fun s => ?_) t p h
  · cases s with
    | node ds cs =>
      show InvEnabledKids ds (cs.push (onInsertChild ds c))
      have ho := onInsertChild_invEnabled ds c hc
      refine invEnabledKids_push cs ds _ hs ?_ ho.1
      rw [ho.2.1]
      exact ho.2.2
  · cases s with
    | node ds cs => rfl

theorem insertChildAt_invFlags (t : GTree) (p : Path) (i : Nat) (c : GTree)
    (h : InvFlags t) (hc : InvFlags c) : InvFlags (t.insertChildAt p i c) := by
  unfold GTree.insertChildAt
  refine (appAt_invFlags (fun s hs => ?_) (fun s hs hw => ?_) t p h).1
  · cases s with
    | node ds cs =>
      show InvFlags (GTree.node ds (cs.insertIdxClamped i (onInsertChild ds c)))
      have ho := onInsertChild_invFlags ds c hc
      exact ⟨hs.1, invFlagsKids_insertIdx cs i ds.dirtyWorld _ hs.2 (fun _ => ho.2) ho.1⟩
  · cases s with
    | node ds cs => exact hw

theorem insertChildAt_invEnabled (t : GTree) (p : Path) (i : Nat) (c : GTree)
    (h : InvEnabled t) (hc : InvEnabled c) : InvEnabled (t.insertChildAt p i c) := by
  unfold GTree.insertChildAt
  refine appAt_invEnabled (fun s hs => ?_) (fun s => ?_) t p h
  · cases s with
    | node ds cs =>
      show InvEnabledKids ds (cs.insertIdxClamped i (onInsertChild ds c))
      have ho := onInsertChild_invEnabled ds c hc
      refine invEnabledKids_insertIdx cs i ds _ hs ?_ ho.1
      rw [ho.2.1]
      exact ho.2.2
  · cases s with
    | node ds cs => rfl

theorem detachAt_data : ∀ (t : GTree) (p : Path) (pr : GTree × GTree),
    t.detachAt p = some pr → pr.1.data = t.data
  | .node _ _, [], _, he => Option.noConfusion he
  | .node d c, i :: is, pr, he => by
    simp only [GTree.detachAt] at he
    cases hgi : c.get? i with
    | none => rw [hgi] at he; exact Option.noConfusion he
    | some s =>
      simp only [hgi] at he
      cases is with
      | nil =>
        have he2 : some (GTree.node d (c.removeIdx i), s) = some pr := he
        cases (Option.some.inj he2)
        rfl
      | cons j js =>
        cases hd2 : s.detachAt (j :: js) with
        | none => rw [hd2] at he; exact Option.noConfusion he
        | some pr2 =>
          rw [hd2] at he
          have he2 : some (GTree.node d (c.modifyIdx i (fun _ => pr2.1)), pr2.2) = some pr := he
          cases (Option.some.inj he2)
          rfl

theorem detachAt_invFlags : ∀ (t : GTree) (p : Path) (pr : GTree × GTree),
    InvFlags t → t.detachAt p = some pr → InvFlags pr.1 ∧ InvFlags pr.2
  | .node _ _, [], _, _, he => Option.noConfusion he
  | .node d c, i :: is, pr, h, he => by
    simp only [GTree.detachAt] at he
    cases hgi : c.get? i with
    | none => rw [hgi] at he; exact Option.noConfusion he
    | some s =>
      simp only [hgi] at he
      have hks := invFlagsKids_get? c i d.dirtyWorld s h.2 hgi
      cases is with
      | nil =>
        have he2 : some (GTree.node d (c.removeIdx i), s) = some pr := he
        cases (Option.some.inj he2)
        exact ⟨⟨h.1, invFlagsKids_removeIdx c i d.dirtyWorld h.2⟩, hks.2⟩
      | cons j js =>
        cases hd2 : s.detachAt (j :: js) with
        | none => rw [hd2] at he; exact Option.noConfusion he
        | some pr2 =>
          rw [hd2] at he
          have he2 : some (GTree.node d (c.modifyIdx i (fun _ => pr2.1)), pr2.2) = some pr := he
          cases (Option.some.inj he2)
          have hrec := detachAt_invFlags s (j :: js) pr2 hks.2 hd2
          refine ⟨⟨h.1, ?_⟩, hrec.2⟩
          refine invFlagsKids_modifyIdx c i d.dirtyWorld h.2 (fun u hu => ?_)
          have hueq : u = s := by
            rw [hgi] at hu
            exact (Option.some.inj hu).symm
          subst hueq
          refine ⟨hrec.1, fun hdw => ?_⟩
          rw [detachAt_data u (j :: js) pr2 hd2]
          exact hks.1 hdw

theorem detachAt_invEnabled : ∀ (t : GTree) (p : Path) (pr : GTree × GTree),
    InvEnabled t → t.detachAt p = some pr → InvEnabled pr.1 ∧ InvEnabled pr.2
  | .node _ _, [], _, _, he => Option.noConfusion he
  | .node d c, i :: is, pr, h, he => by
    simp only [GTree.detachAt] at he
    cases hgi : c.get? i with
    | none => rw [hgi] at he; exact Option.noConfusion he
    | some s =>
      simp only [hgi] at he
      have hke : InvEnabledKids d c := h
      have hks := invEnabledKids_get? c i d s hke hgi
      cases is with
      | nil =>
        have he2 : some (GTree.node d (c.removeIdx i), s) = some pr := he
        cases (Option.some.inj he2)
        exact ⟨invEnabledKids_removeIdx c i d hke, hks.2⟩
      | cons j js =>
        cases hd2 : s.detachAt (j :: js) with
        | none => rw [hd2] at he; exact Option.noConfusion he
        | some pr2 =>
          rw [hd2] at he
          have he2 : some (GTree.node d (c.modifyIdx i (fun _ => pr2.1)), pr2.2) = some pr := he
          cases (Option.some.inj he2)
          have hrec := detachAt_invEnabled s (j :: js) pr2 hks.2 hd2
          refine ⟨?_, hrec.2⟩
          show InvEnabledKids d (c.modifyIdx i (fun _ => pr2.1))
          refine invEnabledKids_modifyIdx c i d hke (fun u hu hcons hinv => ?_)
          have hueq : u = s := by
            rw [hgi] at hu
            exact (Option.some.inj hu).symm
          subst hueq
          refine ⟨hrec.1, ?_⟩
          rw [detachAt_data u (j :: js) pr2 hd2]
          exact hcons

/-! The skeleton graph-update loop only writes local TRS state. -/

theorem enProj_writeLocalAt {g : GNodeData → GNodeData}
    (hg : ∀ d, (g d).enabled = d.enabled ∧ (g d).enabledInHierarchy = d.enabledInHierarchy)
    (t : GTree) (p : Path) : enProj (t.writeLocalAt p g) = enProj t := by
  unfold GTree.writeLocalAt
  exact enProj_appAt (fun s => enProj_writeLocal hg s) t p

theorem updateGraphRun_invFlags : ∀ (ks : List InterpKey) (g : GTree),
    InvFlags g → InvFlags (updateGraphRun ks g).2.1
  | [], _, h => h
  | k :: ks, g, h => by
    unfold updateGraphRun
    by_cases hw : k.written
    · rw [if_pos hw]
      cases ht : k.target with
      | none => exact h
      | some path =>
        exact updateGraphRun_invFlags ks _
          (writeLocalAt_invFlags (g := fun d =>
            { d with localPosition := k.pos, localRotation := k.quat, localScale := k.scale })
            (fun d => ⟨rfl, rfl⟩) g path h).1
    · rw [if_neg hw]
      exact updateGraphRun_invFlags ks g h

theorem updateGraphRun_enProj : ∀ (ks : List InterpKey) (g : GTree),
    enProj (updateGraphRun ks g).2.1 = enProj g
  | [], _ => rfl
  | k :: ks, g => by
    unfold updateGraphRun
    by_cases hw : k.written
    · rw [if_pos hw]
      cases ht : k.target with
      | none => exact rfl
      | some path =>
        rw [show (updateGraphRun ks (g.writeLocalAt path (fun d =>
            { d with localPosition := k.pos, localRotation := k.quat, localScale := k.scale })) ).2.1
          = (updateGraphRun ks (g.writeLocalAt path (fun d =>
            { d with localPosition := k.pos, localRotation := k.quat, localScale := k.scale }))).2.1 from rfl]
        rw [updateGraphRun_enProj ks _]
        exact enProj_writeLocalAt (g := fun d =>
            { d with localPosition := k.pos, localRotation := k.quat, localScale := k.scale })
          (fun d => ⟨rfl, rfl⟩) g path
    · rw [if_neg hw]
      exact updateGraphRun_enProj ks g

/-! Per-operation preservation of the two invariants at tree level. -/

theorem setLocalPositionAt_invFlags (t : GTree) (p : Path) (v : Vec3) (h : InvFlags t) :
    InvFlags (t.setLocalPositionAt p v) := by
  unfold GTree.setLocalPositionAt
  refine (writeLocalAt_invFlags ?_ t p h).1
  intro d
  exact ⟨rfl, rfl⟩

theorem setLocalRotationAt_invFlags (t : GTree) (p : Path) (q : Quat) (h : InvFlags t) :
    InvFlags (t.setLocalRotationAt p q) := by
  unfold GTree.setLocalRotationAt
  refine (writeLocalAt_invFlags ?_ t p h).1
  intro d
  exact ⟨rfl, rfl⟩

theorem setLocalEulerAnglesAt_invFlags (t : GTree) (p : Path) (q : Quat) (h : InvFlags t) :
    InvFlags (t.setLocalEulerAnglesAt p q) := by
  unfold GTree.setLocalEulerAnglesAt
  refine (writeLocalAt_invFlags ?_ t p h).1
  intro d
  exact ⟨rfl, rfl⟩

theorem setLocalScaleAt_invFlags (t : GTree) (p : Path) (v : Vec3) (h : InvFlags t) :
    InvFlags (t.setLocalScaleAt p v) := by
  unfold GTree.setLocalScaleAt
  refine (writeLocalAt_invFlags ?_ t p h).1
  intro d
  exact ⟨rfl, rfl⟩

theorem setPositionAt_invFlags (t : GTree) (p : Path) (v : Vec3) (h : InvFlags t) :
    InvFlags (t.setPositionAt p v) := by
  cases p with
  | nil =>
    refine (writeLocalAt_invFlags ?_ t [] h).1
    intro d
    exact ⟨rfl, rfl⟩
  | cons i is =>
    refine (writeLocalAt_invFlags ?_ _ _ ((resolveAt_invFlags t (i :: is).dropLast h).1)).1
    intro d
    exact ⟨rfl, rfl⟩

theorem setRotationAt_invFlags (t : GTree) (p : Path) (q : Quat) (h : InvFlags t) :
    InvFlags (t.setRotationAt p q) := by
  cases p with
  | nil =>
    refine (writeLocalAt_invFlags ?_ t [] h).1
    intro d
    exact ⟨rfl, rfl⟩
  | cons i is =>
    refine (writeLocalAt_invFlags ?_ _ _ ((resolveAt_invFlags t (i :: is).dropLast h).1)).1
    intro d
    exact ⟨rfl, rfl⟩

theorem setEulerAnglesAt_invFlags (t : GTree) (p : Path) (q : Quat) (h : InvFlags t) :
    InvFlags (t.setEulerAnglesAt p q) := by
  cases p with
  | nil =>
    refine (writeLocalAt_invFlags ?_ t [] h).1
    intro d
    exact ⟨rfl, rfl⟩
  | cons i is =>
    refine (writeLocalAt_invFlags ?_ _ _ ((resolveAt_invFlags t (i :: is).dropLast h).1)).1
    intro d
    exact ⟨rfl, rfl⟩

theorem translateAt_invFlags (t : GTree) (p : Path) (v : Vec3) (h : InvFlags t) :
    InvFlags (t.translateAt p v) :=
  setPositionAt_invFlags _ _ _ ((resolveAt_invFlags t p h).1)

theorem translateLocalAt_invFlags (t : GTree) (p : Path) (v : Vec3) (h : InvFlags t) :
    InvFlags (t.translateLocalAt p v) := by
  unfold GTree.translateLocalAt
  refine (writeLocalAt_invFlags ?_ t p h).1
  intro d
  exact ⟨rfl, rfl⟩

theorem rotateAt_invFlags (t : GTree) (p : Path) (q : Quat) (h : InvFlags t) :
    InvFlags (t.rotateAt p q) := by
  cases p with
  | nil =>
    refine (writeLocalAt_invFlags ?_ t [] h).1
    intro d
    exact ⟨rfl, rfl⟩
  | cons i is =>
    refine (writeLocalAt_invFlags ?_ _ _ ((resolveAt_invFlags t (i :: is) h).1)).1
    intro d
    exact ⟨rfl, rfl⟩

theorem rotateLocalAt_invFlags (t : GTree) (p : Path) (q : Quat) (h : InvFlags t) :
    InvFlags (t.rotateLocalAt p q) := by
  unfold GTree.rotateLocalAt
  refine (writeLocalAt_invFlags ?_ t p h).1
  intro d
  exact ⟨rfl, rfl⟩

theorem lookAtAt_invFlags (t : GTree) (p : Path) (q : Quat) (h : InvFlags t) :
    InvFlags (t.lookAtAt p q) :=
  setRotationAt_invFlags _ _ _ ((resolveAt_invFlags t p h).1)

theorem setEnabledAt_invFlags (t : GTree) (p : Path) (e : Bool) (h : InvFlags t) :
    InvFlags (t.setEnabledAt p e) :=
  (setEnabledAux_invFlags t p e none h).1

theorem enProj_setLocalPositionAt (t : GTree) (p : Path) (v : Vec3) :
    enProj (t.setLocalPositionAt p v) = enProj t := by
  unfold GTree.setLocalPositionAt
  refine enProj_writeLocalAt ?_ t p
  intro d
  exact ⟨rfl, rfl⟩

theorem enProj_setLocalRotationAt (t : GTree) (p : Path) (q : Quat) :
    enProj (t.setLocalRotationAt p q) = enProj t := by
  unfold GTree.setLocalRotationAt
  refine enProj_writeLocalAt ?_ t p
  intro d
  exact ⟨rfl, rfl⟩

theorem enProj_setLocalEulerAnglesAt (t : GTree) (p : Path) (q : Quat) :
    enProj (t.setLocalEulerAnglesAt p q) = enProj t := by
  unfold GTree.setLocalEulerAnglesAt
  refine enProj_writeLocalAt ?_ t p
  intro d
  exact ⟨rfl, rfl⟩

theorem enProj_setLocalScaleAt (t : GTree) (p : Path) (v : Vec3) :
    enProj (t.setLocalScaleAt p v) = enProj t := by
  unfold GTree.setLocalScaleAt
  refine enProj_writeLocalAt ?_ t p
  intro d
  exact ⟨rfl, rfl⟩

theorem enProj_setPositionAt (t : GTree) (p : Path) (v : Vec3) :
    enProj (t.setPositionAt p v) = enProj t := by
  cases p with
  | nil =>
    refine enProj_writeLocalAt ?_ t []
    intro d
    exact ⟨rfl, rfl⟩
  | cons i is =>
    refine Eq.trans ?_ (enProj_resolveAt t (i :: is).dropLast)
    refine enProj_writeLocalAt ?_ _ _
    intro d
    exact ⟨rfl, rfl⟩

theorem enProj_setRotationAt (t : GTree) (p : Path) (q : Quat) :
    enProj (t.setRotationAt p q) = enProj t := by
  cases p with
  | nil =>
    refine enProj_writeLocalAt ?_ t []
    intro d
    exact ⟨rfl, rfl⟩
  | cons i is =>
    refine Eq.trans ?_ (enProj_resolveAt t (i :: is).dropLast)
    refine enProj_writeLocalAt ?_ _ _
    intro d
    exact ⟨rfl, rfl⟩

theorem enProj_setEulerAnglesAt (t : GTree) (p : Path) (q : Quat) :
    enProj (t.setEulerAnglesAt p q) = enProj t := by
  cases p with
  | nil =>
    refine enProj_writeLocalAt ?_ t []
    intro d
    exact ⟨rfl, rfl⟩
  | cons i is =>
    refine Eq.trans ?_ (enProj_resolveAt t (i :: is).dropLast)
    refine enProj_writeLocalAt ?_ _ _
    intro d
    exact ⟨rfl, rfl⟩

theorem enProj_translateAt (t : GTree) (p : Path) (v : Vec3) :
    enProj (t.translateAt p v) = enProj t :=
  Eq.trans (enProj_setPositionAt _ _ _) (enProj_resolveAt t p)

theorem enProj_translateLocalAt (t : GTree) (p : Path) (v : Vec3) :
    enProj (t.translateLocalAt p v) = enProj t := by
  unfold GTree.translateLocalAt
  refine enProj_writeLocalAt ?_ t p
  intro d
  exact ⟨rfl, rfl⟩

theorem enProj_rotateAt (t : GTree) (p : Path) (q : Quat) :
    enProj (t.rotateAt p q) = enProj t := by
  cases p with
  | nil =>
    refine enProj_writeLocalAt ?_ t []
    intro d
    exact ⟨rfl, rfl⟩
  | cons i is =>
    refine Eq.trans ?_ (enProj_resolveAt t (i :: is))
    refine enProj_writeLocalAt ?_ _ _
    intro d
    exact ⟨rfl, rfl⟩

theorem enProj_rotateLocalAt (t : GTree) (p : Path) (q : Quat) :
    enProj (t.rotateLocalAt p q) = enProj t := by
  unfold GTree.rotateLocalAt
  refine enProj_writeLocalAt ?_ t p
  intro d
  exact ⟨rfl, rfl⟩

theorem enProj_lookAtAt (t : GTree) (p : Path) (q : Quat) :
    enProj (t.lookAtAt p q) = enProj t :=
  Eq.trans (enProj_setRotationAt _ _ _) (enProj_resolveAt t p)

theorem enProj_getLocalTransformAt (t : GTree) (p : Path) :
    enProj (t.getLocalTransformAt p) = enProj t := by
  unfold GTree.getLocalTransformAt
  refine enProj_appAt (fun s => ?_) t p
  refine enProj_upd ?_ s
  intro d
  constructor <;> by_cases hdl : d.dirtyLocal <;> simp [hdl]

theorem setEnabledAt_invEnabled (t : GTree) (p : Path) (e : Bool) (h : InvEnabled t) :
    InvEnabled (t.setEnabledAt p e) := by
  unfold GTree.setEnabledAt
  cases p with
  | nil =>
    cases t with
    | node d c => exact setEnabledAux_root d c e h
  | cons i is => exact (setEnabledAux_deep t i is e none h).1

theorem resolveAt_invEnabled (t : GTree) (p : Path) (h : InvEnabled t) :
    InvEnabled (t.resolveAt p) :=
  (invEnabled_of_enProj_eq (enProj_resolveAt t p)).2 h

/-! The forest layer: membership plumbing for every hierarchy mutation. -/

theorem mem_modifyIdxL {α : Type} (g : α → α) :
    ∀ (l : List α) (i : Nat) (x : α), x ∈ modifyIdxL l i g →
      x ∈ l ∨ ∃ b, l.get? i = some b ∧ x = g b
  | [], _, x, hx => absurd hx (by simp [modifyIdxL])
  | a :: as, 0, x, hx => by
    simp only [modifyIdxL, List.mem_cons] at hx
    cases hx with
    | inl h => exact Or.inr ⟨a, rfl, h⟩
    | inr h => exact Or.inl (List.mem_cons_of_mem a h)
  | a :: as, i + 1, x, hx => by
    simp only [modifyIdxL, List.mem_cons] at hx
    cases hx with
    | inl h => exact Or.inl (h ▸ List.mem_cons_self a as)
    | inr h =>
      cases mem_modifyIdxL g as i x h with
      | inl h2 => exact Or.inl (List.mem_cons_of_mem a h2)
      | inr h2 => exact Or.inr h2

theorem liftT_pres {P : GTree → Prop} (g : GTree → GTree) (hg : ∀ t, P t → P (g t))
    (i : Nat) (f : Forest) (h : ∀ t ∈ f, P t) : ∀ t ∈ liftT i g f, P t := by
  intro t ht
  unfold liftT at ht
  cases mem_modifyIdxL g f i t ht with
  | inl h2 => exact h t h2
  | inr h2 =>
    obtain ⟨b, hb, rfl⟩ := h2
    exact hg b (h b (List.get?_mem hb))

theorem get?_set_ne {α : Type} : ∀ (l : List α) (i j : Nat) (a : α), i ≠ j →
    (l.set i a).get? j = l.get? j
  | [], _, _, _, _ => rfl
  | _ :: _, 0, 0, _, hij => absurd rfl hij
  | _ :: _, 0, _ + 1, _, _ => rfl
  | _ :: _, _ + 1, 0, _, _ => rfl
  | _ :: as, i + 1, j + 1, a, hij => get?_set_ne as i j a (by omega)

theorem addChild_some_pres {P : GTree → Prop}
    (hattach : ∀ (pt : GTree) (q : Path) (ct : GTree), P pt → P ct → P (pt.attachChildAt q ct)) :
    ∀ (f f2 : Forest) (p c : Addr), (∀ t ∈ f, P t) →
      Forest.addChild f p c = some f2 → ∀ t ∈ f2, P t := by
  intro f f2 p c h he
  unfold Forest.addChild at he
  by_cases h1 : c.2 ≠ []
  · rw [if_pos h1] at he
    exact Option.noConfusion he
  · rw [if_neg h1] at he
    by_cases h2 : p.1 = c.1
    · rw [if_pos h2] at he
      exact Option.noConfusion he
    · rw [if_neg h2] at he
      cases hpt : f.get? p.1 with
      | none => rw [hpt] at he; exact Option.noConfusion he
      | some pt =>
        cases hct : f.get? c.1 with
        | none =>
          simp only [hpt, hct] at he
          exact Option.noConfusion he
        | some ct =>
          simp only [hpt, hct] at he
          by_cases h3 : (pt.sub? p.2).isSome
          · rw [if_pos h3] at he
            have he2 := Option.some.inj he
            subst he2
            intro t ht
            have ht2 := List.eraseIdx_subset _ _ ht
            cases List.mem_or_eq_of_mem_set ht2 with
            | inl h4 => exact h t h4
            | inr h4 =>
              subst h4
              exact hattach pt p.2 ct (h pt (List.get?_mem hpt)) (h ct (List.get?_mem hct))
          · rw [if_neg h3] at he
            exact Option.noConfusion he

theorem insertChild_some_pres {P : GTree → Prop}
    (hinsert : ∀ (pt : GTree) (q : Path) (i : Nat) (ct : GTree),
      P pt → P ct → P (pt.insertChildAt q i ct)) :
    ∀ (f f2 : Forest) (p c : Addr) (i : Nat), (∀ t ∈ f, P t) →
      Forest.insertChild f p c i = some f2 → ∀ t ∈ f2, P t := by
  intro f f2 p c i h he
  unfold Forest.insertChild at he
  by_cases h1 : c.2 ≠ []
  · rw [if_pos h1] at he
    exact Option.noConfusion he
  · rw [if_neg h1] at he
    by_cases h2 : p.1 = c.1
    · rw [if_pos h2] at he
      exact Option.noConfusion he
    · rw [if_neg h2] at he
      cases hpt : f.get? p.1 with
      | none => rw [hpt] at he; exact Option.noConfusion he
      | some pt =>
        cases hct : f.get? c.1 with
        | none =>
          simp only [hpt, hct] at he
          exact Option.noConfusion he
        | some ct =>
          simp only [hpt, hct] at he
          by_cases h3 : (pt.sub? p.2).isSome
          · rw [if_pos h3] at he
            have he2 := Option.some.inj he
            subst he2
            intro t ht
            have ht2 := List.eraseIdx_subset _ _ ht
            cases List.mem_or_eq_of_mem_set ht2 with
            | inl h4 => exact h t h4
            | inr h4 =>
              subst h4
              exact hinsert pt p.2 i ct (h pt (List.get?_mem hpt)) (h ct (List.get?_mem hct))
          · rw [if_neg h3] at he
            exact Option.noConfusion he

theorem removeChild_pres {P : GTree → Prop}
    (hdetach : ∀ (t : GTree) (q : Path) (pr : GTree × GTree),
      P t → t.detachAt q = some pr → P pr.1 ∧ P pr.2) :
    ∀ (f : Forest) (p c : Addr), (∀ t ∈ f, P t) → ∀ t ∈ Forest.removeChild f p c, P t := by
  intro f p c h
  unfold Forest.removeChild
  by_cases h1 : c.1 = p.1 ∧ c.2 ≠ [] ∧ c.2.dropLast = p.2
  · rw [if_pos h1]
    intro t ht
    cases hpt : f.get? p.1 with
    | none =>
      simp only [hpt] at ht
      exact h t ht
    | some pt =>
      simp only [hpt] at ht
      cases hdt : pt.detachAt c.2 with
      | none =>
        simp only [hdt] at ht
        exact h t ht
      | some pr =>
        simp only [hdt] at ht
        have hd := hdetach pt c.2 pr (h pt (List.get?_mem hpt)) hdt
        cases List.mem_append.1 ht with
        | inl h4 =>
          cases List.mem_or_eq_of_mem_set h4 with
          | inl h5 => exact h t h5
          | inr h5 => exact h5 ▸ hd.1
        | inr h4 =>
          have h5 : t = pr.2 := by simpa using h4
          exact h5 ▸ hd.2
  · rw [if_neg h1]
    exact h

theorem reparentDetached_pres {P : GTree → Prop}
    (hdetach : ∀ (t : GTree) (q : Path) (pr : GTree × GTree),
      P t → t.detachAt q = some pr → P pr.1 ∧ P pr.2) :
    ∀ (f : Forest) (c : Addr), (∀ t ∈ f, P t) →
      ∀ t ∈ (Forest.reparentDetached f c).1, P t := by
  intro f c h
  unfold Forest.reparentDetached
  cases c.2 with
  | nil => exact h
  | cons x xs => exact removeChild_pres hdetach f _ c h

theorem reparent_getD_pres {P : GTree → Prop}
    (hattach : ∀ (pt : GTree) (q : Path) (ct : GTree), P pt → P ct → P (pt.attachChildAt q ct))
    (hinsert : ∀ (pt : GTree) (q : Path) (i : Nat) (ct : GTree),
      P pt → P ct → P (pt.insertChildAt q i ct))
    (hdetach : ∀ (t : GTree) (q : Path) (pr : GTree × GTree),
      P t → t.detachAt q = some pr → P pr.1 ∧ P pr.2) :
    ∀ (f : Forest) (c p : Addr) (i : ℤ), (∀ t ∈ f, P t) →
      ∀ t ∈ (Forest.reparent f c p i).getD f, P t := by
  intro f c p i h
  have h1 := reparentDetached_pres hdetach f c h
  unfold Forest.reparent
  by_cases hi : 0 ≤ i
  · rw [if_pos hi]
    cases hins : Forest.insertChild (Forest.reparentDetached f c).1 p
        (Forest.reparentDetached f c).2 i.toNat with
    | none => exact h
    | some f2 =>
      intro t ht
      exact insertChild_some_pres hinsert _ f2 p _ i.toNat h1 hins t ht
  · rw [if_neg hi]
    cases hadd : Forest.addChild (Forest.reparentDetached f c).1 p
        (Forest.reparentDetached f c).2 with
    | none => exact h
    | some f2 =>
      intro t ht
      exact addChild_some_pres hattach _ f2 p _ h1 hadd t ht

theorem acast_some_pres {P : GTree → Prop}
    (hattach : ∀ (pt : GTree) (q : Path) (ct : GTree), P pt → P ct → P (pt.attachChildAt q ct))
    (hdetach : ∀ (t : GTree) (q : Path) (pr : GTree × GTree),
      P t → t.detachAt q = some pr → P pr.1 ∧ P pr.2)
    (hres : ∀ (t : GTree) (q : Path), P t → P (t.resolveAt q))
    (hwp : ∀ (t : GTree) (q2 : Path) (vv : Vec3),
      P t → P (t.writeLocalAt q2 (fun d => { d with localPosition := vv })))
    (hwr : ∀ (t : GTree) (q2 : Path) (qq : Quat),
      P t → P (t.writeLocalAt q2 (fun d => { d with localRotation := qq }))) :
    ∀ (f f2 : Forest) (p c : Addr) (q : Quat), (∀ t ∈ f, P t) →
      Forest.addChildAndSaveTransform f p c q = some f2 → ∀ t ∈ f2, P t := by
  intro f f2 p c q h he
  unfold Forest.addChildAndSaveTransform at he
  cases hc0 : f.get? c.1 with
  | none =>
    simp only [hc0] at he
    exact Option.noConfusion he
  | some ct0 =>
    simp only [hc0] at he
    have hdet : ∀ t ∈ (Forest.acastDetached f c ct0).1, P t := by
      unfold Forest.acastDetached
      refine reparentDetached_pres hdetach _ c ?_
      intro t ht
      cases List.mem_or_eq_of_mem_set ht with
      | inl h2 => exact h t h2
      | inr h2 => exact h2 ▸ hres ct0 c.2 (h ct0 (List.get?_mem hc0))
    cases hct2 : (Forest.acastDetached f c ct0).1.get? (Forest.acastDetached f c ct0).2.1 with
    | none =>
      simp only [hct2] at he
      exact Option.noConfusion he
    | some ct2 =>
      simp only [hct2] at he
      by_cases hp1 : p.1 = (Forest.acastDetached f c ct0).2.1
      · rw [if_pos hp1] at he
        exact Option.noConfusion he
      · rw [if_neg hp1] at he
        cases hpt : (Forest.acastDetached f c ct0).1.get? p.1 with
        | none =>
          simp only [hpt] at he
          exact Option.noConfusion he
        | some pt =>
          simp only [hpt] at he
          by_cases h3 : (pt.sub? p.2).isSome
          · rw [if_pos h3] at he
            have he2 := Option.some.inj he
            subst he2
            have hchild : P (Forest.acastChild f p c q ct0 ct2) := by
              unfold Forest.acastChild
              exact hwr _ _ _ (hwp _ _ _ (hdet ct2 (List.get?_mem hct2)))
            intro t ht
            have ht2 := List.eraseIdx_subset _ _ ht
            cases List.mem_or_eq_of_mem_set ht2 with
            | inl h4 =>
              cases List.mem_or_eq_of_mem_set h4 with
              | inl h5 => exact hdet t h5
              | inr h5 => exact h5 ▸ hchild
            | inr h4 =>
              subst h4
              have hg : ((Forest.acastDetached f c ct0).1.set (Forest.acastDetached f c ct0).2.1
                  (Forest.acastChild f p c q ct0 ct2)).get? p.1 = some pt := by
                rw [get?_set_ne _ _ _ _ (fun hh => hp1 hh.symm)]
                exact hpt
              rw [hg]
              exact hattach pt p.2 _ (hdet pt (List.get?_mem hpt)) hchild
          · rw [if_neg h3] at he
            exact Option.noConfusion he

/-! Every public forest operation preserves both invariants. -/

theorem gop_invFlags (o : GOp) (f : Forest) (h : ∀ t ∈ f, InvFlags t) :
    ∀ t ∈ o.apply f, InvFlags t := by
  cases o with
  | setLocalPosition a v => exact liftT_pres _ (fun t ht => setLocalPositionAt_invFlags t a.2 v ht) a.1 f h
  | setLocalRotation a q => exact liftT_pres _ (fun t ht => setLocalRotationAt_invFlags t a.2 q ht) a.1 f h
  | setLocalEulerAngles a q => exact liftT_pres _ (fun t ht => setLocalEulerAnglesAt_invFlags t a.2 q ht) a.1 f h
  | setLocalScale a v => exact liftT_pres _ (fun t ht => setLocalScaleAt_invFlags t a.2 v ht) a.1 f h
  | setPosition a v => exact liftT_pres _ (fun t ht => setPositionAt_invFlags t a.2 v ht) a.1 f h
  | setRotation a q => exact liftT_pres _ (fun t ht => setRotationAt_invFlags t a.2 q ht) a.1 f h
  | setEulerAngles a q => exact liftT_pres _ (fun t ht => setEulerAnglesAt_invFlags t a.2 q ht) a.1 f h
  | translate a v => exact liftT_pres _ (fun t ht => translateAt_invFlags t a.2 v ht) a.1 f h
  | translateLocal a v => exact liftT_pres _ (fun t ht => translateLocalAt_invFlags t a.2 v ht) a.1 f h
  | rotate a q => exact liftT_pres _ (fun t ht => rotateAt_invFlags t a.2 q ht) a.1 f h
  | rotateLocal a q => exact liftT_pres _ (fun t ht => rotateLocalAt_invFlags t a.2 q ht) a.1 f h
  | lookAt a q => exact liftT_pres _ (fun t ht => lookAtAt_invFlags t a.2 q ht) a.1 f h
  | getWorldTransform a => exact liftT_pres _ (fun t ht => (resolveAt_invFlags t a.2 ht).1) a.1 f h
  | getLocalTransform a => exact liftT_pres _ (fun t ht => (getLocalTransformAt_invFlags t a.2 ht).1) a.1 f h
  | addChild p c =>
    show ∀ t ∈ (Forest.addChild f p c).getD f, InvFlags t
    cases hadd : Forest.addChild f p c with
    | none => exact h
    | some f2 =>
      intro t ht
      exact addChild_some_pres (fun pt q2 ct h1 h2 => attachChildAt_invFlags pt q2 ct h1 h2)
        f f2 p c h hadd t ht
  | insertChild p c i =>
    show ∀ t ∈ (Forest.insertChild f p c i).getD f, InvFlags t
    cases hins : Forest.insertChild f p c i with
    | none => exact h
    | some f2 =>
      intro t ht
      exact insertChild_some_pres (fun pt q2 i2 ct h1 h2 => insertChildAt_invFlags pt q2 i2 ct h1 h2)
        f f2 p c i h hins t ht
  | removeChild p c =>
    exact removeChild_pres (fun t q2 pr h1 h2 => detachAt_invFlags t q2 pr h1 h2) f p c h
  | reparent c p i =>
    exact reparent_getD_pres (fun pt q2 ct h1 h2 => attachChildAt_invFlags pt q2 ct h1 h2)
      (fun pt q2 i2 ct h1 h2 => insertChildAt_invFlags pt q2 i2 ct h1 h2)
      (fun t q2 pr h1 h2 => detachAt_invFlags t q2 pr h1 h2) f c p i h
  | addChildAndSaveTransform p c q =>
    show ∀ t ∈ (Forest.addChildAndSaveTransform f p c q).getD f, InvFlags t
    cases hacast : Forest.addChildAndSaveTransform f p c q with
    | none => exact h
    | some f2 =>
      intro t ht
      refine acast_some_pres (fun pt q2 ct h1 h2 => attachChildAt_invFlags pt q2 ct h1 h2)
        (fun t2 q2 pr h1 h2 => detachAt_invFlags t2 q2 pr h1 h2)
        (fun t2 q2 h1 => (resolveAt_invFlags t2 q2 h1).1)
        (fun t2 q2 vv h1 => ?_) (fun t2 q2 qq h1 => ?_) f f2 p c q h hacast t ht
      · refine (writeLocalAt_invFlags ?_ t2 q2 h1).1
        intro d
        exact ⟨rfl, rfl⟩
      · refine (writeLocalAt_invFlags ?_ t2 q2 h1).1
        intro d
        exact ⟨rfl, rfl⟩
  | setEnabled a e => exact liftT_pres _ (fun t ht => setEnabledAt_invFlags t a.2 e ht) a.1 f h
  | skelUpdateGraph r chans => exact liftT_pres _ (fun t ht => updateGraphRun_invFlags chans t ht) r f h

theorem gop_invEnabled (o : GOp) (f : Forest) (h : ∀ t ∈ f, InvEnabled t) :
    ∀ t ∈ o.apply f, InvEnabled t := by
  cases o with
  | setLocalPosition a v =>
    exact liftT_pres _ (fun t ht => (invEnabled_of_enProj_eq (enProj_setLocalPositionAt t a.2 v)).2 ht) a.1 f h
  | setLocalRotation a q =>
    exact liftT_pres _ (fun t ht => (invEnabled_of_enProj_eq (enProj_setLocalRotationAt t a.2 q)).2 ht) a.1 f h
  | setLocalEulerAngles a q =>
    exact liftT_pres _ (fun t ht => (invEnabled_of_enProj_eq (enProj_setLocalEulerAnglesAt t a.2 q)).2 ht) a.1 f h
  | setLocalScale a v =>
    exact liftT_pres _ (fun t ht => (invEnabled_of_enProj_eq (enProj_setLocalScaleAt t a.2 v)).2 ht) a.1 f h
  | setPosition a v =>
    exact liftT_pres _ (fun t ht => (invEnabled_of_enProj_eq (enProj_setPositionAt t a.2 v)).2 ht) a.1 f h
  | setRotation a q =>
    exact liftT_pres _ (fun t ht => (invEnabled_of_enProj_eq (enProj_setRotationAt t a.2 q)).2 ht) a.1 f h
  | setEulerAngles a q =>
    exact liftT_pres _ (fun t ht => (invEnabled_of_enProj_eq (enProj_setEulerAnglesAt t a.2 q)).2 ht) a.1 f h
  | translate a v =>
    exact liftT_pres _ (fun t ht => (invEnabled_of_enProj_eq (enProj_translateAt t a.2 v)).2 ht) a.1 f h
  | translateLocal a v =>
    exact liftT_pres _ (fun t ht => (invEnabled_of_enProj_eq (enProj_translateLocalAt t a.2 v)).2 ht) a.1 f h
  | rotate a q =>
    exact liftT_pres _ (fun t ht => (invEnabled_of_enProj_eq (enProj_rotateAt t a.2 q)).2 ht) a.1 f h
  | rotateLocal a q =>
    exact liftT_pres _ (fun t ht => (invEnabled_of_enProj_eq (enProj_rotateLocalAt t a.2 q)).2 ht) a.1 f h
  | lookAt a q =>
    exact liftT_pres _ (fun t ht => (invEnabled_of_enProj_eq (enProj_lookAtAt t a.2 q)).2 ht) a.1 f h
  | getWorldTransform a =>
    exact liftT_pres _ (fun t ht => resolveAt_invEnabled t a.2 ht) a.1 f h
  | getLocalTransform a =>
    exact liftT_pres _ (fun t ht => (invEnabled_of_enProj_eq (enProj_getLocalTransformAt t a.2)).2 ht) a.1 f h
  | addChild p c =>
    show ∀ t ∈ (Forest.addChild f p c).getD f, InvEnabled t
    cases hadd : Forest.addChild f p c with
    | none => exact h
    | some f2 =>
      intro t ht
      exact addChild_some_pres (fun pt q2 ct h1 h2 => attachChildAt_invEnabled pt q2 ct h1 h2)
        f f2 p c h hadd t ht
  | insertChild p c i =>
    show ∀ t ∈ (Forest.insertChild f p c i).getD f, InvEnabled t
    cases hins : Forest.insertChild f p c i with
    | none => exact h
    | some f2 =>
      intro t ht
      exact insertChild_some_pres (fun pt q2 i2 ct h1 h2 => insertChildAt_invEnabled pt q2 i2 ct h1 h2)
        f f2 p c i h hins t ht
  | removeChild p c =>
    exact removeChild_pres (fun t q2 pr h1 h2 => detachAt_invEnabled t q2 pr h1 h2) f p c h
  | reparent c p i =>
    exact reparent_getD_pres (fun pt q2 ct h1 h2 => attachChildAt_invEnabled pt q2 ct h1 h2)
      (fun pt q2 i2 ct h1 h2 => insertChildAt_invEnabled pt q2 i2 ct h1 h2)
      (fun t q2 pr h1 h2 => detachAt_invEnabled t q2 pr h1 h2) f c p i h
  | addChildAndSaveTransform p c q =>
    show ∀ t ∈ (Forest.addChildAndSaveTransform f p c q).getD f, InvEnabled t
    cases hacast : Forest.addChildAndSaveTransform f p c q with
    | none => exact h
    | some f2 =>
      intro t ht
      refine acast_some_pres (fun pt q2 ct h1 h2 => attachChildAt_invEnabled pt q2 ct h1 h2)
        (fun t2 q2 pr h1 h2 => detachAt_invEnabled t2 q2 pr h1 h2)
        (fun t2 q2 h1 => resolveAt_invEnabled t2 q2 h1)
        (fun t2 q2 vv h1 => ?_) (fun t2 q2 qq h1 => ?_) f f2 p c q h hacast t ht
      · refine (invEnabled_of_enProj_eq (enProj_writeLocalAt ?_ t2 q2)).2 h1
        intro d
        exact ⟨rfl, rfl⟩
      · refine (invEnabled_of_enProj_eq (enProj_writeLocalAt ?_ t2 q2)).2 h1
        intro d
        exact ⟨rfl, rfl⟩
  | setEnabled a e => exact liftT_pres _ (fun t ht => setEnabledAt_invEnabled t a.2 e ht) a.1 f h
  | skelUpdateGraph r chans =>
    exact liftT_pres _ (fun t ht => (invEnabled_of_enProj_eq (updateGraphRun_enProj chans t)).2 ht) r f h

theorem applyGOps_pres_invFlags : ∀ (ops : List GOp) (f : Forest),
    (∀ t ∈ f, InvFlags t) → ∀ t ∈ applyGOps f ops, InvFlags t
  | [], _, h => h
  | o :: os, f, h => applyGOps_pres_invFlags os (o.apply f) (gop_invFlags o f h)

theorem applyGOps_pres_invEnabled : ∀ (ops : List GOp) (f : Forest),
    (∀ t ∈ f, InvEnabled t) → ∀ t ∈ applyGOps f ops, InvEnabled t
  | [], _, h => h
  | o :: os, f, h => applyGOps_pres_invEnabled os (o.apply f) (gop_invEnabled o f h)

theorem initForest_invFlags (names : List String) : ∀ t ∈ initForest names, InvFlags t := by
  intro t ht
  unfold initForest at ht
  obtain ⟨nm, _, rfl⟩ := List.mem_map.1 ht
  exact ⟨fun hh => by simp [freshData] at hh, trivial⟩

theorem initForest_invEnabled (names : List String) : ∀ t ∈ initForest names, InvEnabled t := by
  intro t ht
  unfold initForest at ht
  obtain ⟨nm, _, rfl⟩ := List.mem_map.1 ht
  exact trivial

theorem invFlags_dataAt (t : GTree) (q : Path) (d : GNodeData) (h : InvFlags t)
    (hd : t.dataAt q = some d) : d.dirtyLocal = true → d.dirtyWorld = true := by
  rw [GTree.dataAt] at hd
  cases hs : t.sub? q with
  | none => rw [hs] at hd; exact Option.noConfusion hd
  | some s =>
    rw [hs] at hd
    have hd2 : some s.data = some d := hd
    cases (Option.some.inj hd2)
    intro hl
    have hI := invFlags_sub? t q s h hs
    cases s with
    | node d0 c0 => exact hI.1 hl

/-- C4: the implication dirtyLocal → dirtyWorld holds at every node of
every forest state reachable from freshly constructed nodes through any
sequence of public GraphNode operations and Skeleton.updateGraph. -/
theorem C4_dirtyLocal_implies_dirtyWorld (names : List String) (ops : List GOp) (a : Addr)
    (d : GNodeData)
    (hd : forestDataAt (applyGOps (initForest names) ops) a = some d)
    (hl : d.dirtyLocal = true) : d.dirtyWorld = true := by
  unfold forestDataAt at hd
  cases hr : (applyGOps (initForest names) ops).get? a.1 with
  | none => rw [hr] at hd; exact Option.noConfusion hd
  | some t =>
    rw [hr] at hd
    have ht : InvFlags t :=
      applyGOps_pres_invFlags ops (initForest names) (initForest_invFlags names) t
        (List.get?_mem hr)
    exact invFlags_dataAt t a.2 d ht hd hl

/-- C4 witness: a fresh node written through setLocalPosition is dirtyLocal,
and the theorem then forces dirtyWorld. -/
theorem C4_witness :
    forestDataAt (applyGOps (initForest ["n"]) [GOp.setLocalPosition (0, []) ⟨1, 0, 0⟩]) (0, [])
      = some ((forestDataAt (applyGOps (initForest ["n"])
          [GOp.setLocalPosition (0, []) ⟨1, 0, 0⟩]) (0, [])).getD (freshData ""))
    ∧ ((forestDataAt (applyGOps (initForest ["n"])
          [GOp.setLocalPosition (0, []) ⟨1, 0, 0⟩]) (0, [])).getD (freshData "")).dirtyLocal = true
    ∧ ((forestDataAt (applyGOps (initForest ["n"])
          [GOp.setLocalPosition (0, []) ⟨1, 0, 0⟩]) (0, [])).getD (freshData "")).dirtyWorld = true :=
  ⟨by with_unfolding_all decide, by with_unfolding_all decide,
    C4_dirtyLocal_implies_dirtyWorld ["n"] [GOp.setLocalPosition (0, []) ⟨1, 0, 0⟩] (0, [])
      ((forestDataAt (applyGOps (initForest ["n"])
          [GOp.setLocalPosition (0, []) ⟨1, 0, 0⟩]) (0, [])).getD (freshData ""))
      (by with_unfolding_all decide) (by with_unfolding_all decide)⟩

/-- C10: dirty-world closure over descendants in every reachable forest
state: a dirtyWorld node has every node below it dirtyWorld. -/
theorem C10_dirtyWorld_descendants (names : List String) (ops : List GOp) (i : Nat)
    (p q : Path) (d e : GNodeData)
    (hd : forestDataAt (applyGOps (initForest names) ops) (i, p) = some d)
    (hw : d.dirtyWorld = true)
    (he : forestDataAt (applyGOps (initForest names) ops) (i, p ++ q) = some e) :
    e.dirtyWorld = true := by
  unfold forestDataAt at hd he
  cases hr : (applyGOps (initForest names) ops).get? i with
  | none => rw [hr] at hd; exact Option.noConfusion hd
  | some t =>
    rw [hr] at hd he
    have ht : InvFlags t :=
      applyGOps_pres_invFlags ops (initForest names) (initForest_invFlags names) t
        (List.get?_mem hr)
    have hd2 : t.dataAt p = some d := hd
    have he2 : t.dataAt (p ++ q) = some e := he
    rw [GTree.dataAt] at hd2
    cases hs : t.sub? p with
    | none => rw [hs] at hd2; exact Option.noConfusion hd2
    | some s =>
      rw [hs] at hd2
      have hd3 : some s.data = some d := hd2
      cases (Option.some.inj hd3)
      have hI : InvFlags s := invFlags_sub? t p s ht hs
      rw [GTree.dataAt, sub?_append, hs] at he2
      have he3 : s.dataAt q = some e := he2
      exact dw_desc s q e hI hw he3

/-- C10 witness: attach b under a and dirty a; both a and its child b end
dirtyWorld, and the theorem carries the flag from a down to b. -/
theorem C10_witness :
    forestDataAt (applyGOps (initForest ["a", "b"])
        [GOp.addChild (0, []) (1, []), GOp.setLocalPosition (0, []) ⟨1, 0, 0⟩]) (0, [])
      = some ((forestDataAt (applyGOps (initForest ["a", "b"])
          [GOp.addChild (0, []) (1, []), GOp.setLocalPosition (0, []) ⟨1, 0, 0⟩]) (0, [])).getD
          (freshData ""))
    ∧ ((forestDataAt (applyGOps (initForest ["a", "b"])
          [GOp.addChild (0, []) (1, []), GOp.setLocalPosition (0, []) ⟨1, 0, 0⟩]) (0, [])).getD
          (freshData "")).dirtyWorld = true
    ∧ forestDataAt (applyGOps (initForest ["a", "b"])
        [GOp.addChild (0, []) (1, []), GOp.setLocalPosition (0, []) ⟨1, 0, 0⟩]) (0, [] ++ [0])
      = some ((forestDataAt (applyGOps (initForest ["a", "b"])
          [GOp.addChild (0, []) (1, []), GOp.setLocalPosition (0, []) ⟨1, 0, 0⟩]) (0, [0])).getD
          (freshData ""))
    ∧ ((forestDataAt (applyGOps (initForest ["a", "b"])
          [GOp.addChild (0, []) (1, []), GOp.setLocalPosition (0, []) ⟨1, 0, 0⟩]) (0, [0])).getD
          (freshData "")).dirtyWorld = true :=
  ⟨by with_unfolding_all decide, by with_unfolding_all decide, by with_unfolding_all decide,
    C10_dirtyWorld_descendants ["a", "b"]
      [GOp.addChild (0, []) (1, []), GOp.setLocalPosition (0, []) ⟨1, 0, 0⟩] 0 [] [0]
      ((forestDataAt (applyGOps (initForest ["a", "b"])
          [GOp.addChild (0, []) (1, []), GOp.setLocalPosition (0, []) ⟨1, 0, 0⟩]) (0, [])).getD
          (freshData ""))
      ((forestDataAt (applyGOps (initForest ["a", "b"])
          [GOp.addChild (0, []) (1, []), GOp.setLocalPosition (0, []) ⟨1, 0, 0⟩]) (0, [0])).getD
          (freshData ""))
      (by with_unfolding_all decide) (by with_unfolding_all decide)
      (by with_unfolding_all decide)⟩

/-- C9 counterexample: a freshly constructed standalone node is enabled and
has no ancestors, so the claimed conjunction over it and its (zero)
ancestors is true, yet its cached enabledInHierarchy is false (the
constructor starts the cache at false and nothing recomputes it for a
root). -/
theorem C9_counterexample :
    forestDataAt (applyGOps (initForest ["n"]) []) (0, []) = some (freshData "n")
    ∧ (freshData "n").enabled = true
    ∧ (freshData "n").enabledInHierarchy = false :=
  ⟨rfl, rfl, rfl⟩

/-- C9 amended: in every reachable forest state, the cached
enabledInHierarchy of every node that has a parent equals its own enabled
flag AND the parent's enabled flag AND the parent's cached
enabledInHierarchy (so by induction along any fully-notified chain it is
the conjunction over the ancestors); for a root node nothing is guaranteed:
a fresh root keeps enabledInHierarchy = false even while enabled. -/
theorem C9_amended (names : List String) (ops : List GOp) (i : Nat) (q : Path) (j : Nat)
    (d s : GNodeData)
    (hd : forestDataAt (applyGOps (initForest names) ops) (i, q) = some d)
    (hs : forestDataAt (applyGOps (initForest names) ops) (i, q ++ [j]) = some s) :
    s.enabledInHierarchy = (s.enabled && (d.enabled && d.enabledInHierarchy)) := by
  unfold forestDataAt at hd hs
  cases hr : (applyGOps (initForest names) ops).get? i with
  | none => rw [hr] at hd; exact Option.noConfusion hd
  | some t =>
    rw [hr] at hd hs
    have ht : InvEnabled t :=
      applyGOps_pres_invEnabled ops (initForest names) (initForest_invEnabled names) t
        (List.get?_mem hr)
    have hd2 : t.dataAt q = some d := hd
    have hs2 : t.dataAt (q ++ [j]) = some s := hs
    rw [GTree.dataAt] at hd2
    cases hsub : t.sub? q with
    | none => rw [hsub] at hd2; exact Option.noConfusion hd2
    | some u =>
      rw [hsub] at hd2
      have hd3 : some u.data = some d := hd2
      cases (Option.some.inj hd3)
      have hIu : InvEnabled u := invEnabled_sub? t q u ht hsub
      rw [GTree.dataAt, sub?_append, hsub] at hs2
      have hs3 : u.dataAt [j] = some s := hs2
      cases u with
      | node du cu =>
        rw [dataAt_cons] at hs3
        cases hgj : cu.get? j with
        | none => rw [hgj] at hs3; exact Option.noConfusion hs3
        | some w =>
          rw [hgj] at hs3
          have hs4 : w.dataAt [] = some s := hs3
          cases w with
          | node dw cw =>
            have hs5 : some dw = some s := hs4
            have heq : dw = s := Option.some.inj hs5
            have hk := invEnabledKids_get? cu j du (GTree.node dw cw) hIu hgj
            rw [← heq]
            exact hk.1

/-- C9 amended witness: after addChild the child's cached flag equals the
amended conjunction (false here, because the fresh root parent's own cache
is false). -/
theorem C9_amended_witness :
    forestDataAt (applyGOps (initForest ["a", "b"]) [GOp.addChild (0, []) (1, [])]) (0, [])
      = some ((forestDataAt (applyGOps (initForest ["a", "b"])
          [GOp.addChild (0, []) (1, [])]) (0, [])).getD (freshData ""))
    ∧ forestDataAt (applyGOps (initForest ["a", "b"]) [GOp.addChild (0, []) (1, [])]) (0, [] ++ [0])
      = some ((forestDataAt (applyGOps (initForest ["a", "b"])
          [GOp.addChild (0, []) (1, [])]) (0, [0])).getD (freshData ""))
    ∧ ((forestDataAt (applyGOps (initForest ["a", "b"])
          [GOp.addChild (0, []) (1, [])]) (0, [0])).getD (freshData "")).enabledInHierarchy
      = (((forestDataAt (applyGOps (initForest ["a", "b"])
          [GOp.addChild (0, []) (1, [])]) (0, [0])).getD (freshData "")).enabled
        && (((forestDataAt (applyGOps (initForest ["a", "b"])
            [GOp.addChild (0, []) (1, [])]) (0, [])).getD (freshData "")).enabled
          && ((forestDataAt (applyGOps (initForest ["a", "b"])
            [GOp.addChild (0, []) (1, [])]) (0, [])).getD (freshData "")).enabledInHierarchy)) :=
  ⟨by with_unfolding_all decide, by with_unfolding_all decide,
    C9_amended ["a", "b"] [GOp.addChild (0, []) (1, [])] 0 [] 0
      ((forestDataAt (applyGOps (initForest ["a", "b"])
          [GOp.addChild (0, []) (1, [])]) (0, [])).getD (freshData ""))
      ((forestDataAt (applyGOps (initForest ["a", "b"])
          [GOp.addChild (0, []) (1, [])]) (0, [0])).getD (freshData ""))
      (by with_unfolding_all decide) (by with_unfolding_all decide)⟩

/-! The resolution invariant of claim C1: structural lemmas. -/

mutual
theorem inv1_invFlags : ∀ (acc : Option Mat4) (t : GTree), Inv1 acc t → InvFlags t
  | acc, .node d c, h =>
    ⟨h.2.1, inv1Kids_invFlagsKids (some (expWorld acc d)) d.dirtyWorld c h.2.2.2.2⟩
theorem inv1Kids_invFlagsKids : ∀ (pw : Option Mat4) (dw : Bool) (c : GForest),
    Inv1Kids pw dw c → InvFlagsKids dw c
  | _, _, .nil, _ => trivial
  | pw, dw, .cons t f, h => ⟨h.1, inv1_invFlags pw t h.2.1, inv1Kids_invFlagsKids pw dw f h.2.2⟩
end

theorem inv1Kids_mono : ∀ (pw : Option Mat4) (dw : Bool) (c : GForest),
    Inv1Kids pw dw c → Inv1Kids pw false c
  | _, _, .nil, _ => trivial
  | pw, dw, .cons t f, h =>
    ⟨fun hh => absurd hh (by decide), h.2.1, inv1Kids_mono pw dw f h.2.2⟩

theorem inv1Kids_get? : ∀ (pw : Option Mat4) (dw : Bool) (c : GForest) (i : Nat) (s : GTree),
    Inv1Kids pw dw c → c.get? i = some s →
    (dw = true → s.data.dirtyWorld = true) ∧ Inv1 pw s
  | _, _, .nil, _, _, _, hg => Option.noConfusion hg
  | pw, dw, .cons t f, 0, s, h, hg => (Option.some.inj hg) ▸ ⟨h.1, h.2.1⟩
  | pw, dw, .cons t f, i + 1, s, h, hg => inv1Kids_get? pw dw f i s h.2.2 hg

mutual
theorem inv1_allDW_of_dw : ∀ (pw : Option Mat4) (t : GTree),
    Inv1 pw t → t.data.dirtyWorld = true → AllDW t
  | pw, .node d c, h, hw =>
    ⟨hw, inv1Kids_allDW (some (expWorld pw d)) d.dirtyWorld c h.2.2.2.2 hw⟩
theorem inv1Kids_allDW : ∀ (pw : Option Mat4) (dw : Bool) (c : GForest),
    Inv1Kids pw dw c → dw = true → AllDWKids c
  | _, _, .nil, _, _ => trivial
  | pw, dw, .cons t f, h, hw =>
    ⟨inv1_allDW_of_dw pw t h.2.1 (h.1 hw), inv1Kids_allDW pw dw f h.2.2 hw⟩
end

mutual
theorem inv1_repw : ∀ (pw pw2 : Option Mat4) (t : GTree),
    Inv1 pw t → AllDW t → Inv1 pw2 t
  | pw, pw2, .node d c, h, ha =>
    ⟨h.1, h.2.1, h.2.2.1, fun hw => Bool.noConfusion (ha.1 ▸ hw),
      inv1Kids_repw (some (expWorld pw d)) (some (expWorld pw2 d)) d.dirtyWorld c h.2.2.2.2 ha.2⟩
theorem inv1Kids_repw : ∀ (pw pw2 : Option Mat4) (dw : Bool) (c : GForest),
    Inv1Kids pw dw c → AllDWKids c → Inv1Kids pw2 dw c
  | _, _, _, .nil, _, _ => trivial
  | pw, pw2, dw, .cons t f, h, ha =>
    ⟨h.1, inv1_repw pw pw2 t h.2.1 ha.1, inv1Kids_repw pw pw2 dw f h.2.2 ha.2⟩
end

theorem inv1Kids_repw_of_dirty : ∀ (pw pw2 : Option Mat4) (c : GForest),
    Inv1Kids pw true c → Inv1Kids pw2 true c
  | _, _, .nil, _ => trivial
  | pw, pw2, .cons t f, h =>
    ⟨h.1, inv1_repw pw pw2 t h.2.1 (inv1_allDW_of_dw pw t h.2.1 (h.1 rfl)),
      inv1Kids_repw_of_dirty pw pw2 f h.2.2⟩

mutual
theorem dwi_inv1 : ∀ (t : GTree) (pw0 pw2 : Option Mat4),
    t.data.scaleCompensation = false →
    (t.data.dirtyLocal = false → t.data.localTransform = t.data.trs) →
    Inv1Kids pw0 false t.kids →
    Inv1 pw2 t.dirtifyWorldImpl ∧ AllDW t.dirtifyWorldImpl
  | .node d c, pw0, pw2, hsc, hlocal, hkids => by
    show Inv1 pw2 (GTree.node { d with dirtyWorld := true } (GForest.dirtifyWorldKids c)) ∧ _
    have hk := dwiKids_inv1 c pw0 (some (expWorld pw2 { d with dirtyWorld := true })) hkids
    exact ⟨⟨hsc, fun _ => rfl, hlocal, fun hw => Bool.noConfusion hw, hk.1⟩, rfl, hk.2⟩
theorem dwiKids_inv1 : ∀ (f : GForest) (pw0 pw2 : Option Mat4),
    Inv1Kids pw0 false f →
    Inv1Kids pw2 true (GForest.dirtifyWorldKids f) ∧ AllDWKids (GForest.dirtifyWorldKids f)
  | .nil, _, _, _ => ⟨trivial, trivial⟩
  | .cons t f, pw0, pw2, h => by
    have hrest := dwiKids_inv1 f pw0 pw2 h.2.2
    by_cases hw : t.data.dirtyWorld
    · refine ⟨?_, ?_⟩
      · show (true = true → (if t.data.dirtyWorld then t else t.dirtifyWorldImpl).data.dirtyWorld = true)
          ∧ Inv1 pw2 (if t.data.dirtyWorld then t else t.dirtifyWorldImpl)
          ∧ Inv1Kids pw2 true (GForest.dirtifyWorldKids f)
        rw [if_pos hw]
        exact ⟨fun _ => hw, inv1_repw pw0 pw2 t h.2.1 (inv1_allDW_of_dw pw0 t h.2.1 hw), hrest.1⟩
      · show AllDW (if t.data.dirtyWorld then t else t.dirtifyWorldImpl)
          ∧ AllDWKids (GForest.dirtifyWorldKids f)
        rw [if_pos hw]
        exact ⟨inv1_allDW_of_dw pw0 t h.2.1 hw, hrest.2⟩
    · cases t with
      | node dt ct =>
        have hin : Inv1 pw0 (GTree.node dt ct) := h.2.1
        have hd := dwi_inv1 (GTree.node dt ct) (some (expWorld pw0 dt)) pw2 hin.1 hin.2.2.1
          (inv1Kids_mono (some (expWorld pw0 dt)) dt.dirtyWorld ct hin.2.2.2.2)
        refine ⟨?_, ?_⟩
        · show (true = true →
              (if (GTree.node dt ct).data.dirtyWorld then GTree.node dt ct
                else (GTree.node dt ct).dirtifyWorldImpl).data.dirtyWorld = true)
            ∧ Inv1 pw2 (if (GTree.node dt ct).data.dirtyWorld then GTree.node dt ct
                else (GTree.node dt ct).dirtifyWorldImpl)
            ∧ Inv1Kids pw2 true (GForest.dirtifyWorldKids f)
          rw [if_neg hw]
          exact ⟨fun _ => hd.2.1, hd.1, hrest.1⟩
        · show AllDW (if (GTree.node dt ct).data.dirtyWorld then GTree.node dt ct
              else (GTree.node dt ct).dirtifyWorldImpl)
            ∧ AllDWKids (GForest.dirtifyWorldKids f)
          rw [if_neg hw]
          exact ⟨hd.2, hrest.2⟩
end

theorem writeLocal_inv1 {g : GNodeData → GNodeData}
    (hg : ∀ d, (g d).scaleCompensation = d.scaleCompensation
      ∧ (g d).dirtyLocal = d.dirtyLocal ∧ (g d).dirtyWorld = d.dirtyWorld)
    (acc : Option Mat4) (t : GTree) (h : Inv1 acc t) :
    Inv1 acc (t.writeLocal g) ∧ (t.writeLocal g).data.dirtyWorld = true := by
  cases t with
  | node d c =>
    unfold GTree.writeLocal
    by_cases hl : ((GTree.node d c).upd g).data.dirtyLocal
    · rw [if_pos hl]
      have hdl : d.dirtyLocal = true := by
        rw [← (hg d).2.1]
        exact hl
      have hdw : d.dirtyWorld = true := h.2.1 hdl
      have hgdw : (g d).dirtyWorld = true := by rw [(hg d).2.2]; exact hdw
      refine ⟨⟨?_, ?_, ?_, ?_, ?_⟩, hgdw⟩
      · rw [(hg d).1]
        exact h.1
      · intro _
        exact hgdw
      · intro hh
        rw [(hg d).2.1, hdl] at hh
        exact Bool.noConfusion hh
      · intro hh
        rw [hgdw] at hh
        exact Bool.noConfusion hh
      · show Inv1Kids (some (expWorld acc (g d))) (g d).dirtyWorld c
        rw [hgdw]
        have hk := h.2.2.2.2
        rw [hdw] at hk
        exact inv1Kids_repw_of_dirty (some (expWorld acc d)) (some (expWorld acc (g d))) c hk
    · rw [if_neg hl]
      unfold GTree.dirtifyLocal
      rw [if_neg hl]
      by_cases hw2 : (((GTree.node d c).upd g).upd (fun x => { x with dirtyLocal := true })).data.dirtyWorld
      · rw [if_pos hw2]
        have hgdw : (g d).dirtyWorld = true := hw2
        have hdw : d.dirtyWorld = true := by rw [← (hg d).2.2]; exact hgdw
        refine ⟨⟨?_, ?_, ?_, ?_, ?_⟩, hgdw⟩
        · show (g d).scaleCompensation = false
          rw [(hg d).1]
          exact h.1
        · intro _
          exact hgdw
        · intro hh
          exact Bool.noConfusion hh
        · intro hh
          rw [show ({ g d with dirtyLocal := true } : GNodeData).dirtyWorld = (g d).dirtyWorld from rfl, hgdw] at hh
          exact Bool.noConfusion hh
        · show Inv1Kids (some (expWorld acc ({ g d with dirtyLocal := true } : GNodeData)))
            ({ g d with dirtyLocal := true } : GNodeData).dirtyWorld c
          rw [show ({ g d with dirtyLocal := true } : GNodeData).dirtyWorld = (g d).dirtyWorld from rfl, hgdw]
          have hk := h.2.2.2.2
          rw [hdw] at hk
          exact inv1Kids_repw_of_dirty (some (expWorld acc d)) _ c hk
      · rw [if_neg hw2]
        unfold GTree.dirtifyWorld
        rw [if_neg hw2, if_neg hw2]
        have hw2b : ¬((g d).dirtyWorld = true) := hw2
        have hgdw : (g d).dirtyWorld = false := by
          revert hw2b
          cases hx : (g d).dirtyWorld <;> simp
        have hdw : d.dirtyWorld = false := by rw [← (hg d).2.2]; exact hgdw
        have hkids : Inv1Kids (some (expWorld acc d)) false c := by
          have hk := h.2.2.2.2
          rw [hdw] at hk
          exact hk
        have hd := dwi_inv1 (GTree.node { g d with dirtyLocal := true } c)
          (some (expWorld acc d)) acc ?_ ?_ ?_
        · exact ⟨hd.1, hd.2.1⟩
        · show (g d).scaleCompensation = false
          rw [(hg d).1]
          exact h.1
        · intro hh
          exact Bool.noConfusion hh
        · exact hkids

theorem inv1Kids_modifyIdx {g : GTree → GTree} :
    ∀ (pw : Option Mat4) (dw : Bool) (c : GForest) (i : Nat), Inv1Kids pw dw c →
    (∀ s, c.get? i = some s → Inv1 pw (g s) ∧ (dw = true → (g s).data.dirtyWorld = true)) →
    Inv1Kids pw dw (c.modifyIdx i g)
  | _, _, .nil, _, _, _ => trivial
  | pw, dw, .cons t f, 0, h, hg => by
    show (dw = true → (g t).data.dirtyWorld = true) ∧ Inv1 pw (g t) ∧ Inv1Kids pw dw f
    exact ⟨(hg t rfl).2, (hg t rfl).1, h.2.2⟩
  | pw, dw, .cons t f, i + 1, h, hg => by
    show (dw = true → t.data.dirtyWorld = true) ∧ Inv1 pw t ∧ Inv1Kids pw dw (f.modifyIdx i g)
    exact ⟨h.1, h.2.1, inv1Kids_modifyIdx pw dw f i h.2.2 hg⟩

theorem appAt_inv1 {g : GTree → GTree}
    (h1 : ∀ (s : GTree) (acc : Option Mat4), Inv1 acc s → Inv1 acc (g s))
    (h2 : ∀ (s : GTree) (acc : Option Mat4), Inv1 acc s → s.data.dirtyWorld = true →
      (g s).data.dirtyWorld = true) :
    ∀ (t : GTree) (p : Path) (acc : Option Mat4), Inv1 acc t →
      Inv1 acc (t.appAt g p) ∧ (t.data.dirtyWorld = true → (t.appAt g p).data.dirtyWorld = true)
  | .node d c, [], acc, h => ⟨h1 _ acc h, h2 _ acc h⟩
  | .node d c, i :: is, acc, h => by
    show Inv1 acc (GTree.node d (c.modifyIdx i (fun s => s.appAt g is)))
      ∧ (d.dirtyWorld = true → d.dirtyWorld = true)
    refine ⟨⟨h.1, h.2.1, h.2.2.1, h.2.2.2.1, ?_⟩, fun hw => hw⟩
    refine inv1Kids_modifyIdx (some (expWorld acc d)) d.dirtyWorld c i h.2.2.2.2 (fun s hs => ?_)
    have hfs := inv1Kids_get? (some (expWorld acc d)) d.dirtyWorld c i s h.2.2.2.2 hs
    have hrec := appAt_inv1 h1 h2 s is (some (expWorld acc d)) hfs.2
    exact ⟨hrec.1, fun hdw => hrec.2 (hfs.1 hdw)⟩

theorem writeLocalAt_inv1 {g : GNodeData → GNodeData}
    (hg : ∀ d, (g d).scaleCompensation = d.scaleCompensation
      ∧ (g d).dirtyLocal = d.dirtyLocal ∧ (g d).dirtyWorld = d.dirtyWorld)
    (t : GTree) (p : Path) (acc : Option Mat4) (h : Inv1 acc t) :
    Inv1 acc (t.writeLocalAt p g) := by
  unfold GTree.writeLocalAt
  exact (appAt_inv1 (fun s a2 hs => (writeLocal_inv1 hg a2 s hs).1)
    (fun s a2 hs _ => (writeLocal_inv1 hg a2 s hs).2) t p acc h).1

theorem expWorld_congr {d1 d2 : GNodeData} (acc : Option Mat4) (h : d1.trs = d2.trs) :
    expWorld acc d1 = expWorld acc d2 := by
  cases acc with
  | none => exact h
  | some pw =>
    show Mat4.mul2 pw d1.trs = Mat4.mul2 pw d2.trs
    rw [h]

theorem getLocalTransformAt_inv1 (t : GTree) (p : Path) (acc : Option Mat4) (h : Inv1 acc t) :
    Inv1 acc (t.getLocalTransformAt p) := by
  unfold GTree.getLocalTransformAt
  refine (appAt_inv1 (fun s a2 hs => ?_) (fun s a2 hs hw => ?_) t p acc h).1
  · cases s with
    | node ds cs =>
      show Inv1 a2 (GTree.node (if ds.dirtyLocal then
        { ds with localTransform := ds.trs, dirtyLocal := false } else ds) cs)
      by_cases hdl : ds.dirtyLocal
      · rw [if_pos hdl]
        have htrs : ({ ds with localTransform := ds.trs, dirtyLocal := false } : GNodeData).trs
            = ds.trs := rfl
        refine ⟨hs.1, ?_, ?_, ?_, ?_⟩
        · intro hh
          exact Bool.noConfusion hh
        · intro _
          exact rfl
        · intro hw
          rw [expWorld_congr a2 htrs]
          exact hs.2.2.2.1 hw
        · rw [expWorld_congr a2 htrs]
          exact hs.2.2.2.2
      · rw [if_neg hdl]
        exact hs
  · cases s with
    | node ds cs =>
      show (GTree.node (if ds.dirtyLocal then
        { ds with localTransform := ds.trs, dirtyLocal := false } else ds) cs).data.dirtyWorld = true
      by_cases hdl : ds.dirtyLocal
      · rw [if_pos hdl]
        exact hw
      · rw [if_neg hdl]
        exact hw

/-! The sync step against a clean ancestor chain restores the expected
world product. -/

theorem trs_congr {d1 d2 : GNodeData} (h1 : d1.localPosition = d2.localPosition)
    (h2 : d1.localRotation = d2.localRotation) (h3 : d1.localScale = d2.localScale) :
    d1.trs = d2.trs := by
  unfold GNodeData.trs
  rw [h1, h2, h3]

theorem syncLocal_local (d : GNodeData) (hl : d.dirtyLocal = false → d.localTransform = d.trs) :
    (syncLocal d).localTransform = d.trs := by
  unfold syncLocal
  by_cases hdl : d.dirtyLocal
  · rw [if_pos hdl]
  · rw [if_neg hdl]
    refine hl ?_
    revert hdl
    cases d.dirtyLocal <;> simp

theorem syncLocal_world (d : GNodeData) : (syncLocal d).worldTransform = d.worldTransform := by
  unfold syncLocal
  by_cases hdl : d.dirtyLocal
  · rw [if_pos hdl]
  · rw [if_neg hdl]

theorem syncWorldDirty_nil (d1 : GNodeData) :
    syncWorldDirty [] d1
      = { d1 with worldTransform := d1.localTransform, dirtyWorld := false } := rfl

theorem syncWorldDirty_cons (parent : GNodeData) (rest : List GNodeData) (d1 : GNodeData) :
    syncWorldDirty (parent :: rest) d1
      = if d1.scaleCompensation then
          { d1 with
            worldTransform := syncCompWorld (parent :: rest) parent d1
            dirtyWorld := false }
        else
          { d1 with
            worldTransform := Mat4.mul2 parent.worldTransform d1.localTransform
            dirtyWorld := false } := rfl

theorem syncData_trs (anc : List GNodeData) (d : GNodeData) : (syncData anc d).trs = d.trs := by
  have h := syncData_fields anc d
  exact trs_congr h.2.1 h.2.2.1 h.2.2.2.1

theorem syncData_local (anc : List GNodeData) (d : GNodeData)
    (hl : d.dirtyLocal = false → d.localTransform = d.trs) :
    (syncData anc d).localTransform = d.trs := by
  unfold syncData
  rw [(syncWorld_fields anc (syncLocal d)).2.2.2.2.1]
  exact syncLocal_local d hl

theorem syncData_world (anc : List GNodeData) (d : GNodeData) (acc : Option Mat4)
    (hsc : d.scaleCompensation = false)
    (hl : d.dirtyLocal = false → d.localTransform = d.trs)
    (hw : d.dirtyWorld = false → d.worldTransform = expWorld acc d)
    (ha : AncWorld acc anc) :
    (syncData anc d).worldTransform = expWorld acc d := by
  have hll := syncLocal_local d hl
  have hfl := syncLocal_fields d
  unfold syncData syncWorld
  by_cases hdw : (syncLocal d).dirtyWorld = true
  · rw [if_pos hdw]
    cases anc with
    | nil =>
      cases acc with
      | none =>
        show ((syncWorldDirty [] (syncLocal d))).worldTransform = expWorld none d
        rw [syncWorldDirty_nil]
        exact hll
      | some pw => exact ha.elim
    | cons parent rest =>
      cases acc with
      | none => exact ha.elim
      | some pw =>
        have hpw : parent.worldTransform = pw := ha
        have hsc1 : ¬((syncLocal d).scaleCompensation = true) := by
          rw [hfl.2.2.2.2.2.2.2.1, hsc]
          simp
        show ((syncWorldDirty (parent :: rest) (syncLocal d))).worldTransform = expWorld (some pw) d
        rw [syncWorldDirty_cons, if_neg hsc1]
        show Mat4.mul2 parent.worldTransform (syncLocal d).localTransform = expWorld (some pw) d
        rw [hpw, hll]
        exact rfl
  · rw [if_neg hdw]
    have hdwf : d.dirtyWorld = false := by
      rw [← hfl.2.2.2.2.1]
      revert hdw
      cases (syncLocal d).dirtyWorld <;> simp
    rw [syncLocal_world d]
    exact hw hdwf

theorem syncAtAux_inv1 : ∀ (t : GTree) (p : Path) (acc : Option Mat4) (anc : List GNodeData),
    Inv1 acc t → AncWorld acc anc → PathCleanExceptLast t p →
    Inv1 acc (t.syncAtAux anc p)
  | .node d c, [], acc, anc, h, ha, _ => by
    show Inv1 acc (GTree.node (syncData anc d) c)
    have hT : (syncData anc d).trs = d.trs := syncData_trs anc d
    have hf := syncData_fields anc d
    have hW : (syncData anc d).worldTransform = expWorld acc d :=
      syncData_world anc d acc h.1 h.2.2.1 h.2.2.2.1 ha
    refine ⟨?_, ?_, ?_, ?_, ?_⟩
    · rw [hf.2.2.2.2.2.2.1]
      exact h.1
    · intro hh
      rw [hf.2.2.2.2.2.2.2.1] at hh
      exact Bool.noConfusion hh
    · intro _
      rw [syncData_local anc d h.2.2.1, hT]
    · intro _
      rw [hW, expWorld_congr acc hT]
    · rw [expWorld_congr acc hT, hf.2.2.2.2.2.2.2.2]
      exact inv1Kids_mono (some (expWorld acc d)) d.dirtyWorld c h.2.2.2.2
  | .node d c, [i], acc, anc, h, ha, hpc => by
    show Inv1 acc (GTree.node d (c.modifyIdx i (fun s => s.syncAtAux (d :: anc) [])))
    have hpc2 : d.dirtyWorld = false := hpc
    refine ⟨h.1, h.2.1, h.2.2.1, h.2.2.2.1, ?_⟩
    refine inv1Kids_modifyIdx (some (expWorld acc d)) d.dirtyWorld c i h.2.2.2.2 (fun s hs => ?_)
    have hfs := inv1Kids_get? (some (expWorld acc d)) d.dirtyWorld c i s h.2.2.2.2 hs
    refine ⟨syncAtAux_inv1 s [] (some (expWorld acc d)) (d :: anc) hfs.2 ?_
      (pathCleanExceptLast_nil s), fun hdw => absurd (hpc2 ▸ hdw) (by decide)⟩
    show d.worldTransform = expWorld acc d
    exact h.2.2.2.1 hpc2
  | .node d c, i :: j :: is, acc, anc, h, ha, hpc => by
    show Inv1 acc (GTree.node d (c.modifyIdx i (fun s => s.syncAtAux (d :: anc) (j :: is))))
    have hpc2 : d.dirtyWorld = false
        ∧ ∀ s, c.get? i = some s → PathCleanExceptLast s (j :: is) := hpc
    refine ⟨h.1, h.2.1, h.2.2.1, h.2.2.2.1, ?_⟩
    refine inv1Kids_modifyIdx (some (expWorld acc d)) d.dirtyWorld c i h.2.2.2.2 (fun s hs => ?_)
    have hfs := inv1Kids_get? (some (expWorld acc d)) d.dirtyWorld c i s h.2.2.2.2 hs
    refine ⟨syncAtAux_inv1 s (j :: is) (some (expWorld acc d)) (d :: anc) hfs.2 ?_
      (hpc2.2 s hs), fun hdw => absurd (hpc2.1 ▸ hdw) (by decide)⟩
    show d.worldTransform = expWorld acc d
    exact h.2.2.2.1 hpc2.1

theorem resolveAt_inv1 (t : GTree) (p : Path) (h : Inv1 none t) :
    Inv1 none (t.resolveAt p)
      ∧ ∀ e, (t.resolveAt p).dataAt p = some e →
        e.dirtyLocal = false ∧ e.dirtyWorld = false := by
  unfold GTree.resolveAt
  split
  · rename_i heq
    refine ⟨h, fun e he => ?_⟩
    rw [GTree.dataAt, heq] at he
    exact Option.noConfusion he
  · split
    · rename_i n heq hc
      refine ⟨h, fun e he => ?_⟩
      rw [GTree.dataAt, heq] at he
      have he2 : some n.data = some e := he
      cases (Option.some.inj he2)
      exact hc
    · split
      · rename_i n heq hc hp
        subst hp
        exact ⟨syncAtAux_inv1 t [] none [] h trivial (pathCleanExceptLast_nil t),
          fun e he => syncAtAux_dataAt_clean [] t [] e he⟩
      · rename_i n heq hc hp
        have ih := resolveAt_inv1 t p.dropLast h
        have hex : ((t.resolveAt p.dropLast).sub? p.dropLast).isSome = true := by
          rw [sub?_resolveAt]
          have hsplit : t.sub? (p.dropLast ++ [p.getLast hp]) = some n := by
            rw [List.dropLast_append_getLast hp]
            exact heq
          rw [sub?_append] at hsplit
          cases hdl : t.sub? p.dropLast with
          | none => rw [hdl] at hsplit; exact Option.noConfusion hsplit
          | some u => rfl
        obtain ⟨u2, hu2⟩ := Option.isSome_iff_exists.1 hex
        have hdata : (t.resolveAt p.dropLast).dataAt p.dropLast = some u2.data := by
          rw [GTree.dataAt, hu2]
          rfl
        have hclean := ih.2 u2.data hdata
        have hpc : PathCleanExceptLast (t.resolveAt p.dropLast) p :=
          pathCleanExceptLast_of_clean _ p (inv1_invFlags none _ ih.1) u2.data hdata hclean.2
        exact ⟨syncAtAux_inv1 _ p none [] ih.1 trivial hpc,
          fun e he => syncAtAux_dataAt_clean [] _ p e he⟩
termination_by p.length
decreasing_by
  cases p with
  | nil => simp_all
  | cons a as => simp only [List.length_dropLast, List.length_cons]; omega

/-! The path product: the resolved world matrix is the chain product. -/

theorem pathProdAux_cons (acc : Option Mat4) (d : GNodeData) (c : GForest) (i : Nat) (is : Path) :
    pathProdAux acc (GTree.node d c) (i :: is)
      = (c.get? i).bind (fun s => pathProdAux (some (expWorld acc d)) s is) := by
  show (match c.get? i with
    | none => none
    | some s => pathProdAux (some (expWorld acc d)) s is) = _
  cases hgi : c.get? i with
  | none => rfl
  | some s => rfl

theorem inv1_world_at : ∀ (t : GTree) (p : Path) (acc : Option Mat4) (e : GNodeData),
    Inv1 acc t → t.dataAt p = some e → e.dirtyWorld = false →
    pathProdAux acc t p = some e.worldTransform
  | .node d c, [], acc, e, h, he, hw => by
    have he2 : some d = some e := he
    cases (Option.some.inj he2)
    show some (expWorld acc d) = some d.worldTransform
    rw [h.2.2.2.1 hw]
  | .node d c, i :: is, acc, e, h, he, hw => by
    rw [dataAt_cons] at he
    rw [pathProdAux_cons]
    cases hgi : c.get? i with
    | none => rw [hgi] at he; exact Option.noConfusion he
    | some s =>
      rw [hgi] at he
      have hfs := inv1Kids_get? (some (expWorld acc d)) d.dirtyWorld c i s h.2.2.2.2 hgi
      exact inv1_world_at s is (some (expWorld acc d)) e hfs.2 he hw

theorem pathProdAux_none : ∀ (t : GTree) (p : Path) (acc : Option Mat4),
    t.sub? p = none → pathProdAux acc t p = none
  | .node d c, [], _, hs => by
    have hs2 : some (GTree.node d c) = (none : Option GTree) := hs
    exact Option.noConfusion hs2
  | .node d c, i :: is, acc, hs => by
    rw [sub?_cons] at hs
    rw [pathProdAux_cons]
    cases hgi : c.get? i with
    | none => rfl
    | some s =>
      rw [hgi] at hs
      exact pathProdAux_none s is (some (expWorld acc d)) hs

theorem pathProdAux_syncAtAux : ∀ (t : GTree) (p q : Path) (acc : Option Mat4)
    (anc : List GNodeData),
    pathProdAux acc (t.syncAtAux anc p) q = pathProdAux acc t q
  | .node d c, [], q, acc, anc => by
    cases q with
    | nil =>
      show some (expWorld acc (syncData anc d)) = some (expWorld acc d)
      rw [expWorld_congr acc (syncData_trs anc d)]
    | cons j js =>
      rw [show (GTree.node d c).syncAtAux anc [] = GTree.node (syncData anc d) c from rfl,
        pathProdAux_cons, pathProdAux_cons, expWorld_congr acc (syncData_trs anc d)]
  | .node d c, i :: is, q, acc, anc => by
    cases q with
    | nil => rfl
    | cons j js =>
      rw [show (GTree.node d c).syncAtAux anc (i :: is)
          = GTree.node d (c.modifyIdx i (fun s => s.syncAtAux (d :: anc) is)) from rfl,
        pathProdAux_cons, pathProdAux_cons]
      by_cases hij : j = i
      · subst hij
        rw [GForest.get?_modifyIdx_self]
        cases hgj : c.get? j with
        | none => rfl
        | some s => exact pathProdAux_syncAtAux s is js (some (expWorld acc d)) (d :: anc)
      · rw [GForest.get?_modifyIdx_ne c i j _ hij]

theorem pathProdAux_resolveAt (t : GTree) (p q : Path) (acc : Option Mat4) :
    pathProdAux acc (t.resolveAt p) q = pathProdAux acc t q := by
  unfold GTree.resolveAt
  split
  · rfl
  · split
    · rfl
    · split
      · exact pathProdAux_syncAtAux t _ q acc []
      · rw [show ((t.resolveAt p.dropLast).syncAt p) = ((t.resolveAt p.dropLast).syncAtAux [] p) from rfl,
          pathProdAux_syncAtAux (t.resolveAt p.dropLast) p q acc []]
        exact pathProdAux_resolveAt t p.dropLast q acc
termination_by p.length
decreasing_by
  cases p with
  | nil => simp_all
  | cons a as => simp only [List.length_dropLast, List.length_cons]; omega

/-! The assembled initial hierarchy satisfies the resolution invariant. -/

theorem setTRS_id : Mat4.setTRS Vec3.zero Quat.one ⟨1, 1, 1⟩ = Mat4.one := by
  with_unfolding_all decide

mutual
theorem inv1_buildInitSub : ∀ (t : GTree) (pw : Option Mat4), Inv1 pw (buildInitSub t)
  | .node d c, pw => by
    show Inv1 pw (GTree.node (freshDirty d.name) (buildInitKids c))
    refine ⟨rfl, fun _ => rfl, ?_, ?_, ?_⟩
    · intro hh
      exact Bool.noConfusion hh
    · intro hh
      exact Bool.noConfusion hh
    · exact inv1_buildInitKids c (some (expWorld pw (freshDirty d.name)))
theorem inv1_buildInitKids : ∀ (f : GForest) (pw : Option Mat4),
    Inv1Kids pw true (buildInitKids f)
  | .nil, _ => trivial
  | .cons t f2, pw => by
    show (true = true → (buildInitSub t).data.dirtyWorld = true)
      ∧ Inv1 pw (buildInitSub t) ∧ Inv1Kids pw true (buildInitKids f2)
    refine ⟨fun _ => ?_, inv1_buildInitSub t pw, inv1_buildInitKids f2 pw⟩
    cases t with
    | node d c => exact rfl
end

theorem inv1_buildInit (shape : GTree) : Inv1 none (buildInit shape) := by
  cases shape with
  | node d c =>
    show Inv1 none (GTree.node (freshData d.name) (buildInitKids c))
    refine ⟨rfl, ?_, ?_, ?_, ?_⟩
    · intro hh
      exact Bool.noConfusion hh
    · intro _
      show Mat4.one = (freshData d.name).trs
      exact setTRS_id.symm
    · intro _
      show Mat4.one = expWorld none (freshData d.name)
      exact setTRS_id.symm
    · exact inv1Kids_mono (some (expWorld none (freshData d.name))) true (buildInitKids c)
        (inv1_buildInitKids c (some (expWorld none (freshData d.name))))

theorem top_inv1 (o : TOp) (t : GTree) (h : Inv1 none t) : Inv1 none (o.apply t) := by
  cases o with
  | setLocalPosition p v =>
    refine writeLocalAt_inv1 ?_ t p none h
    intro d
    exact ⟨rfl, rfl, rfl⟩
  | setLocalRotation p q =>
    refine writeLocalAt_inv1 ?_ t p none h
    intro d
    exact ⟨rfl, rfl, rfl⟩
  | setLocalEulerAngles p q =>
    refine writeLocalAt_inv1 ?_ t p none h
    intro d
    exact ⟨rfl, rfl, rfl⟩
  | setLocalScale p v =>
    refine writeLocalAt_inv1 ?_ t p none h
    intro d
    exact ⟨rfl, rfl, rfl⟩
  | setPosition p v =>
    cases p with
    | nil =>
      refine writeLocalAt_inv1 ?_ t [] none h
      intro d
      exact ⟨rfl, rfl, rfl⟩
    | cons i is =>
      refine writeLocalAt_inv1 ?_ _ _ none ((resolveAt_inv1 t (i :: is).dropLast h).1)
      intro d
      exact ⟨rfl, rfl, rfl⟩
  | setRotation p q =>
    cases p with
    | nil =>
      refine writeLocalAt_inv1 ?_ t [] none h
      intro d
      exact ⟨rfl, rfl, rfl⟩
    | cons i is =>
      refine writeLocalAt_inv1 ?_ _ _ none ((resolveAt_inv1 t (i :: is).dropLast h).1)
      intro d
      exact ⟨rfl, rfl, rfl⟩
  | setEulerAngles p q =>
    cases p with
    | nil =>
      refine writeLocalAt_inv1 ?_ t [] none h
      intro d
      exact ⟨rfl, rfl, rfl⟩
    | cons i is =>
      refine writeLocalAt_inv1 ?_ _ _ none ((resolveAt_inv1 t (i :: is).dropLast h).1)
      intro d
      exact ⟨rfl, rfl, rfl⟩
  | translate p v =>
    have h1 := (resolveAt_inv1 t p h).1
    cases p with
    | nil =>
      refine writeLocalAt_inv1 ?_ _ [] none h1
      intro d
      exact ⟨rfl, rfl, rfl⟩
    | cons i is =>
      refine writeLocalAt_inv1 ?_ _ _ none ((resolveAt_inv1 _ (i :: is).dropLast h1).1)
      intro d
      exact ⟨rfl, rfl, rfl⟩
  | translateLocal p v =>
    refine writeLocalAt_inv1 ?_ t p none h
    intro d
    exact ⟨rfl, rfl, rfl⟩
  | rotate p q =>
    cases p with
    | nil =>
      refine writeLocalAt_inv1 ?_ t [] none h
      intro d
      exact ⟨rfl, rfl, rfl⟩
    | cons i is =>
      refine writeLocalAt_inv1 ?_ _ _ none ((resolveAt_inv1 t (i :: is) h).1)
      intro d
      exact ⟨rfl, rfl, rfl⟩
  | rotateLocal p q =>
    refine writeLocalAt_inv1 ?_ t p none h
    intro d
    exact ⟨rfl, rfl, rfl⟩
  | lookAt p q =>
    have h1 := (resolveAt_inv1 t p h).1
    cases p with
    | nil =>
      refine writeLocalAt_inv1 ?_ _ [] none h1
      intro d
      exact ⟨rfl, rfl, rfl⟩
    | cons i is =>
      refine writeLocalAt_inv1 ?_ _ _ none ((resolveAt_inv1 _ (i :: is).dropLast h1).1)
      intro d
      exact ⟨rfl, rfl, rfl⟩
  | getWorldTransform p => exact (resolveAt_inv1 t p h).1
  | getLocalTransform p => exact getLocalTransformAt_inv1 t p none h
  | drainSync p => exact (resolveAt_inv1 t p h).1

theorem applyTOps_inv1 : ∀ (ops : List TOp) (t : GTree),
    Inv1 none t → Inv1 none (applyTOps t ops)
  | [], _, h => h
  | o :: os, t, h => applyTOps_inv1 os (o.apply t) (top_inv1 o t h)

/-- C1: on a hierarchy assembled from fresh nodes, after any sequence of
public transform operations and sync-queue drains, getWorldTransform of a
node whose chain is free of scale compensation returns exactly the product
of the local TRS matrices along the path from the root, left-associated —
at a root the node's own TRS matrix — independent of the drain
interleaving, which the operation list quantifies over. -/
theorem C1_getWorldTransform_is_path_product (shape : GTree) (ops : List TOp) (p : Path)
    (hsf : (applyTOps (buildInit shape) ops).pathScaleFree p = true) :
    (applyTOps (buildInit shape) ops).getWorldTransformAt p
      = (applyTOps (buildInit shape) ops).pathProductAt p := by
  have hI : Inv1 none (applyTOps (buildInit shape) ops) :=
    applyTOps_inv1 ops (buildInit shape) (inv1_buildInit shape)
  unfold GTree.getWorldTransformAt GTree.pathProductAt
  cases hs : (applyTOps (buildInit shape) ops).sub? p with
  | none =>
    have h2 : (((applyTOps (buildInit shape) ops).resolveAt p).sub? p).isSome = false := by
      rw [sub?_resolveAt, hs]
      rfl
    have h1 : ((applyTOps (buildInit shape) ops).resolveAt p).sub? p = none := by
      cases hx : ((applyTOps (buildInit shape) ops).resolveAt p).sub? p with
      | none => rfl
      | some u => rw [hx] at h2; exact Bool.noConfusion h2
    rw [GTree.dataAt, h1, pathProdAux_none _ p none hs]
    rfl
  | some n =>
    have hres := resolveAt_inv1 (applyTOps (buildInit shape) ops) p hI
    have hex : (((applyTOps (buildInit shape) ops).resolveAt p).sub? p).isSome = true := by
      rw [sub?_resolveAt, hs]
      rfl
    obtain ⟨u, hu⟩ := Option.isSome_iff_exists.1 hex
    have hdata : ((applyTOps (buildInit shape) ops).resolveAt p).dataAt p = some u.data := by
      rw [GTree.dataAt, hu]
      rfl
    have hclean := hres.2 u.data hdata
    have hW := inv1_world_at ((applyTOps (buildInit shape) ops).resolveAt p) p none u.data
      hres.1 hdata hclean.2
    rw [hdata, ← pathProdAux_resolveAt (applyTOps (buildInit shape) ops) p p none, hW]
    rfl

/-- C1 witness: a two-node chain, the child's local position written, the
world transform of the child read against the path product. -/
theorem C1_witness :
    (applyTOps (buildInit (GTree.node (freshData "r")
        (GForest.cons (GTree.node (freshData "c") GForest.nil) GForest.nil)))
        [TOp.setLocalPosition [0] ⟨1, 2, 3⟩]).pathScaleFree [0] = true
    ∧ (applyTOps (buildInit (GTree.node (freshData "r")
        (GForest.cons (GTree.node (freshData "c") GForest.nil) GForest.nil)))
        [TOp.setLocalPosition [0] ⟨1, 2, 3⟩]).getWorldTransformAt [0]
      = (applyTOps (buildInit (GTree.node (freshData "r")
        (GForest.cons (GTree.node (freshData "c") GForest.nil) GForest.nil)))
        [TOp.setLocalPosition [0] ⟨1, 2, 3⟩]).pathProductAt [0] :=
  ⟨by with_unfolding_all decide,
    C1_getWorldTransform_is_path_product
      (GTree.node (freshData "r")
        (GForest.cons (GTree.node (freshData "c") GForest.nil) GForest.nil))
      [TOp.setLocalPosition [0] ⟨1, 2, 3⟩] [0] (by with_unfolding_all decide)⟩

end PlayCanvas
